import Mathlib

/-! # Infix calculator: token reader, evaluator and driver

A shallow embedding of `src/InfixCalculator/main.cpp` and `stack.h`, followed by the
properties proved about it.

* `int` is the 32-bit two's-complement integer of the usual builds. The arithmetic of
  `eval` is modelled on `Int` with an explicit wrap to that range (`wrap`); the
  division `INT_MIN / -1`, like a division by zero, has no result (the machine
  instruction traps). The token reader accumulates the value of a digit run over
  exact integers; it agrees with the source for every literal below `2^31`.
* `stdout` is a list of `Printed` events, one per `printf` call, in order;
  `Printed.render` gives the text of each event.
* `stdin` is the list of characters still to be read.
* A stack is a list whose head is the top element. The container behind
  `my::Stack`, `vector.h`, is not among the sources; the four operations the stack
  uses are modelled in the namespace `Vector`.
* C++ does not fix the order in which the arguments of a call are evaluated;
  `popAndEval` passes three `popAndGet()` calls as arguments, so the model
  takes that order as the parameter `ArgOrder`. The builds of g++ evaluate them
  from right to left (`ArgOrder.rightToLeft`): the operator is popped first, then
  `rhs`, then `lhs`, as the comments of the source say.
* Loops are recursive functions with a bound on the number of iterations; the
  bound of each inner loop is stated where it is called, the bound of the token
  loop is an argument of `processExpression`.
-/

namespace Calculator

/-! ## Tokens -/

/-- Enumerated type specifying all of the tokens (`enum TokenType`). -/
inductive TokenType
  | ERROR | OPERATOR | VALUE | EOLN | QUIT | HELP | EOFILE
  deriving DecidableEq, Repr

/-- Class `Token`: a type tag with an operator character and a value, the unused
ones holding `'$'` and `-999`. -/
structure Token where
  type : TokenType
  op : Char
  val : Int
  deriving DecidableEq, Repr

namespace Token

def valueError : Int := -999

def opError : Char := '$'

/-- Constructor `Token(TokenType t)`. -/
def ofType (t : TokenType) : Token := ⟨t, opError, valueError⟩

/-- Constructor `Token(char op)`. -/
def ofOp (op : Char) : Token := ⟨TokenType.OPERATOR, op, valueError⟩

/-- Constructor `Token(value_t val)`. -/
def ofValue (val : Int) : Token := ⟨TokenType.VALUE, opError, val⟩

def equalsType (tk : Token) (t : TokenType) : Bool := decide (tk.type = t)

def getType (tk : Token) : TokenType := tk.type

def getOperator (tk : Token) : Char :=
  if tk.type = TokenType.OPERATOR then tk.op else '$'

def getValue (tk : Token) : Int :=
  if tk.type = TokenType.VALUE then tk.val else -999

end Token

/-! ## Output -/

/-- One `printf`/`puts` call of the program. -/
inductive Printed
  | logVal (val : Int)
  | logOp (op : Char)
  | tooManyOperators
  | missingOpenParen
  | result (n : Int)
  | notEnoughOperators
  | errorInReading
  | unrecognizedSymbol (s : List Char)
  | prompt
  | quitting
  | commands
  | invalidInput
  | blankLine
  deriving DecidableEq, Repr

namespace Printed

/-- Text written to standard output by each event. -/
def render : Printed → String
  | logVal val => "Val: " ++ toString val ++ ", "
  | logOp op => "OP: " ++ String.singleton op ++ ", "
  | tooManyOperators => "Error: Too many operators.\n"
  | missingOpenParen => "Error: missing an opening parenthesis\n"
  | result n => "Result: " ++ toString n ++ "\n"
  | notEnoughOperators => "Error: Not enough operators.\n"
  | errorInReading => "Error in reading"
  | unrecognizedSymbol s => "Error: Unrecognized symbol \"" ++ String.mk s ++ "\"\n"
  | prompt => "\nEnter Expression: "
  | quitting => "Quitting Program\n"
  | commands =>
      "The commands for this program are:\n\n" ++
      "q - to quit the program\n" ++
      "? - to list the accepted commands\n" ++
      "or any infix mathematical expression using operators of (), *, /, +, -\n"
  | invalidInput => "Invalid Input - For a list of valid commands, type ?\n"
  | blankLine => "Blank Line - Do Nothing\n"

/-- Debug trace entries, printed by `LOG` only. -/
def isLog : Printed → Bool
  | logVal _ => true
  | logOp _ => true
  | _ => false

end Printed

/-- The `LOG(format, ...)` form: `if (debugMode) printf(format, ...)`. -/
def LOG (debugMode : Bool) (p : Printed) : List Printed :=
  if debugMode then [p] else []

/-- What was printed apart from the debug trace. -/
def messages (out : List Printed) : List Printed :=
  out.filter (fun p => !p.isLog)

/-! ## Stack (`stack.h`) -/

/-- Result of code that may throw a C++ exception or run into undefined
behaviour (integer division by zero). -/
inductive Outcome (α : Type)
  | ok (a : α)
  | exception
  | undefined
  deriving DecidableEq, Repr

/-- Class `my::Stack<T>`, as the list of its elements, top first. -/
abbrev Stack (T : Type) := List T

namespace Vector

/-- Modelled from the spec: `vector.h` is absent from the sources. `back()` returns
the last element pushed; on an empty vector it throws, which is what makes the reducer
"fail with TooManyOperators" when fewer than two operands are stacked. -/
def back {T : Type} : List T → Outcome T
  | [] => Outcome.exception
  | x :: _ => Outcome.ok x

/-- Modelled from the spec: `vector.h` is absent from the sources. `pop_back()` removes
the last element pushed. Every call in this program follows a successful `back()` or a
failed `isEmpty()` test, so the empty case is never reached. -/
def pop_back {T : Type} : List T → List T
  | [] => []
  | _ :: c => c

/-- Modelled from the spec: `vector.h` is absent from the sources. -/
def push_back {T : Type} (c : List T) (x : T) : List T := x :: c

/-- Modelled from the spec: `vector.h` is absent from the sources. -/
def isEmpty {T : Type} (c : List T) : Bool := c.isEmpty

end Vector

namespace Stack

def push {T : Type} (s : Stack T) (x : T) : Stack T := Vector.push_back s x

def top {T : Type} (s : Stack T) : Outcome T := Vector.back s

def pop {T : Type} (s : Stack T) : Stack T := Vector.pop_back s

/-- Method `popAndGet`: `T retval = c.back(); c.pop_back(); return retval;`. -/
def popAndGet {T : Type} (s : Stack T) : Outcome (T × Stack T) :=
  match Vector.back s with
  | Outcome.ok retval => Outcome.ok (retval, Vector.pop_back s)
  | Outcome.exception => Outcome.exception
  | Outcome.undefined => Outcome.undefined

def isEmpty {T : Type} (s : Stack T) : Bool := Vector.isEmpty s

end Stack

/-! ## Reduction -/

/-- The least value of `int` (`Token::value_t`). -/
def INT_MIN : Int := -2147483648

/-- The greatest value of `int` (`Token::value_t`). -/
def INT_MAX : Int := 2147483647

/-- The integer `n` is a value of `int`. -/
def isInt (n : Int) : Bool := decide (INT_MIN ≤ n) && decide (n ≤ INT_MAX)

/-- The `int` that a 32-bit two's-complement addition, subtraction or multiplication
leaves when the exact result is `n`. -/
def wrap (n : Int) : Int := (n + 2147483648) % 4294967296 - 2147483648

/-- Function `eval`: `lhs op rhs` in `int` arithmetic; `/` is C++ integer division
(truncation toward zero; no result for a zero divisor and for `INT_MIN / -1`, where the
division traps); any other operator throws `std::invalid_argument`. -/
def eval (lhs rhs : Int) (op : Char) : Outcome Int :=
  if op = '+' then Outcome.ok (wrap (lhs + rhs))
  else if op = '-' then Outcome.ok (wrap (lhs - rhs))
  else if op = '*' then Outcome.ok (wrap (lhs * rhs))
  else if op = '/' then
    (if rhs = 0 ∨ (lhs = INT_MIN ∧ rhs = -1) then Outcome.undefined
     else Outcome.ok (Int.tdiv lhs rhs))
  else Outcome.exception

/-- Order in which the arguments of the `eval(...)` call in `popAndEval` are evaluated.
The language leaves it to the compiler: `rightToLeft`, the order of the g++ builds, pops
the operator, then `rhs`, then `lhs`; `leftToRight` pops the first argument (`lhs`)
first. -/
inductive ArgOrder
  | leftToRight
  | rightToLeft
  deriving DecidableEq, Repr

/-- The operand and operator stacks of `processExpression`. -/
structure Stacks where
  valueStack : Stack Int
  operatorStack : Stack Char
  deriving DecidableEq, Repr

/-- Function `popAndEval`:
`valuesStack.push(eval(valuesStack.popAndGet(), valuesStack.popAndGet(), operatorStack.popAndGet()))`. -/
def popAndEval (order : ArgOrder) (st : Stacks) : Outcome Stacks :=
  match order with
  | ArgOrder.leftToRight =>
    match st.valueStack.popAndGet with
    | Outcome.ok (lhs, vs1) =>
      match Stack.popAndGet vs1 with
      | Outcome.ok (rhs, vs2) =>
        match st.operatorStack.popAndGet with
        | Outcome.ok (op, os1) =>
          match eval lhs rhs op with
          | Outcome.ok r => Outcome.ok ⟨Stack.push vs2 r, os1⟩
          | Outcome.exception => Outcome.exception
          | Outcome.undefined => Outcome.undefined
        | Outcome.exception => Outcome.exception
        | Outcome.undefined => Outcome.undefined
      | Outcome.exception => Outcome.exception
      | Outcome.undefined => Outcome.undefined
    | Outcome.exception => Outcome.exception
    | Outcome.undefined => Outcome.undefined
  | ArgOrder.rightToLeft =>
    match st.operatorStack.popAndGet with
    | Outcome.ok (op, os1) =>
      match st.valueStack.popAndGet with
      | Outcome.ok (rhs, vs1) =>
        match Stack.popAndGet vs1 with
        | Outcome.ok (lhs, vs2) =>
          match eval lhs rhs op with
          | Outcome.ok r => Outcome.ok ⟨Stack.push vs2 r, os1⟩
          | Outcome.exception => Outcome.exception
          | Outcome.undefined => Outcome.undefined
        | Outcome.exception => Outcome.exception
        | Outcome.undefined => Outcome.undefined
      | Outcome.exception => Outcome.exception
      | Outcome.undefined => Outcome.undefined
    | Outcome.exception => Outcome.exception
    | Outcome.undefined => Outcome.undefined

/-! ## processExpression -/

/-- Where control goes after a piece of the loop body of `processExpression`. -/
inductive Flow
  | next (st : Stacks)
  | ret (out : List Printed)
  | undefined
  deriving DecidableEq, Repr

/-- The `tryPopEval()` form: one reduction; any exception prints
`Error: Too many operators.` and returns from `processExpression`. -/
def tryPopEval (order : ArgOrder) (st : Stacks) : Flow :=
  match popAndEval order st with
  | Outcome.ok st1 => Flow.next st1
  | Outcome.exception => Flow.ret [Printed.tooManyOperators]
  | Outcome.undefined => Flow.undefined

/-- The four reduction loops of `processExpression` share one shape:
while the operator stack is not empty and its top satisfies `cond`, `tryPopEval()`.
Every successful reduction pops one operator, so `operatorStack.length` iterations
always suffice; `reduceLoop` is called with that bound. -/
def reduceLoop (order : ArgOrder) (cond : Char → Bool) : Nat → Stacks → Flow
  | 0, st => Flow.next st
  | n + 1, st =>
    match st.operatorStack with
    | [] => Flow.next st
    | top :: _ =>
      if cond top then
        match tryPopEval order st with
        | Flow.next st1 => reduceLoop order cond n st1
        | Flow.ret out => Flow.ret out
        | Flow.undefined => Flow.undefined
      else Flow.next st

/-- Label `loop1` (incoming `+` or `-`): reduce while the top is `+ - * /`. -/
def loop1 (order : ArgOrder) (st : Stacks) : Flow :=
  reduceLoop order (fun top => top = '+' || top = '-' || top = '*' || top = '/')
    st.operatorStack.length st

/-- Label `loop2` (incoming `*` or `/`): reduce while the top is `*` or `/`. -/
def loop2 (order : ArgOrder) (st : Stacks) : Flow :=
  reduceLoop order (fun top => top = '*' || top = '/') st.operatorStack.length st

/-- Case `')'`: `while (!operatorStack.isEmpty() && operatorStack.top() != '(') tryPopEval()`. -/
def unwindToParen (order : ArgOrder) (st : Stacks) : Flow :=
  reduceLoop order (fun top => top != '(') st.operatorStack.length st

/-- After the token loop: `while (!operatorStack.isEmpty()) { tryPopEval() }`. -/
def drain (order : ArgOrder) (st : Stacks) : Flow :=
  reduceLoop order (fun _ => true) st.operatorStack.length st

/-- The inner `switch (op)` of `processExpression`. -/
def processOperator (order : ArgOrder) (op : Char) (st : Stacks) : Flow :=
  if op = '(' then Flow.next { st with operatorStack := st.operatorStack.push op }
  else if op = '+' ∨ op = '-' then
    match loop1 order st with
    | Flow.next st1 => Flow.next { st1 with operatorStack := st1.operatorStack.push op }
    | Flow.ret out => Flow.ret out
    | Flow.undefined => Flow.undefined
  else if op = '*' ∨ op = '/' then
    match loop2 order st with
    | Flow.next st1 => Flow.next { st1 with operatorStack := st1.operatorStack.push op }
    | Flow.ret out => Flow.ret out
    | Flow.undefined => Flow.undefined
  else if op = ')' then
    match unwindToParen order st with
    | Flow.next st1 =>
      if st1.operatorStack.isEmpty then Flow.ret [Printed.missingOpenParen]
      else Flow.next { st1 with operatorStack := st1.operatorStack.pop }
    | Flow.ret out => Flow.ret out
    | Flow.undefined => Flow.undefined
  else Flow.next st

/-- The outer `switch (inputToken.getType())`: the trace printed for the token and
where control goes. -/
def processToken (debugMode : Bool) (order : ArgOrder) (inputToken : Token) (st : Stacks) :
    List Printed × Flow :=
  match inputToken.getType with
  | TokenType.VALUE =>
    (LOG debugMode (Printed.logVal inputToken.getValue),
      Flow.next { st with valueStack := st.valueStack.push inputToken.getValue })
  | TokenType.OPERATOR =>
    (LOG debugMode (Printed.logOp inputToken.getOperator),
      processOperator order inputToken.getOperator st)
  | _ => ([], Flow.ret [])

/-- How a call of `processExpression` ends. -/
inductive Status
  | returned
  | uncaughtException
  | undefinedBehaviour
  | outOfFuel
  deriving DecidableEq, Repr

/-- Everything a call of `processExpression` leaves behind: what it printed, how it
ended, and the state of the token source. -/
structure Result (σ : Type) where
  out : List Printed
  status : Status
  tr : σ

/-- The end of `processExpression`, after the token loop: drain the operator stack,
take the top operand as the result, and print it if the operand stack is then empty.
`valueStack.top()` sits outside every `try`, so on an empty operand stack its
exception leaves the function. -/
def finish {σ : Type} (order : ArgOrder) (st : Stacks) (tr : σ) : Result σ :=
  match drain order st with
  | Flow.next st1 =>
    match st1.valueStack.top with
    | Outcome.ok result =>
      if (st1.valueStack.pop).isEmpty then ⟨[Printed.result result], Status.returned, tr⟩
      else ⟨[Printed.notEnoughOperators], Status.returned, tr⟩
    | Outcome.exception => ⟨[], Status.uncaughtException, tr⟩
    | Outcome.undefined => ⟨[], Status.undefinedBehaviour, tr⟩
  | Flow.ret out => ⟨out, Status.returned, tr⟩
  | Flow.undefined => ⟨[], Status.undefinedBehaviour, tr⟩

/-- The token loop of `processExpression`, `while (!inputToken.equalsType(EOLN))`,
followed by `finish`. `getNextToken` is the token source `tr->getNextToken()`: it
returns the token, the new state of the source and what the source printed.
The first argument bounds the number of iterations. -/
def tokenLoop {σ : Type} (debugMode : Bool) (order : ArgOrder)
    (getNextToken : σ → Token × σ × List Printed) :
    Nat → Token → σ → Stacks → Result σ
  | 0, _, tr, _ => ⟨[], Status.outOfFuel, tr⟩
  | fuel + 1, inputToken, tr, st =>
    if inputToken.equalsType TokenType.EOLN then finish order st tr
    else
      match processToken debugMode order inputToken st with
      | (log, Flow.next st1) =>
        let nt := getNextToken tr
        let r := tokenLoop debugMode order getNextToken fuel nt.1 nt.2.1 st1
        ⟨log ++ nt.2.2 ++ r.out, r.status, r.tr⟩
      | (log, Flow.ret out) => ⟨log ++ out, Status.returned, tr⟩
      | (log, Flow.undefined) => ⟨log, Status.undefinedBehaviour, tr⟩

/-- Function `processExpression (Token inputToken, TokenReader *tr)`: both stacks start
empty. -/
def processExpression {σ : Type} (debugMode : Bool) (order : ArgOrder)
    (getNextToken : σ → Token × σ × List Printed) (fuel : Nat) (inputToken : Token) (tr : σ) :
    Result σ :=
  tokenLoop debugMode order getNextToken fuel inputToken tr ⟨[], []⟩

/-! ## A token source that replays a given token sequence -/

/-- A token source holding the tokens still to come; once they are used up it
answers `EOFILE`. -/
def nextOfList : List Token → Token × List Token × List Printed
  | [] => (Token.ofType TokenType.EOFILE, [], [])
  | t :: ts => (t, ts, [])

/-- The driver's hand-off on a given token sequence: fetch the first token, then call
`processExpression` on it and the remaining ones. One iteration per token is enough
fuel. -/
def processTokens (debugMode : Bool) (order : ArgOrder) (toks : List Token) :
    Result (List Token) :=
  processExpression debugMode order nextOfList (toks.length + 2)
    (nextOfList toks).1 (nextOfList toks).2.1

/-- Token `Value(n)`. -/
abbrev tVal (n : Int) : Token := Token.ofValue n

/-- Token `Operator(c)`. -/
abbrev tOp (c : Char) : Token := Token.ofOp c

/-- Token `Eoln`. -/
abbrev tEoln : Token := Token.ofType TokenType.EOLN


/-! ## TokenReader -/

/-- We assume that all input lines are 300 characters or less in length. -/
def MAX_LINE : Nat := 300

/-- The terminating character of a C string. -/
def NUL : Char := Char.ofNat 0

/-- C `isspace` in the default locale: space, `\t`, `\n`, `\v`, `\f`, `\r`. -/
def isspace (c : Char) : Bool :=
  c = ' ' || c = '\t' || c = '\n' || c = Char.ofNat 11 || c = Char.ofNat 12 || c = '\r'

/-- C `isdigit`: `'0'` to `'9'`. -/
def isdigit (c : Char) : Bool := decide (48 ≤ c.toNat) && decide (c.toNat ≤ 57)

/-- The characters `fgets` stores for a limit of `n` more characters, and what is left
of the stream: it stops after a newline, at the limit, or at the end of the stream. -/
def fgetsChars : Nat → List Char → List Char × List Char
  | 0, s => ([], s)
  | _ + 1, [] => ([], [])
  | n + 1, c :: s =>
    if c = '\n' then ([c], s)
    else ((fgetsChars n s).1.cons c, (fgetsChars n s).2)

/-- C `fgets(buffer, n, stdin)` on the stream `stdin`: `none` (a null pointer) at the end
of the stream, otherwise the characters stored before the terminating NUL and the rest of
the stream. -/
def fgets (n : Nat) (stdin : List Char) : Option (List Char × List Char) :=
  match stdin with
  | [] => none
  | _ :: _ => some (fgetsChars (n - 1) stdin)

/-- C `strlen`: the number of characters before the first NUL. -/
def strlen (s : List Char) : Nat := (s.takeWhile (fun c => c != NUL)).length

/-- Class `TokenReader`. `inputLine` holds the characters stored by the last `fgets`;
the buffer reads as NUL behind them. -/
structure TokenReader where
  inputLine : List Char
  needLine : Bool
  pos : Nat
  length : Nat
  deriving DecidableEq, Repr

namespace TokenReader

/-- Constructor `TokenReader()`. -/
def new : TokenReader := ⟨[], true, 0, 0⟩

/-- Force the next `getNextToken` to read in a line of input. -/
def clearToEoln (tr : TokenReader) : TokenReader := { tr with needLine := true }

/-- The character `inputLine[i]`. -/
def charAt (inputLine : List Char) (i : Nat) : Char := inputLine.getD i NUL

/-- Loop `while (pos < length && isspace(inputLine[pos])) ++pos;`, at most `length - pos`
iterations. -/
def skipSpaces (inputLine : List Char) (length : Nat) : Nat → Nat → Nat
  | 0, pos => pos
  | fuel + 1, pos =>
    if pos < length ∧ isspace (charAt inputLine pos) = true then
      skipSpaces inputLine length fuel (pos + 1)
    else pos

/-- Loop `while (isdigit(ch)) { number = number * 10 + (ch - '0'); ch = inputLine[pos++]; }`:
the final `number` and `pos`. The loop stops at the latest on the NUL behind the line. -/
def digitLoop (inputLine : List Char) : Nat → Int → Char → Nat → Int × Nat
  | 0, number, _, pos => (number, pos)
  | fuel + 1, number, ch, pos =>
    if isdigit ch = true then
      digitLoop inputLine fuel (number * 10 + ((ch.toNat : Int) - 48))
        (charAt inputLine pos) (pos + 1)
    else (number, pos)

/-- Loop `while (pos < length && !isspace(inputLine[pos])) ++pos;`. -/
def skipSymbol (inputLine : List Char) (length : Nat) : Nat → Nat → Nat
  | 0, pos => pos
  | fuel + 1, pos =>
    if pos < length ∧ isspace (charAt inputLine pos) = false then
      skipSymbol inputLine length fuel (pos + 1)
    else pos

/-- The C string that starts at index `start` of the buffer. -/
def cString (inputLine : List Char) (start : Nat) : List Char :=
  (inputLine.drop start).takeWhile (fun c => c != NUL)

/-- The first step of `getNextToken`: `if (needLine) { fgets ...; length = strlen(inputLine);
needLine = false; pos = 0; }`. The result is `none` when `fgets` fails. -/
def refill (tr : TokenReader) (stdin : List Char) : Option (TokenReader × List Char) :=
  if tr.needLine then
    match fgets MAX_LINE stdin with
    | none => none
    | some (line, rest) => some (⟨line, false, 0, strlen line⟩, rest)
  else some (tr, stdin)

/-- The rest of `getNextToken`, from the skipping of white space on. -/
def scan (tr : TokenReader) : Token × TokenReader × List Printed :=
  let pos0 := skipSpaces tr.inputLine tr.length (tr.length - tr.pos) tr.pos
  if pos0 ≥ tr.length then
    (Token.ofType TokenType.EOLN, { tr with pos := pos0, needLine := true }, [])
  else
    let ch := charAt tr.inputLine pos0
    let pos1 := pos0 + 1
    if ch = 'q' ∨ ch = 'Q' then (Token.ofType TokenType.QUIT, { tr with pos := pos1 }, [])
    else if ch = '?' then (Token.ofType TokenType.HELP, { tr with pos := pos1 }, [])
    else if ch = '+' ∨ ch = '-' ∨ ch = '*' ∨ ch = '/' ∨ ch = '(' ∨ ch = ')' then
      (Token.ofOp ch, { tr with pos := pos1 }, [])
    else if isdigit ch = true then
      let r := digitLoop tr.inputLine (tr.length + 1) ((ch.toNat : Int) - 48)
        (charAt tr.inputLine pos1) (pos1 + 1)
      (Token.ofValue r.1, { tr with pos := r.2 - 1 }, [])
    else
      let pos2 := skipSymbol tr.inputLine tr.length (tr.length - pos1) pos1
      let line := tr.inputLine.set pos2 NUL
      (Token.ofType TokenType.ERROR, { tr with inputLine := line, pos := pos2 },
        [Printed.unrecognizedSymbol (cString line (pos1 - 1))])

/-- Method `getNextToken`, on the reader and the standard input stream. -/
def getNextToken (tr : TokenReader) (stdin : List Char) :
    Token × (TokenReader × List Char) × List Printed :=
  match refill tr stdin with
  | none => (Token.ofType TokenType.EOFILE, (tr, stdin), [Printed.errorInReading])
  | some (tr1, stdin1) => ((scan tr1).1, ((scan tr1).2.1, stdin1), (scan tr1).2.2)

/-- The token source `tr->getNextToken()` of `processExpression`. -/
def next (s : TokenReader × List Char) : Token × (TokenReader × List Char) × List Printed :=
  getNextToken s.1 s.2

end TokenReader

/-! ## The driver -/

/-- What one pass through the `while (true)` loop of `main` leaves behind: the output,
the rest of the input stream, the exit status if the program quit, and how the pass
ended. -/
structure Iteration where
  out : List Printed
  stdin : List Char
  exit : Option Int
  status : Status
  deriving DecidableEq, Repr

/-- One pass through the `while (true)` loop of `main`: prompt, fresh reader, first
token, dispatch. `fuel` bounds the token loop of `processExpression`. The reader is
local to the pass, so the `clearToEoln()` calls after `HELP` and `ERROR` leave no trace:
the next pass starts with a fresh reader, which reads a new line. -/
def mainIteration (debugMode : Bool) (order : ArgOrder) (fuel : Nat) (stdin : List Char) :
    Iteration :=
  let first := TokenReader.getNextToken TokenReader.new stdin
  let inputToken := first.1
  let tr := first.2.1.1
  let stdin1 := first.2.1.2
  let out := [Printed.prompt] ++ first.2.2
  match inputToken.getType with
  | TokenType.QUIT => ⟨out ++ [Printed.quitting], stdin1, some 1, Status.returned⟩
  | TokenType.HELP => ⟨out ++ [Printed.commands], stdin1, none, Status.returned⟩
  | TokenType.ERROR => ⟨out ++ [Printed.invalidInput], stdin1, none, Status.returned⟩
  | TokenType.EOLN => ⟨out ++ [Printed.blankLine], stdin1, none, Status.returned⟩
  | _ =>
    let r := processExpression debugMode order TokenReader.next fuel inputToken (tr, stdin1)
    ⟨out ++ r.out, r.tr.2, none, r.status⟩

/-! ## Notions used to state the properties -/

/-- What one reduction computes for the operands `a` (pushed earlier) and `b` (pushed
later, on top) under each argument order. -/
def applyOp (order : ArgOrder) (op : Char) (a b : Int) : Outcome Int :=
  match order with
  | ArgOrder.leftToRight => eval b a op
  | ArgOrder.rightToLeft => eval a b op

/-- The trace `processExpression` prints for one token in debug mode. -/
def traceOf (debugMode : Bool) (inputToken : Token) : List Printed :=
  match inputToken.type with
  | TokenType.VALUE => LOG debugMode (Printed.logVal inputToken.getValue)
  | TokenType.OPERATOR => LOG debugMode (Printed.logOp inputToken.getOperator)
  | _ => []

/-- The stacks after the loop body has handled the tokens `ts` one after the other,
provided none of them is `EOLN` and none makes `processExpression` return. -/
def feed (order : ArgOrder) : List Token → Stacks → Option Stacks
  | [], st => some st
  | t :: ts, st =>
    if t.equalsType TokenType.EOLN then none
    else
      match (processToken false order t st).2 with
      | Flow.next st1 => feed order ts st1
      | _ => none

/-- The token loop on the token sequence `toks`, started with the stacks `st`. -/
def runFrom (debugMode : Bool) (order : ArgOrder) (fuel : Nat) (toks : List Token)
    (st : Stacks) : Result (List Token) :=
  tokenLoop debugMode order nextOfList fuel (nextOfList toks).1 (nextOfList toks).2.1 st

/-- The same stacks with `base` underneath the operator stack. -/
def under (base : List Char) (st : Stacks) : Stacks :=
  ⟨st.valueStack, st.operatorStack ++ base⟩

/-! ## Notions used to state the properties of the token reader -/

/-- The kind of a printed line: the lexeme of an unrecognized symbol is left out. -/
def Printed.kind : Printed → Printed
  | Printed.unrecognizedSymbol _ => Printed.unrecognizedSymbol []
  | p => p

/-- The list ends with a digit. -/
def endsWithDigit : List Char → Bool
  | [] => false
  | [c] => isdigit c
  | _ :: c :: cs => endsWithDigit (c :: cs)

/-- The list starts with a digit. -/
def startsWithDigit : List Char → Bool
  | [] => false
  | c :: _ => isdigit c

/-- The number read from the digits `cs` after `number` has been accumulated. -/
def digitsValue (number : Int) : List Char → Int
  | [] => number
  | c :: cs => digitsValue (number * 10 + ((c.toNat : Int) - 48)) cs

/-- The token at the head of the characters `cs` that are left of a line, and the
characters left after it: the reader's `scan` told on the characters themselves. -/
def lexList (cs : List Char) : Token × List Char :=
  match cs.dropWhile isspace with
  | [] => (Token.ofType TokenType.EOLN, [])
  | ch :: r =>
    if ch = 'q' ∨ ch = 'Q' then (Token.ofType TokenType.QUIT, r)
    else if ch = '?' then (Token.ofType TokenType.HELP, r)
    else if ch = '+' ∨ ch = '-' ∨ ch = '*' ∨ ch = '/' ∨ ch = '(' ∨ ch = ')' then
      (Token.ofOp ch, r)
    else if isdigit ch = true then
      (Token.ofValue (digitsValue ((ch.toNat : Int) - 48) (r.takeWhile isdigit)),
        r.dropWhile isdigit)
    else (Token.ofType TokenType.ERROR, r.dropWhile (fun c => !isspace c))

/-- Two remainders of a line that differ by white space `w` at one place, which is not
between two digits. -/
def SpacedApart (r1 r2 : List Char) : Prop :=
  ∃ u w v, r1 = u ++ w ++ v ∧ r2 = u ++ v ∧ (∀ c ∈ w, isspace c = true) ∧
    ¬ (endsWithDigit u = true ∧ startsWithDigit v = true)

/-- The characters of the current line that the reader has not consumed yet. -/
def TokenReader.rest (tr : TokenReader) : List Char :=
  (tr.inputLine.take tr.length).drop tr.pos

/-- The reader holds a line: no refill is pending, the cursor is within the line, and the
line is followed by a character that is not a digit (its terminating NUL). -/
def TokenReader.Holds (tr : TokenReader) : Prop :=
  tr.needLine = false ∧ tr.pos ≤ tr.length ∧ tr.length ≤ tr.inputLine.length ∧
    isdigit (TokenReader.charAt tr.inputLine tr.length) = false

/-- What a pass of the driver emits, up to the lexeme of an unrecognized symbol. -/
def Iteration.emitted (r : Iteration) : List Printed × Option Int × Status :=
  (r.out.map Printed.kind, r.exit, r.status)

/-! ## Well-formed expressions -/

/-- The three levels of the expression grammar. -/
inductive Level
  | factor
  | term
  | expr
  deriving DecidableEq, Repr

/-- Well-formed infix expressions over non-negative integer literals:
`factor ::= n | ( expr )`, `term ::= factor | term * factor | term / factor`,
`expr ::= term | expr + term | expr - term`. -/
inductive WellFormed : Level → Type
  | num (n : Nat) : WellFormed Level.factor
  | paren (e : WellFormed Level.expr) : WellFormed Level.factor
  | ofFactor (f : WellFormed Level.factor) : WellFormed Level.term
  | mul (t : WellFormed Level.term) (f : WellFormed Level.factor) : WellFormed Level.term
  | div (t : WellFormed Level.term) (f : WellFormed Level.factor) : WellFormed Level.term
  | ofTerm (t : WellFormed Level.term) : WellFormed Level.expr
  | add (e : WellFormed Level.expr) (t : WellFormed Level.term) : WellFormed Level.expr
  | sub (e : WellFormed Level.expr) (t : WellFormed Level.term) : WellFormed Level.expr

namespace WellFormed

/-- The token sequence of an expression. -/
def tokens : {l : Level} → WellFormed l → List Token
  | _, num n => [tVal n]
  | _, paren e => tOp '(' :: tokens e ++ [tOp ')']
  | _, ofFactor f => tokens f
  | _, mul t f => tokens t ++ tOp '*' :: tokens f
  | _, div t f => tokens t ++ tOp '/' :: tokens f
  | _, ofTerm t => tokens t
  | _, add e t => tokens e ++ tOp '+' :: tokens t
  | _, sub e t => tokens e ++ tOp '-' :: tokens t

/-- The value of an expression when each operator is applied the way one reduction
applies it under the given argument order; `none` when a division by zero occurs. -/
def valueWith (order : ArgOrder) : {l : Level} → WellFormed l → Option Int
  | _, num n => some n
  | _, paren e => valueWith order e
  | _, ofFactor f => valueWith order f
  | _, mul t f =>
    match valueWith order t, valueWith order f with
    | some a, some b =>
      match applyOp order '*' a b with
      | Outcome.ok r => some r
      | _ => none
    | _, _ => none
  | _, div t f =>
    match valueWith order t, valueWith order f with
    | some a, some b =>
      match applyOp order '/' a b with
      | Outcome.ok r => some r
      | _ => none
    | _, _ => none
  | _, ofTerm t => valueWith order t
  | _, add e t =>
    match valueWith order e, valueWith order t with
    | some a, some b =>
      match applyOp order '+' a b with
      | Outcome.ok r => some r
      | _ => none
    | _, _ => none
  | _, sub e t =>
    match valueWith order e, valueWith order t with
    | some a, some b =>
      match applyOp order '-' a b with
      | Outcome.ok r => some r
      | _ => none
    | _, _ => none

/-- The value of an expression under standard integer arithmetic, `/` being division
truncated toward zero; `none` when a division by zero occurs. -/
def value : {l : Level} → WellFormed l → Option Int
  | _, num n => some n
  | _, paren e => value e
  | _, ofFactor f => value f
  | _, mul t f =>
    match value t, value f with
    | some a, some b => some (a * b)
    | _, _ => none
  | _, div t f =>
    match value t, value f with
    | some a, some b => if b = 0 then none else some (Int.tdiv a b)
    | _, _ => none
  | _, ofTerm t => value t
  | _, add e t =>
    match value e, value t with
    | some a, some b => some (a + b)
    | _, _ => none
  | _, sub e t =>
    match value e, value t with
    | some a, some b => some (a - b)
    | _, _ => none

/-- Every literal and every intermediate value of the expression is a value of `int`:
the integers of the expression can be taken as exact. -/
def exact : {l : Level} → WellFormed l → Bool
  | _, num n => isInt n
  | _, paren e => exact e
  | _, ofFactor f => exact f
  | _, mul t f =>
    exact t && exact f &&
      (match value (mul t f) with
       | some v => isInt v
       | none => true)
  | _, div t f =>
    exact t && exact f &&
      (match value (div t f) with
       | some v => isInt v
       | none => true)
  | _, ofTerm t => exact t
  | _, add e t =>
    exact e && exact t &&
      (match value (add e t) with
       | some v => isInt v
       | none => true)
  | _, sub e t =>
    exact e && exact t &&
      (match value (sub e t) with
       | some v => isInt v
       | none => true)

end WellFormed

/-- The stacks `st1` hold a term of value `v` on top of the stacks `st`: either `v` is
pushed, or two operands and a pending `*` or `/` that reduce to `v`. -/
def TermOn (order : ArgOrder) (v : Int) (st st1 : Stacks) : Prop :=
  st1 = ⟨v :: st.valueStack, st.operatorStack⟩ ∨
  ∃ a b op, (op = '*' ∨ op = '/') ∧
    st1 = ⟨b :: a :: st.valueStack, op :: st.operatorStack⟩ ∧
    applyOp order op a b = Outcome.ok v

/-- The stacks `st1` hold an expression of value `v` on top of the stacks `st`: a term, or
an operand, a pending `+` or `-`, and a term on top of them, that reduce to `v`. -/
def ExprOn (order : ArgOrder) (v : Int) (st st1 : Stacks) : Prop :=
  TermOn order v st st1 ∨
  ∃ a op w, (op = '+' ∨ op = '-') ∧
    TermOn order w ⟨a :: st.valueStack, op :: st.operatorStack⟩ st1 ∧
    applyOp order op a w = Outcome.ok v

/-- What the stacks look like after the tokens of an expression of each level. -/
def HeldOn (order : ArgOrder) : Level → Int → Stacks → Stacks → Prop
  | Level.factor, v, st, st1 => st1 = ⟨v :: st.valueStack, st.operatorStack⟩
  | Level.term, v, st, st1 => TermOn order v st st1
  | Level.expr, v, st, st1 => ExprOn order v st st1

/-- The operator stacks on which an expression of each level can start: a term does not
follow a stacked `*` or `/` directly, an expression follows no stacked binary operator. -/
def StartsOn : Level → List Char → Prop
  | Level.factor, _ => True
  | Level.term, os => ∀ t, os.head? = some t → t ≠ '*' ∧ t ≠ '/'
  | Level.expr, os => ∀ t, os.head? = some t → t ≠ '+' ∧ t ≠ '-' ∧ t ≠ '*' ∧ t ≠ '/'

/-! ## Notions used for number lexing and for the length of the token sequence -/

/-- The number of calls of the token source up to and including the first one that
returns `EOLN`, if that happens within `fuel` calls. -/
def callsToEoln {σ : Type} (getNextToken : σ → Token × σ × List Printed) : Nat → σ → Option Nat
  | 0, _ => none
  | fuel + 1, s =>
    if (getNextToken s).1.type = TokenType.EOLN then some 1
    else (callsToEoln getNextToken fuel (getNextToken s).2.1).map (fun k => k + 1)

/-! ## The precedence-driven loop of the design notes -/

/-- Written from the spec: the rank `precedence(op)`, `0` for `(`, `1` for `+` and `-`,
`2` for `*` and `/`. Other characters have no rank in the spec and are never on the
operator stack; they get `0` here. -/
def precedence (c : Char) : Nat :=
  if c = '*' ∨ c = '/' then 2
  else if c = '+' ∨ c = '-' then 1
  else 0

/-- Written from the spec: "while the operator stack is non-empty and
`prec(top) >= prec(op)`: reduce once; then push `op`", for a rank function `prec`. As in
`reduceLoop`, the first argument bounds the number of reductions. -/
def precedenceLoop (prec : Char → Nat) (order : ArgOrder) (op : Char) : Nat → Stacks → Flow
  | 0, st => Flow.next ⟨st.valueStack, op :: st.operatorStack⟩
  | n + 1, st =>
    match st.operatorStack with
    | [] => Flow.next ⟨st.valueStack, op :: st.operatorStack⟩
    | top :: _ =>
      if prec top ≥ prec op then
        match tryPopEval order st with
        | Flow.next st1 => precedenceLoop prec order op n st1
        | Flow.ret out => Flow.ret out
        | Flow.undefined => Flow.undefined
      else Flow.next ⟨st.valueStack, op :: st.operatorStack⟩

/-- Written from the spec: the handling of a binary operator token by the
precedence-driven loop. -/
def processBinary (prec : Char → Nat) (order : ArgOrder) (op : Char) (st : Stacks) : Flow :=
  precedenceLoop prec order op st.operatorStack.length st

/-- The characters that `processExpression` pushes on the operator stack. -/
def StackOperator (c : Char) : Prop :=
  c = '+' ∨ c = '-' ∨ c = '*' ∨ c = '/' ∨ c = '('

/-! ## Notions used for the invariants of the operator stack -/

/-- The loop `reduceLoop` together with the record of the states in which it calls
`tryPopEval()`, in order. -/
def reduceLoopLog (order : ArgOrder) (cond : Char → Bool) : Nat → Stacks → List Stacks × Flow
  | 0, st => ([], Flow.next st)
  | n + 1, st =>
    match st.operatorStack with
    | [] => ([], Flow.next st)
    | top :: _ =>
      if cond top then
        match tryPopEval order st with
        | Flow.next st1 =>
          (st :: (reduceLoopLog order cond n st1).1, (reduceLoopLog order cond n st1).2)
        | Flow.ret out => ([st], Flow.ret out)
        | Flow.undefined => ([st], Flow.undefined)
      else ([], Flow.next st)

/-- The inner `switch (op)` of `processExpression` together with the record of the
states in which its loop (`loop1`, `loop2` or the loop of `')'`) calls `tryPopEval()`. -/
def processOperatorLog (order : ArgOrder) (op : Char) (st : Stacks) : List Stacks × Flow :=
  if op = '(' then ([], Flow.next { st with operatorStack := st.operatorStack.push op })
  else if op = '+' ∨ op = '-' then
    let r := reduceLoopLog order (fun top => top = '+' || top = '-' || top = '*' || top = '/')
      st.operatorStack.length st
    (r.1,
      match r.2 with
      | Flow.next st1 => Flow.next { st1 with operatorStack := st1.operatorStack.push op }
      | Flow.ret out => Flow.ret out
      | Flow.undefined => Flow.undefined)
  else if op = '*' ∨ op = '/' then
    let r := reduceLoopLog order (fun top => top = '*' || top = '/') st.operatorStack.length st
    (r.1,
      match r.2 with
      | Flow.next st1 => Flow.next { st1 with operatorStack := st1.operatorStack.push op }
      | Flow.ret out => Flow.ret out
      | Flow.undefined => Flow.undefined)
  else if op = ')' then
    let r := reduceLoopLog order (fun top => top != '(') st.operatorStack.length st
    (r.1,
      match r.2 with
      | Flow.next st1 =>
        if st1.operatorStack.isEmpty then Flow.ret [Printed.missingOpenParen]
        else Flow.next { st1 with operatorStack := st1.operatorStack.pop }
      | Flow.ret out => Flow.ret out
      | Flow.undefined => Flow.undefined)
  else ([], Flow.next st)

/-- The final drain together with the record of the states in which it calls
`tryPopEval()`. -/
def drainLog (order : ArgOrder) (st : Stacks) : List Stacks × Flow :=
  reduceLoopLog order (fun _ => true) st.operatorStack.length st

/-- The states in which the handling of the operator `op` calls `tryPopEval()`. -/
def operatorAttempts (order : ArgOrder) (op : Char) (st : Stacks) : List Stacks :=
  (processOperatorLog order op st).1

/-- The states in which the final drain calls `tryPopEval()`. -/
def drainAttempts (order : ArgOrder) (st : Stacks) : List Stacks :=
  (drainLog order st).1

/-- The states in which `processExpression` calls `tryPopEval()` while it handles the
token `inputToken` in the state `st`: the attempts of the operator's loop for an
operator, those of the final drain for `EOLN`, none for any other token. -/
def tokenAttempts (order : ArgOrder) (inputToken : Token) (st : Stacks) : List Stacks :=
  match inputToken.getType with
  | TokenType.OPERATOR => operatorAttempts order inputToken.getOperator st
  | TokenType.EOLN => drainAttempts order st
  | _ => []

/-- The arguments `(lhs, rhs, op)` with which `popAndEval` calls `eval` in the state
`st`; `none` when one of the three `popAndGet()` calls throws first. -/
def evalArguments (order : ArgOrder) (st : Stacks) : Option (Int × Int × Char) :=
  match st.valueStack, st.operatorStack with
  | b :: a :: _, op :: _ =>
    match order with
    | ArgOrder.leftToRight => some (b, a, op)
    | ArgOrder.rightToLeft => some (a, b, op)
  | _, _ => none

/-! # Properties -/


/-! ## The reduction step -/

theorem popAndEval_leftToRight (a b : Int) (vs : List Int) (op : Char) (os : List Char) :
    popAndEval ArgOrder.leftToRight ⟨b :: a :: vs, op :: os⟩ =
      match eval b a op with
      | Outcome.ok r => Outcome.ok ⟨r :: vs, os⟩
      | Outcome.exception => Outcome.exception
      | Outcome.undefined => Outcome.undefined := by
  simp only [popAndEval, Stack.popAndGet, Vector.back, Vector.pop_back, Stack.push,
    Vector.push_back]

theorem popAndEval_rightToLeft (a b : Int) (vs : List Int) (op : Char) (os : List Char) :
    popAndEval ArgOrder.rightToLeft ⟨b :: a :: vs, op :: os⟩ =
      match eval a b op with
      | Outcome.ok r => Outcome.ok ⟨r :: vs, os⟩
      | Outcome.exception => Outcome.exception
      | Outcome.undefined => Outcome.undefined := by
  simp only [popAndEval, Stack.popAndGet, Vector.back, Vector.pop_back, Stack.push,
    Vector.push_back]

/-- The other order that the language permits: were the arguments of `eval` evaluated
from left to right, `lhs` would be the operand popped first and a reduction would
compute `b op a`. -/
theorem popAndEval_leftToRight_swaps :
    popAndEval ArgOrder.leftToRight ⟨[3, 20], ['/']⟩ = Outcome.ok ⟨[0], []⟩ ∧
    popAndEval ArgOrder.rightToLeft ⟨[3, 20], ['/']⟩ = Outcome.ok ⟨[6], []⟩ := by
  decide

/-! ## The arithmetic of `int` -/

theorem isInt_iff {n : Int} : isInt n = true ↔ -2147483648 ≤ n ∧ n ≤ 2147483647 := by
  simp only [isInt, INT_MIN, INT_MAX, Bool.and_eq_true, decide_eq_true_eq]

/-- On the values of `int` the wrap changes nothing. -/
theorem wrap_of_isInt {n : Int} (h : isInt n = true) : wrap n = n := by
  rw [isInt_iff] at h
  unfold wrap
  omega

theorem isInt_wrap (n : Int) : isInt (wrap n) = true := by
  rw [isInt_iff]
  unfold wrap
  omega

theorem wrap_add_wrap (a x : Int) : wrap (a + wrap x) = wrap (a + x) := by
  unfold wrap
  omega

theorem wrap_wrap_add (a x : Int) : wrap (wrap x + a) = wrap (a + x) := by
  unfold wrap
  omega

/-- C4 (as stated, refuted). On the line `2147483647+1*1` the sum does not fit an `int`:
`Result: -2147483648` is printed, while `a + (b*c)` is `2147483648`. -/
theorem precedence_overflow_counterexample :
    (processTokens false ArgOrder.rightToLeft
      [tVal 2147483647, tOp '+', tVal 1, tOp '*', tVal 1, tEoln]).out
        = [Printed.result (-2147483648)] ∧
    (2147483647 : Int) + 1 * 1 = 2147483648 ∧
    isInt 2147483647 = true ∧ isInt 2147483648 = false := by
  decide

/-- C4 (amended). Precedence: for all `a`, `b`, `c`, whatever the debug flag and the
argument order, the lines `a + b * c` and `a + (b * c)` print the same single line
`Result: n`, where `n` is `a + (b*c)` computed in `int` arithmetic (the exact value
wrapped to 32 bits); both lines print `Result: a + b*c` whenever that integer is a
value of `int`, as on `1+2*3`, which prints `Result: 7`. -/
theorem precedence_mul_over_add (debugMode : Bool) (order : ArgOrder) (a b c : Int) :
    messages (processTokens debugMode order
      [tVal a, tOp '+', tVal b, tOp '*', tVal c, tEoln]).out
        = [Printed.result (wrap (a + b * c))] ∧
    messages (processTokens debugMode order
      [tVal a, tOp '+', tOp '(', tVal b, tOp '*', tVal c, tOp ')', tEoln]).out
        = [Printed.result (wrap (a + b * c))] ∧
    (isInt (a + b * c) = true →
      messages (processTokens debugMode order
        [tVal a, tOp '+', tVal b, tOp '*', tVal c, tEoln]).out
          = [Printed.result (a + b * c)] ∧
      messages (processTokens debugMode order
        [tVal a, tOp '+', tOp '(', tVal b, tOp '*', tVal c, tOp ')', tEoln]).out
          = [Printed.result (a + b * c)]) ∧
    messages (processTokens debugMode order
      [tVal 1, tOp '+', tVal 2, tOp '*', tVal 3, tEoln]).out = [Printed.result 7] := by
  have h1 : wrap (a + wrap (b * c)) = wrap (a + b * c) := wrap_add_wrap a (b * c)
  have h2 : wrap (wrap (c * b) + a) = wrap (a + b * c) := by
    rw [wrap_wrap_add, mul_comm]
  have h3 : wrap 7 = 7 := by decide
  have h4 : wrap 6 = 6 := by decide
  have m1 : messages (processTokens debugMode order
      [tVal a, tOp '+', tVal b, tOp '*', tVal c, tEoln]).out
        = [Printed.result (wrap (a + b * c))] := by
    cases debugMode <;> cases order <;>
      simp [h1, h2, processTokens, processExpression, tokenLoop, nextOfList, processToken, processOperator, loop1, loop2, drain, unwindToParen, reduceLoop, tryPopEval, popAndEval, finish, messages, Token.equalsType, Token.getType, Token.getOperator, Token.getValue, Token.ofOp, Token.ofType, Token.ofValue, Stack.popAndGet, Stack.push, Stack.pop, Stack.top, Stack.isEmpty, Vector.back, Vector.pop_back, Vector.push_back, Vector.isEmpty, eval, LOG, Printed.isLog]
  have m2 : messages (processTokens debugMode order
      [tVal a, tOp '+', tOp '(', tVal b, tOp '*', tVal c, tOp ')', tEoln]).out
        = [Printed.result (wrap (a + b * c))] := by
    cases debugMode <;> cases order <;>
      simp [h1, h2, processTokens, processExpression, tokenLoop, nextOfList, processToken, processOperator, loop1, loop2, drain, unwindToParen, reduceLoop, tryPopEval, popAndEval, finish, messages, Token.equalsType, Token.getType, Token.getOperator, Token.getValue, Token.ofOp, Token.ofType, Token.ofValue, Stack.popAndGet, Stack.push, Stack.pop, Stack.top, Stack.isEmpty, Vector.back, Vector.pop_back, Vector.push_back, Vector.isEmpty, eval, LOG, Printed.isLog]
  refine ⟨m1, m2, ?_, ?_⟩
  · intro hx
    rw [m1, m2, wrap_of_isInt hx]
    exact ⟨rfl, rfl⟩
  · cases debugMode <;> cases order <;>
      simp [h3, h4, processTokens, processExpression, tokenLoop, nextOfList, processToken, processOperator, loop1, loop2, drain, unwindToParen, reduceLoop, tryPopEval, popAndEval, finish, messages, Token.equalsType, Token.getType, Token.getOperator, Token.getValue, Token.ofOp, Token.ofType, Token.ofValue, Stack.popAndGet, Stack.push, Stack.pop, Stack.top, Stack.isEmpty, Vector.back, Vector.pop_back, Vector.push_back, Vector.isEmpty, eval, LOG, Printed.isLog]


/-! ## General facts about the reduction step and the loops -/

theorem popAndEval_cons (order : ArgOrder) (a b : Int) (vs : List Int) (op : Char)
    (os : List Char) :
    popAndEval order ⟨b :: a :: vs, op :: os⟩ =
      match applyOp order op a b with
      | Outcome.ok r => Outcome.ok ⟨r :: vs, os⟩
      | Outcome.exception => Outcome.exception
      | Outcome.undefined => Outcome.undefined := by
  cases order
  · exact popAndEval_leftToRight a b vs op os
  · exact popAndEval_rightToLeft a b vs op os

theorem popAndEval_short (order : ArgOrder) (st : Stacks) (h : st.valueStack.length < 2) :
    popAndEval order st = Outcome.exception := by
  obtain ⟨vs, os⟩ := st
  match vs, h with
  | [], _ => cases order <;> cases os <;> rfl
  | [x], _ => cases order <;> cases os <;> rfl

theorem popAndEval_nil (order : ArgOrder) (vs : List Int) :
    popAndEval order ⟨vs, []⟩ = Outcome.exception := by
  match vs with
  | [] => cases order <;> rfl
  | [x] => cases order <;> rfl
  | b :: a :: vs =>
    cases order
    · simp only [popAndEval, Stack.popAndGet, Vector.back, Vector.pop_back]
    · simp only [popAndEval, Stack.popAndGet, Vector.back, Vector.pop_back]

theorem tryPopEval_short (order : ArgOrder) (st : Stacks) (h : st.valueStack.length < 2) :
    tryPopEval order st = Flow.ret [Printed.tooManyOperators] := by
  simp only [tryPopEval, popAndEval_short order st h]

theorem tryPopEval_cons (order : ArgOrder) (a b : Int) (vs : List Int) (op : Char)
    (os : List Char) :
    tryPopEval order ⟨b :: a :: vs, op :: os⟩ =
      match applyOp order op a b with
      | Outcome.ok r => Flow.next ⟨r :: vs, os⟩
      | Outcome.exception => Flow.ret [Printed.tooManyOperators]
      | Outcome.undefined => Flow.undefined := by
  simp only [tryPopEval, popAndEval_cons]
  cases applyOp order op a b <;> rfl

/-- A reduction that succeeds pops exactly the top operator and leaves the operators
below it untouched. -/
theorem tryPopEval_next {order : ArgOrder} {st st1 : Stacks}
    (h : tryPopEval order st = Flow.next st1) :
    ∃ a b vs op r, st = ⟨b :: a :: vs, op :: st1.operatorStack⟩ ∧
      applyOp order op a b = Outcome.ok r ∧ st1.valueStack = r :: vs := by
  obtain ⟨vs, os⟩ := st
  match vs, os with
  | [], _ => rw [tryPopEval_short _ _ (by simp)] at h; cases h
  | [x], _ => rw [tryPopEval_short _ _ (by simp)] at h; cases h
  | b :: a :: vs, [] => simp only [tryPopEval, popAndEval_nil] at h; cases h
  | b :: a :: vs, op :: os =>
    rw [tryPopEval_cons] at h
    cases hr : applyOp order op a b with
    | ok r =>
      rw [hr] at h
      cases h
      exact ⟨a, b, vs, op, r, rfl, hr, rfl⟩
    | exception => rw [hr] at h; cases h
    | undefined => rw [hr] at h; cases h

/-- The only text a failed reduction prints is `Error: Too many operators.`. -/
theorem tryPopEval_ret {order : ArgOrder} {st : Stacks} {out : List Printed}
    (h : tryPopEval order st = Flow.ret out) : out = [Printed.tooManyOperators] := by
  unfold tryPopEval at h
  cases hp : popAndEval order st with
  | ok s => rw [hp] at h; cases h
  | exception => rw [hp] at h; cases h; rfl
  | undefined => rw [hp] at h; cases h

theorem reduceLoop_nil (order : ArgOrder) (cond : Char → Bool) (n : Nat) (vs : List Int) :
    reduceLoop order cond n ⟨vs, []⟩ = Flow.next ⟨vs, []⟩ := by
  cases n <;> rfl

theorem reduceLoop_stop (order : ArgOrder) (cond : Char → Bool) (n : Nat) (vs : List Int)
    (top : Char) (os : List Char) (h : cond top = false) :
    reduceLoop order cond n ⟨vs, top :: os⟩ = Flow.next ⟨vs, top :: os⟩ := by
  cases n
  · rfl
  · simp only [reduceLoop, h, Bool.false_eq_true, if_false]

theorem reduceLoop_step (order : ArgOrder) (cond : Char → Bool) (n : Nat) (vs : List Int)
    (top : Char) (os : List Char) (h : cond top = true) :
    reduceLoop order cond (n + 1) ⟨vs, top :: os⟩ =
      match tryPopEval order ⟨vs, top :: os⟩ with
      | Flow.next st1 => reduceLoop order cond n st1
      | Flow.ret out => Flow.ret out
      | Flow.undefined => Flow.undefined := by
  simp only [reduceLoop, h, if_true]

/-- The only text a reduction loop prints is `Error: Too many operators.`. -/
theorem reduceLoop_ret {order : ArgOrder} {cond : Char → Bool} :
    ∀ {n : Nat} {st : Stacks} {out : List Printed},
      reduceLoop order cond n st = Flow.ret out → out = [Printed.tooManyOperators] := by
  intro n
  induction n with
  | zero => intro st out h; cases h
  | succ n ih =>
    intro st out h
    obtain ⟨vs, os⟩ := st
    cases os with
    | nil => rw [reduceLoop_nil] at h; cases h
    | cons top os =>
      cases hc : cond top with
      | false => rw [reduceLoop_stop _ _ _ _ _ _ hc] at h; cases h
      | true =>
        rw [reduceLoop_step _ _ _ _ _ _ hc] at h
        cases ht : tryPopEval order ⟨vs, top :: os⟩ with
        | next st1 => rw [ht] at h; exact ih h
        | ret o => rw [ht] at h; cases h; exact tryPopEval_ret ht
        | undefined => rw [ht] at h; cases h

/-- More iterations than there are stacked operators change nothing. -/
theorem reduceLoop_fuel {order : ArgOrder} {cond : Char → Bool} :
    ∀ (n m : Nat) (st : Stacks), st.operatorStack.length ≤ n → st.operatorStack.length ≤ m →
      reduceLoop order cond n st = reduceLoop order cond m st := by
  intro n
  induction n with
  | zero =>
    intro m st hn _
    obtain ⟨vs, os⟩ := st
    cases os with
    | nil => rw [reduceLoop_nil, reduceLoop_nil]
    | cons top os => simp at hn
  | succ n ih =>
    intro m st hn hm
    obtain ⟨vs, os⟩ := st
    cases os with
    | nil => rw [reduceLoop_nil, reduceLoop_nil]
    | cons top os =>
      cases m with
      | zero => simp at hm
      | succ m =>
        cases hc : cond top with
        | false => rw [reduceLoop_stop _ _ _ _ _ _ hc, reduceLoop_stop _ _ _ _ _ _ hc]
        | true =>
          rw [reduceLoop_step _ _ _ _ _ _ hc, reduceLoop_step _ _ _ _ _ _ hc]
          cases ht : tryPopEval order ⟨vs, top :: os⟩ with
          | next st1 =>
            obtain ⟨a, b, vs', op, r, hst, -, -⟩ := tryPopEval_next ht
            have hos : os = st1.operatorStack := by
              have := congrArg Stacks.operatorStack hst
              simp at this
              exact this.2
            simp only [List.length_cons, Nat.add_le_add_iff_right] at hn hm
            exact ih m st1 (hos ▸ hn) (hos ▸ hm)
          | ret o => rfl
          | undefined => rfl


/-! ## The token loop -/

theorem messages_append (a b : List Printed) :
    messages (a ++ b) = messages a ++ messages b := by
  simp [messages]

theorem messages_LOG (debugMode : Bool) (p : Printed) (h : p.isLog = true) :
    messages (LOG debugMode p) = [] := by
  cases debugMode <;> simp [messages, LOG, h]

theorem messages_traceOf (debugMode : Bool) (tok : Token) :
    messages (traceOf debugMode tok) = [] := by
  unfold traceOf
  split
  · exact messages_LOG _ _ rfl
  · exact messages_LOG _ _ rfl
  · rfl

theorem processToken_fst (debugMode : Bool) (order : ArgOrder) (tok : Token) (st : Stacks) :
    (processToken debugMode order tok st).1 = traceOf debugMode tok := by
  unfold processToken traceOf Token.getType
  split <;> simp_all

theorem processToken_snd (debugMode : Bool) (order : ArgOrder) (tok : Token) (st : Stacks) :
    (processToken debugMode order tok st).2 = (processToken false order tok st).2 := by
  unfold processToken
  split <;> rfl

theorem tokenLoop_eoln {σ : Type} (debugMode : Bool) (order : ArgOrder)
    (nx : σ → Token × σ × List Printed) (fuel : Nat) (tok : Token) (tr : σ) (st : Stacks)
    (h : tok.type = TokenType.EOLN) :
    tokenLoop debugMode order nx (fuel + 1) tok tr st = finish order st tr := by
  simp [tokenLoop, Token.equalsType, h]

theorem tokenLoop_succ {σ : Type} (debugMode : Bool) (order : ArgOrder)
    (nx : σ → Token × σ × List Printed) (fuel : Nat) (tok : Token) (tr : σ) (st : Stacks)
    (h : tok.type ≠ TokenType.EOLN) :
    tokenLoop debugMode order nx (fuel + 1) tok tr st =
      match (processToken false order tok st).2 with
      | Flow.next st1 =>
        ⟨traceOf debugMode tok ++ (nx tr).2.2 ++
            (tokenLoop debugMode order nx fuel (nx tr).1 (nx tr).2.1 st1).out,
          (tokenLoop debugMode order nx fuel (nx tr).1 (nx tr).2.1 st1).status,
          (tokenLoop debugMode order nx fuel (nx tr).1 (nx tr).2.1 st1).tr⟩
      | Flow.ret out => ⟨traceOf debugMode tok ++ out, Status.returned, tr⟩
      | Flow.undefined => ⟨traceOf debugMode tok, Status.undefinedBehaviour, tr⟩ := by
  simp only [tokenLoop, Token.equalsType, h, decide_False, Bool.false_eq_true, if_false]
  have h1 := processToken_fst debugMode order tok st
  have h2 := processToken_snd debugMode order tok st
  generalize processToken debugMode order tok st = p at h1 h2 ⊢
  obtain ⟨log, fl⟩ := p
  simp only at h1 h2
  subst h1
  rw [← h2]
  cases fl <;> rfl

/-- The debug flag changes nothing but the trace. -/
theorem tokenLoop_debug {σ : Type} (debugMode : Bool) (order : ArgOrder)
    (nx : σ → Token × σ × List Printed) :
    ∀ (fuel : Nat) (tok : Token) (tr : σ) (st : Stacks),
      messages (tokenLoop debugMode order nx fuel tok tr st).out
          = messages (tokenLoop false order nx fuel tok tr st).out ∧
      (tokenLoop debugMode order nx fuel tok tr st).status
          = (tokenLoop false order nx fuel tok tr st).status ∧
      (tokenLoop debugMode order nx fuel tok tr st).tr
          = (tokenLoop false order nx fuel tok tr st).tr := by
  intro fuel
  induction fuel with
  | zero => intro tok tr st; exact ⟨rfl, rfl, rfl⟩
  | succ fuel ih =>
    intro tok tr st
    by_cases h : tok.type = TokenType.EOLN
    · rw [tokenLoop_eoln _ _ _ _ _ _ _ h, tokenLoop_eoln _ _ _ _ _ _ _ h]
      exact ⟨rfl, rfl, rfl⟩
    · rw [tokenLoop_succ _ _ _ _ _ _ _ h, tokenLoop_succ false _ _ _ _ _ _ h]
      cases (processToken false order tok st).2 with
      | next st1 =>
        obtain ⟨i1, i2, i3⟩ := ih (nx tr).1 (nx tr).2.1 st1
        refine ⟨?_, i2, i3⟩
        simp only [messages_append, messages_traceOf, i1]
      | ret out => simp only [messages_append, messages_traceOf, and_self]
      | undefined => simp only [messages_traceOf, and_self]

theorem drain_cons_short (order : ArgOrder) (vs : List Int) (top : Char) (os : List Char)
    (h : vs.length < 2) : drain order ⟨vs, top :: os⟩ = Flow.ret [Printed.tooManyOperators] := by
  unfold drain
  simp only [List.length_cons]
  rw [reduceLoop_step _ _ _ _ _ _ rfl, tryPopEval_short _ _ h]

theorem processToken_value (order : ArgOrder) (tok : Token) (st : Stacks)
    (h : tok.type = TokenType.VALUE) :
    (processToken false order tok st).2
      = Flow.next ⟨tok.val :: st.valueStack, st.operatorStack⟩ := by
  simp [processToken, Token.getType, h, Token.getValue, Stack.push, Vector.push_back]

theorem processToken_operator (order : ArgOrder) (tok : Token) (st : Stacks)
    (h : tok.type = TokenType.OPERATOR) :
    (processToken false order tok st).2 = processOperator order tok.op st := by
  simp [processToken, Token.getType, h, Token.getOperator]

theorem processToken_other (order : ArgOrder) (tok : Token) (st : Stacks)
    (h1 : tok.type ≠ TokenType.VALUE) (h2 : tok.type ≠ TokenType.OPERATOR) :
    (processToken false order tok st).2 = Flow.ret [] := by
  unfold processToken Token.getType
  split
  · next h => exact absurd h h1
  · next h => exact absurd h h2
  · rfl

theorem processOperator_open (order : ArgOrder) (st : Stacks) :
    processOperator order '(' st = Flow.next ⟨st.valueStack, '(' :: st.operatorStack⟩ := by
  simp [processOperator, Stack.push, Vector.push_back]

theorem processOperator_addsub (order : ArgOrder) (op : Char) (st : Stacks)
    (h : op = '+' ∨ op = '-') :
    processOperator order op st =
      match loop1 order st with
      | Flow.next st1 => Flow.next ⟨st1.valueStack, op :: st1.operatorStack⟩
      | Flow.ret out => Flow.ret out
      | Flow.undefined => Flow.undefined := by
  have hne : op ≠ '(' := by rcases h with h | h <;> rw [h] <;> decide
  simp only [processOperator, hne, if_false, h, if_true, Stack.push, Vector.push_back]

theorem processOperator_muldiv (order : ArgOrder) (op : Char) (st : Stacks)
    (h : op = '*' ∨ op = '/') :
    processOperator order op st =
      match loop2 order st with
      | Flow.next st1 => Flow.next ⟨st1.valueStack, op :: st1.operatorStack⟩
      | Flow.ret out => Flow.ret out
      | Flow.undefined => Flow.undefined := by
  have hne : op ≠ '(' := by rcases h with h | h <;> rw [h] <;> decide
  have hne2 : ¬ (op = '+' ∨ op = '-') := by rcases h with h | h <;> rw [h] <;> decide
  simp only [processOperator, hne, hne2, if_false, h, if_true, Stack.push, Vector.push_back]

theorem processOperator_close (order : ArgOrder) (st : Stacks) :
    processOperator order ')' st =
      match unwindToParen order st with
      | Flow.next st1 =>
        if st1.operatorStack.isEmpty then Flow.ret [Printed.missingOpenParen]
        else Flow.next ⟨st1.valueStack, st1.operatorStack.pop⟩
      | Flow.ret out => Flow.ret out
      | Flow.undefined => Flow.undefined := by
  have h1 : ¬ ((')' : Char) = '(') := by decide
  have h2 : ¬ ((')' : Char) = '+' ∨ (')' : Char) = '-') := by decide
  have h3 : ¬ ((')' : Char) = '*' ∨ (')' : Char) = '/') := by decide
  simp only [processOperator, h1, h2, h3, if_false, if_true]

theorem processOperator_ignored (order : ArgOrder) (op : Char) (st : Stacks)
    (h1 : op ≠ '(') (h2 : op ≠ '+') (h3 : op ≠ '-') (h4 : op ≠ '*') (h5 : op ≠ '/')
    (h6 : op ≠ ')') : processOperator order op st = Flow.next st := by
  simp [processOperator, h1, h2, h3, h4, h5, h6]


/-! ## Structural errors and the final step -/

/-- C6 (as stated, refuted). On `1 2 +` the trailing `+` is pushed and reduced by the
final drain, so the line prints `Result: 3`, not `Error: Not enough operators.`. -/
theorem trailing_operator_counterexample :
    (processTokens false ArgOrder.rightToLeft [tVal 1, tVal 2, tOp '+', tEoln]).out
      = [Printed.result 3] ∧
    (processTokens false ArgOrder.rightToLeft [tVal 1, tVal 2, tOp '+', tEoln]).out
      ≠ [Printed.notEnoughOperators] := by
  decide

/-- C6 (amended). Whatever the debug flag and the argument order, the line `1 2 +`
prints `Result: 3` and no error message, while the line `1 2`, two operands and no
operator, prints `Error: Not enough operators.` and no `Result:` line. -/
theorem trailing_operator_is_reduced (debugMode : Bool) (order : ArgOrder) :
    messages (processTokens debugMode order [tVal 1, tVal 2, tOp '+', tEoln]).out
      = [Printed.result 3] ∧
    (processTokens debugMode order [tVal 1, tVal 2, tOp '+', tEoln]).status
      = Status.returned ∧
    messages (processTokens debugMode order [tVal 1, tVal 2, tEoln]).out
      = [Printed.notEnoughOperators] ∧
    (processTokens debugMode order [tVal 1, tVal 2, tEoln]).status = Status.returned := by
  cases debugMode <;> cases order <;> decide

/-- C9. The final step: once the token loop is at `EOLN` and the drain of the operator
stack has succeeded, leaving the operands `n :: rest` (`n` on top), `processExpression`
returns having printed `Result: n` exactly when `n` is the only operand, and
`Error: Not enough operators.` (and no `Result:` line) exactly when there are two or
more. -/
theorem final_step_result_iff_single_operand {σ : Type} (debugMode : Bool)
    (order : ArgOrder) (nx : σ → Token × σ × List Printed) (fuel : Nat) (tr : σ)
    (st st1 : Stacks) (n : Int) (rest : List Int)
    (hdrain : drain order st = Flow.next st1) (hops : st1.valueStack = n :: rest) :
    ((tokenLoop debugMode order nx (fuel + 1) tEoln tr st).out = [Printed.result n]
      ↔ (n :: rest).length = 1) ∧
    ((tokenLoop debugMode order nx (fuel + 1) tEoln tr st).out = [Printed.notEnoughOperators]
      ↔ 2 ≤ (n :: rest).length) ∧
    (2 ≤ (n :: rest).length →
      ∀ m, Printed.result m ∉ (tokenLoop debugMode order nx (fuel + 1) tEoln tr st).out) ∧
    (tokenLoop debugMode order nx (fuel + 1) tEoln tr st).status = Status.returned ∧
    (tokenLoop debugMode order nx (fuel + 1) tEoln tr st).tr = tr := by
  rw [tokenLoop_eoln _ _ _ _ _ _ _ rfl]
  cases rest with
  | nil =>
    simp [finish, hdrain, hops, Stack.top, Stack.pop, Stack.isEmpty, Vector.back,
      Vector.pop_back, Vector.isEmpty]
  | cons x rest =>
    simp [finish, hdrain, hops, Stack.top, Stack.pop, Stack.isEmpty, Vector.back,
      Vector.pop_back, Vector.isEmpty]

/-- C9, at the end of `2*3` (operands `3`, `2` and operator `*` stacked: the drain
leaves the single operand `6`). -/
theorem final_step_result_iff_single_operand_witness :
    drain ArgOrder.rightToLeft ⟨[3, 2], ['*']⟩ = Flow.next ⟨[6], []⟩ ∧
    ((tokenLoop false ArgOrder.rightToLeft nextOfList 1 tEoln [] ⟨[3, 2], ['*']⟩).out
        = [Printed.result 6] ↔ ([6] : List Int).length = 1) :=
  ⟨by decide,
    (final_step_result_iff_single_operand false ArgOrder.rightToLeft nextOfList 0 []
      ⟨[3, 2], ['*']⟩ ⟨[6], []⟩ 6 [] (by decide) rfl).1⟩

theorem runFrom_eoln (debugMode : Bool) (order : ArgOrder) (fuel : Nat) (t : Token)
    (ts : List Token) (st : Stacks) (h : t.type = TokenType.EOLN) :
    runFrom debugMode order (fuel + 1) (t :: ts) st = finish order st ts := by
  simp only [runFrom, nextOfList]
  exact tokenLoop_eoln _ _ _ _ _ _ _ h

theorem runFrom_cons (debugMode : Bool) (order : ArgOrder) (fuel : Nat) (t : Token)
    (ts : List Token) (st : Stacks) (h : t.type ≠ TokenType.EOLN) :
    runFrom debugMode order (fuel + 1) (t :: ts) st =
      match (processToken false order t st).2 with
      | Flow.next st1 =>
        ⟨traceOf debugMode t ++ (runFrom debugMode order fuel ts st1).out,
          (runFrom debugMode order fuel ts st1).status,
          (runFrom debugMode order fuel ts st1).tr⟩
      | Flow.ret out => ⟨traceOf debugMode t ++ out, Status.returned, ts⟩
      | Flow.undefined => ⟨traceOf debugMode t, Status.undefinedBehaviour, ts⟩ := by
  simp only [runFrom, nextOfList]
  rw [tokenLoop_succ _ _ _ _ _ _ _ h]
  cases (processToken false order t st).2 with
  | next st1 => cases ts <;> simp [nextOfList]
  | ret out => rfl
  | undefined => rfl

theorem processTokens_eq_runFrom (debugMode : Bool) (order : ArgOrder) (toks : List Token) :
    processTokens debugMode order toks
      = runFrom debugMode order (toks.length + 2) toks ⟨[], []⟩ := rfl

theorem feed_append (order : ArgOrder) (ts us : List Token) :
    ∀ st, feed order (ts ++ us) st = (feed order ts st).bind (feed order us) := by
  induction ts with
  | nil => intro st; rfl
  | cons t ts ih =>
    intro st
    simp only [List.cons_append, feed]
    split
    · rfl
    · cases (processToken false order t st).2 with
      | next st1 => exact ih st1
      | ret out => rfl
      | undefined => rfl

/-- Tokens that are fed without ending the loop contribute nothing but their trace. -/
theorem runFrom_feed (debugMode : Bool) (order : ArgOrder) (ts more : List Token) :
    ∀ (st st1 : Stacks) (fuel : Nat), feed order ts st = some st1 →
      messages (runFrom debugMode order (ts.length + fuel) (ts ++ more) st).out
          = messages (runFrom debugMode order fuel more st1).out ∧
      (runFrom debugMode order (ts.length + fuel) (ts ++ more) st).status
          = (runFrom debugMode order fuel more st1).status := by
  induction ts with
  | nil =>
    intro st st1 fuel h
    simp only [feed, Option.some.injEq] at h
    subst h
    simp
  | cons t ts ih =>
    intro st st1 fuel h
    simp only [feed] at h
    by_cases he : t.type = TokenType.EOLN
    · simp [Token.equalsType, he] at h
    · simp only [Token.equalsType, he, decide_False, Bool.false_eq_true, if_false] at h
      have hl : (t :: ts).length + fuel = (ts.length + fuel) + 1 := by
        simp only [List.length_cons]; omega
      rw [hl, List.cons_append, runFrom_cons _ _ _ _ _ _ he]
      cases hp : (processToken false order t st).2 with
      | next st2 =>
        rw [hp] at h
        obtain ⟨i1, i2⟩ := ih st2 st1 fuel h
        simp only [messages_append, messages_traceOf, List.nil_append]
        exact ⟨i1, i2⟩
      | ret out => rw [hp] at h; cases h
      | undefined => rw [hp] at h; cases h

/-- What the handling of one token can print before returning. -/
theorem processToken_ret {order : ArgOrder} {tok : Token} {st : Stacks} {out : List Printed}
    (h : (processToken false order tok st).2 = Flow.ret out) :
    out = [] ∨ out = [Printed.tooManyOperators] ∨ out = [Printed.missingOpenParen] := by
  by_cases hv : tok.type = TokenType.VALUE
  · rw [processToken_value _ _ _ hv] at h; cases h
  by_cases ho : tok.type = TokenType.OPERATOR
  · rw [processToken_operator _ _ _ ho] at h
    by_cases h1 : tok.op = '('
    · rw [h1, processOperator_open] at h; cases h
    by_cases h2 : tok.op = '+' ∨ tok.op = '-'
    · rw [processOperator_addsub _ _ _ h2] at h
      cases hl : loop1 order st with
      | next s => rw [hl] at h; cases h
      | ret o => rw [hl] at h; cases h; exact Or.inr (Or.inl (reduceLoop_ret hl))
      | undefined => rw [hl] at h; cases h
    by_cases h3 : tok.op = '*' ∨ tok.op = '/'
    · rw [processOperator_muldiv _ _ _ h3] at h
      cases hl : loop2 order st with
      | next s => rw [hl] at h; cases h
      | ret o => rw [hl] at h; cases h; exact Or.inr (Or.inl (reduceLoop_ret hl))
      | undefined => rw [hl] at h; cases h
    by_cases h4 : tok.op = ')'
    · rw [h4, processOperator_close] at h
      cases hl : unwindToParen order st with
      | next s =>
        rw [hl] at h
        by_cases hemp : s.operatorStack.isEmpty = true
        · simp only [hemp, if_true] at h; cases h; exact Or.inr (Or.inr rfl)
        · simp only [hemp, if_false] at h; cases h
      | ret o => rw [hl] at h; cases h; exact Or.inr (Or.inl (reduceLoop_ret hl))
      | undefined => rw [hl] at h; cases h
    · rw [processOperator_ignored _ _ _ h1 (fun e => h2 (Or.inl e)) (fun e => h2 (Or.inr e))
        (fun e => h3 (Or.inl e)) (fun e => h3 (Or.inr e)) h4] at h
      cases h
  · rw [processToken_other _ _ _ hv ho] at h
    cases h
    exact Or.inl rfl

/-- A run that prints a result has fed every token before `EOLN` and printed the result
in its final step. -/
theorem runFrom_result (debugMode : Bool) (order : ArgOrder) (e : Token) (more : List Token)
    (n : Int) (he : e.type = TokenType.EOLN) :
    ∀ (ts : List Token) (st : Stacks) (fuel : Nat), (∀ t ∈ ts, t.type ≠ TokenType.EOLN) →
      messages (runFrom debugMode order fuel (ts ++ e :: more) st).out = [Printed.result n] →
      ∃ st1, feed order ts st = some st1 ∧
        messages (finish order st1 more).out = [Printed.result n] := by
  intro ts
  induction ts with
  | nil =>
    intro st fuel _ h
    cases fuel with
    | zero => simp [runFrom, tokenLoop, messages] at h
    | succ fuel =>
      rw [List.nil_append, runFrom_eoln _ _ _ _ _ _ he] at h
      exact ⟨st, rfl, h⟩
  | cons t ts ih =>
    intro st fuel hts h
    have hte : t.type ≠ TokenType.EOLN := hts t (List.mem_cons_self _ _)
    cases fuel with
    | zero => simp [runFrom, tokenLoop, messages] at h
    | succ fuel =>
      rw [List.cons_append, runFrom_cons _ _ _ _ _ _ hte] at h
      simp only [feed, Token.equalsType, hte, decide_False, Bool.false_eq_true, if_false]
      cases hp : (processToken false order t st).2 with
      | next st2 =>
        rw [hp] at h
        simp only [messages_append, messages_traceOf, List.nil_append] at h
        exact ih st2 fuel (fun t ht => hts t (List.mem_cons_of_mem _ ht)) h
      | ret out =>
        rw [hp] at h
        simp only [messages_append, messages_traceOf, List.nil_append] at h
        rcases processToken_ret hp with ho | ho | ho <;> rw [ho] at h <;>
          simp [messages, Printed.isLog] at h
      | undefined =>
        rw [hp] at h
        simp only [messages_traceOf] at h
        cases h

/-! ## Parentheses -/

theorem applyOp_ok_ne_paren {order : ArgOrder} {op : Char} {a b r : Int}
    (h : applyOp order op a b = Outcome.ok r) : op ≠ '(' := by
  intro e
  subst e
  cases order <;> simp [applyOp, eval] at h

theorem tryPopEval_under {order : ArgOrder} {st st1 : Stacks} (base : List Char)
    (h : tryPopEval order st = Flow.next st1) :
    tryPopEval order (under base st) = Flow.next (under base st1) ∧
      st.operatorStack.length = st1.operatorStack.length + 1 ∧
      st.operatorStack.head? ≠ some '(' := by
  obtain ⟨a, b, vs, op, r, hst, hr, hv⟩ := tryPopEval_next h
  obtain ⟨vs1, os1⟩ := st1
  simp only at hv hst
  subst hv
  subst hst
  refine ⟨?_, by simp, ?_⟩
  · simp only [under, List.cons_append]
    rw [tryPopEval_cons, hr]
  · simpa using applyOp_ok_ne_paren hr

/-- A reduction loop that never reduces `(` runs the same way on top of a `(`. -/
theorem reduceLoop_under {order : ArgOrder} {cond : Char → Bool} (base : List Char)
    (hc : cond '(' = false) :
    ∀ (n : Nat) (st st1 : Stacks) (m : Nat), st.operatorStack.length ≤ n →
      (st.operatorStack ++ '(' :: base).length ≤ m →
      reduceLoop order cond n st = Flow.next st1 →
      reduceLoop order cond m (under ('(' :: base) st) = Flow.next (under ('(' :: base) st1) := by
  intro n
  induction n with
  | zero =>
    intro st st1 m hn _ h
    obtain ⟨vs, os⟩ := st
    cases os with
    | nil =>
      rw [reduceLoop_nil] at h
      cases h
      exact reduceLoop_stop _ _ _ _ _ _ hc
    | cons top os => simp at hn
  | succ n ih =>
    intro st st1 m hn hm h
    obtain ⟨vs, os⟩ := st
    cases os with
    | nil =>
      rw [reduceLoop_nil] at h
      cases h
      exact reduceLoop_stop _ _ _ _ _ _ hc
    | cons top os =>
      cases hct : cond top with
      | false =>
        rw [reduceLoop_stop _ _ _ _ _ _ hct] at h
        cases h
        exact reduceLoop_stop _ _ _ _ _ _ hct
      | true =>
        rw [reduceLoop_step _ _ _ _ _ _ hct] at h
        cases m with
        | zero => simp at hm
        | succ m =>
          simp only [under, List.cons_append]
          rw [reduceLoop_step order cond m vs top (os ++ '(' :: base) hct]
          cases ht : tryPopEval order ⟨vs, top :: os⟩ with
          | next st2 =>
            rw [ht] at h
            obtain ⟨hu, hlen, -⟩ := tryPopEval_under ('(' :: base) ht
            simp only [under, List.cons_append] at hu
            rw [hu]
            simp only [List.length_cons, Nat.add_right_cancel_iff] at hlen
            refine ih st2 st1 m ?_ ?_ h
            · simp only [List.length_cons] at hn; omega
            · simp only [List.cons_append, List.length_cons, List.length_append] at hm ⊢
              omega
          | ret o => rw [ht] at h; cases h
          | undefined => rw [ht] at h; cases h

/-- A drain that succeeds empties the operator stack, and the loop of `')'` does the same
reductions when a `(` lies underneath. -/
theorem drain_under {order : ArgOrder} (base : List Char) :
    ∀ (n : Nat) (st st1 : Stacks) (m : Nat), st.operatorStack.length ≤ n →
      (st.operatorStack ++ '(' :: base).length ≤ m →
      reduceLoop order (fun _ => true) n st = Flow.next st1 →
      st1.operatorStack = [] ∧
      reduceLoop order (fun top => top != '(') m (under ('(' :: base) st)
        = Flow.next (under ('(' :: base) st1) := by
  intro n
  induction n with
  | zero =>
    intro st st1 m hn _ h
    obtain ⟨vs, os⟩ := st
    cases os with
    | nil =>
      rw [reduceLoop_nil] at h
      cases h
      exact ⟨rfl, reduceLoop_stop _ _ _ _ _ _ (by decide)⟩
    | cons top os => simp at hn
  | succ n ih =>
    intro st st1 m hn hm h
    obtain ⟨vs, os⟩ := st
    cases os with
    | nil =>
      rw [reduceLoop_nil] at h
      cases h
      exact ⟨rfl, reduceLoop_stop _ _ _ _ _ _ (by decide)⟩
    | cons top os =>
      rw [reduceLoop_step order (fun _ => true) n vs top os rfl] at h
      cases ht : tryPopEval order ⟨vs, top :: os⟩ with
      | next st2 =>
        rw [ht] at h
        obtain ⟨hu, hlen, hp⟩ := tryPopEval_under ('(' :: base) ht
        have htop : top ≠ '(' := by simpa using hp
        have hct : (fun top => top != '(') top = true := by simp [htop]
        cases m with
        | zero => simp at hm
        | succ m =>
          simp only [under, List.cons_append] at hu ⊢
          rw [reduceLoop_step order (fun top => top != '(') m vs top (os ++ '(' :: base) hct,
            hu]
          simp only [List.length_cons, Nat.add_right_cancel_iff] at hlen
          refine ih st2 st1 m ?_ ?_ h
          · simp only [List.length_cons] at hn; omega
          · simp only [List.cons_append, List.length_cons, List.length_append] at hm ⊢
            omega
      | ret o => rw [ht] at h; cases h
      | undefined => rw [ht] at h; cases h

/-- Handling a token that does not end the loop goes the same way on top of a `(`. -/
theorem processToken_under {order : ArgOrder} {tok : Token} {st st1 : Stacks}
    (base : List Char) (h : (processToken false order tok st).2 = Flow.next st1) :
    (processToken false order tok (under ('(' :: base) st)).2
      = Flow.next (under ('(' :: base) st1) := by
  by_cases hv : tok.type = TokenType.VALUE
  · rw [processToken_value _ _ _ hv] at h ⊢
    cases h
    rfl
  by_cases ho : tok.type = TokenType.OPERATOR
  · rw [processToken_operator _ _ _ ho] at h ⊢
    by_cases h1 : tok.op = '('
    · rw [h1, processOperator_open] at h ⊢
      cases h
      rfl
    by_cases h2 : tok.op = '+' ∨ tok.op = '-'
    · rw [processOperator_addsub _ _ _ h2] at h ⊢
      cases hl : loop1 order st with
      | next s =>
        rw [hl] at h
        cases h
        have := @reduceLoop_under order
          (fun top => top = '+' || top = '-' || top = '*' || top = '/') base (by decide)
          _ st s (under ('(' :: base) st).operatorStack.length (le_refl _) (le_refl _) hl
        simp only [loop1]
        rw [this]
        rfl
      | ret o => rw [hl] at h; cases h
      | undefined => rw [hl] at h; cases h
    by_cases h3 : tok.op = '*' ∨ tok.op = '/'
    · rw [processOperator_muldiv _ _ _ h3] at h ⊢
      cases hl : loop2 order st with
      | next s =>
        rw [hl] at h
        cases h
        have := @reduceLoop_under order
          (fun top => top = '*' || top = '/') base (by decide)
          _ st s (under ('(' :: base) st).operatorStack.length (le_refl _) (le_refl _) hl
        simp only [loop2]
        rw [this]
        rfl
      | ret o => rw [hl] at h; cases h
      | undefined => rw [hl] at h; cases h
    by_cases h4 : tok.op = ')'
    · rw [h4, processOperator_close] at h ⊢
      cases hl : unwindToParen order st with
      | next s =>
        rw [hl] at h
        have := @reduceLoop_under order
          (fun top => top != '(') base (by decide)
          _ st s (under ('(' :: base) st).operatorStack.length (le_refl _) (le_refl _) hl
        simp only [unwindToParen]
        rw [this]
        obtain ⟨vs, os⟩ := s
        cases os with
        | nil => simp [Stack.isEmpty, Vector.isEmpty] at h
        | cons top os =>
          simp only [Stack.isEmpty, Vector.isEmpty, List.isEmpty_cons, Bool.false_eq_true,
            if_false, Stack.pop, Vector.pop_back, Flow.next.injEq] at h
          subst h
          simp [under, Stack.isEmpty, Vector.isEmpty, Stack.pop, Vector.pop_back]
      | ret o => rw [hl] at h; cases h
      | undefined => rw [hl] at h; cases h
    · have hi := fun s => processOperator_ignored order tok.op s
        h1 (fun e => h2 (Or.inl e)) (fun e => h2 (Or.inr e))
        (fun e => h3 (Or.inl e)) (fun e => h3 (Or.inr e)) h4
      rw [hi] at h ⊢
      cases h
      rfl
  · rw [processToken_other _ _ _ hv ho] at h
    cases h

theorem feed_under {order : ArgOrder} (base : List Char) :
    ∀ (ts : List Token) (st st1 : Stacks), feed order ts st = some st1 →
      feed order ts (under ('(' :: base) st) = some (under ('(' :: base) st1) := by
  intro ts
  induction ts with
  | nil =>
    intro st st1 h
    simp only [feed, Option.some.injEq] at h
    subst h
    rfl
  | cons t ts ih =>
    intro st st1 h
    simp only [feed] at h ⊢
    by_cases he : t.equalsType TokenType.EOLN = true
    · simp [he] at h
    · simp only [he, Bool.false_eq_true, if_false] at h ⊢
      cases hp : (processToken false order t st).2 with
      | next st2 =>
        rw [hp] at h
        rw [processToken_under base hp]
        exact ih st2 st1 h
      | ret out => rw [hp] at h; cases h
      | undefined => rw [hp] at h; cases h

theorem finish_result {σ : Type} {order : ArgOrder} {st : Stacks} {tr : σ} {n : Int}
    (h : messages (finish order st tr).out = [Printed.result n]) :
    drain order st = Flow.next ⟨[n], []⟩ := by
  unfold finish at h
  cases hd : drain order st with
  | next st1 =>
    rw [hd] at h
    have hos : st1.operatorStack = [] :=
      (drain_under [] _ st st1 _ (le_refl _) (le_refl _) hd).1
    obtain ⟨vs, os⟩ := st1
    simp only at hos
    subst hos
    match vs with
    | [] => simp [Stack.top, Vector.back, messages] at h
    | [x] =>
      simp [Stack.top, Vector.back, Stack.pop, Vector.pop_back, Stack.isEmpty,
        Vector.isEmpty, messages, Printed.isLog] at h
      rw [h]
    | x :: y :: vs =>
      simp [Stack.top, Vector.back, Stack.pop, Vector.pop_back, Stack.isEmpty,
        Vector.isEmpty, messages, Printed.isLog] at h
  | ret out =>
    rw [hd] at h
    have ho : out = [Printed.tooManyOperators] := reduceLoop_ret hd
    simp [ho, messages, Printed.isLog] at h
  | undefined =>
    rw [hd] at h
    simp [messages] at h

theorem finish_single {σ : Type} (order : ArgOrder) (n : Int) (tr : σ) :
    finish order ⟨[n], []⟩ tr = ⟨[Printed.result n], Status.returned, tr⟩ := rfl

/-- One pair of parentheses around a token sequence that prints a result. -/
theorem wrap_once (debugMode : Bool) (order : ArgOrder) (ts : List Token) (n : Int)
    (hts : ∀ t ∈ ts, t.type ≠ TokenType.EOLN)
    (h : messages (processTokens debugMode order (ts ++ [tEoln])).out = [Printed.result n]) :
    messages (processTokens debugMode order (tOp '(' :: ts ++ [tOp ')'] ++ [tEoln])).out
      = [Printed.result n] := by
  rw [processTokens_eq_runFrom] at h ⊢
  obtain ⟨st1, hfeed, hfin⟩ := runFrom_result debugMode order tEoln [] n rfl ts _ _ hts h
  have hdrain := finish_result hfin
  have hunder := @feed_under order [] ts ⟨[], []⟩ st1 hfeed
  have hclose : feed order [tOp ')'] (under ['('] st1) = some ⟨[n], []⟩ := by
    have hu := (@drain_under order [] _ st1 ⟨[n], []⟩
      (under ['('] st1).operatorStack.length (le_refl _) (le_refl _) hdrain).2
    have hp : (processToken false order (tOp ')') (under ['('] st1)).2
        = Flow.next ⟨[n], []⟩ := by
      rw [processToken_operator _ _ _ rfl]
      have hop : (tOp ')').op = ')' := rfl
      rw [hop, processOperator_close]
      simp only [unwindToParen]
      rw [hu]
      rfl
    simp only [feed, hp]
    rfl
  have hall : feed order (tOp '(' :: ts ++ [tOp ')']) ⟨[], []⟩ = some ⟨[n], []⟩ := by
    have h0 : feed order (tOp '(' :: ts) ⟨[], []⟩ = some (under ['('] st1) := by
      simp only [feed]
      exact hunder
    rw [feed_append, h0]
    exact hclose
  have hlen : (tOp '(' :: ts ++ [tOp ')'] ++ [tEoln]).length + 2
      = (tOp '(' :: ts ++ [tOp ')']).length + 3 := by
    simp
  rw [hlen, (runFrom_feed debugMode order _ [tEoln] _ _ 3 hall).1,
    runFrom_eoln _ _ _ _ _ _ rfl, finish_single]
  rfl

/-- C5. Parenthesis transparency: if a token sequence without `EOLN` (in particular the
tokens of a well-formed expression), followed by `EOLN`, makes `processExpression` print
`Result: n`, then the same sequence wrapped in `k` pairs of matching parentheses also
prints `Result: n`, for every `k`, debug setting and argument order. -/
theorem parenthesis_transparency (debugMode : Bool) (order : ArgOrder) (ts : List Token)
    (n : Int) (hts : ∀ t ∈ ts, t.type ≠ TokenType.EOLN)
    (h : messages (processTokens debugMode order (ts ++ [tEoln])).out = [Printed.result n])
    (k : Nat) :
    messages (processTokens debugMode order
      (List.replicate k (tOp '(') ++ ts ++ List.replicate k (tOp ')') ++ [tEoln])).out
        = [Printed.result n] := by
  induction k with
  | zero => simpa using h
  | succ k ih =>
    have hts' : ∀ t ∈ List.replicate k (tOp '(') ++ ts ++ List.replicate k (tOp ')'),
        t.type ≠ TokenType.EOLN := by
      intro t ht
      simp only [List.mem_append, List.mem_replicate] at ht
      rcases ht with (⟨-, e⟩ | ht) | ⟨-, e⟩
      · rw [e]; decide
      · exact hts t ht
      · rw [e]; decide
    have := wrap_once debugMode order _ n hts' ih
    have hshape : List.replicate (k + 1) (tOp '(') ++ ts ++ List.replicate (k + 1) (tOp ')')
        = tOp '(' :: (List.replicate k (tOp '(') ++ ts ++ List.replicate k (tOp ')'))
            ++ [tOp ')'] := by
      rw [List.replicate_succ, List.replicate_succ']
      simp
    rw [hshape]
    exact this

/-- C5, on `2+3` wrapped twice: `((2+3))` prints `Result: 5`. -/
theorem parenthesis_transparency_witness :
    messages (processTokens false ArgOrder.leftToRight
      ([tOp '(', tOp '('] ++ [tVal 2, tOp '+', tVal 3] ++ [tOp ')', tOp ')'] ++ [tEoln])).out
        = [Printed.result 5] :=
  parenthesis_transparency false ArgOrder.leftToRight [tVal 2, tOp '+', tVal 3] 5
    (by decide) (by decide) 2

/-- C5 (the example, refuted). The line `((2+3))*(4-1)` does not print `Result: 9`: it
prints `Result: 15` when the operands of a reduction are taken in the order they were
pushed, and `Result: -15` when they are swapped. -/
theorem parenthesis_example_counterexample :
    (processTokens false ArgOrder.rightToLeft
      [tOp '(', tOp '(', tVal 2, tOp '+', tVal 3, tOp ')', tOp ')', tOp '*',
        tOp '(', tVal 4, tOp '-', tVal 1, tOp ')', tEoln]).out = [Printed.result 15] ∧
    (processTokens false ArgOrder.leftToRight
      [tOp '(', tOp '(', tVal 2, tOp '+', tVal 3, tOp ')', tOp ')', tOp '*',
        tOp '(', tVal 4, tOp '-', tVal 1, tOp ')', tEoln]).out = [Printed.result (-15)] ∧
    (processTokens false ArgOrder.rightToLeft
      [tOp '(', tOp '(', tVal 2, tOp '+', tVal 3, tOp ')', tOp ')', tOp '*',
        tOp '(', tVal 4, tOp '-', tVal 1, tOp ')', tEoln]).out ≠ [Printed.result 9] := by
  decide

/-! ## White space between tokens -/

theorem isdigit_not_isspace {c : Char} (h : isdigit c = true) : isspace c = false := by
  simp only [isdigit, Bool.and_eq_true, decide_eq_true_eq] at h
  simp only [isspace, Bool.or_eq_false_iff, decide_eq_false_iff_not]
  refine ⟨⟨⟨⟨⟨?_, ?_⟩, ?_⟩, ?_⟩, ?_⟩, ?_⟩ <;>
    · intro e
      subst e
      revert h
      decide

theorem endsWithDigit_cons {c : Char} {u : List Char} (hu : u ≠ []) :
    endsWithDigit (c :: u) = endsWithDigit u := by
  cases u with
  | nil => exact absurd rfl hu
  | cons x u => rfl

theorem boundary_tail {c : Char} {u v : List Char}
    (h : ¬ (endsWithDigit (c :: u) = true ∧ startsWithDigit v = true)) :
    ¬ (endsWithDigit u = true ∧ startsWithDigit v = true) := by
  cases u with
  | nil => simp [endsWithDigit]
  | cons x u => exact h

theorem SpacedApart.refl (r : List Char) : SpacedApart r r :=
  ⟨r, [], [], by simp, by simp, by simp, by simp [startsWithDigit]⟩

theorem takeWhile_isdigit_space (w v : List Char) (hw : ∀ c ∈ w, isspace c = true)
    (hv : startsWithDigit v = false) : (w ++ v).takeWhile isdigit = [] := by
  cases w with
  | nil =>
    cases v with
    | nil => rfl
    | cons x v =>
      simp only [startsWithDigit] at hv
      simp [List.takeWhile_cons, hv]
  | cons x w =>
    have hx : isdigit x = false := by
      cases hd : isdigit x with
      | false => rfl
      | true =>
        have := isdigit_not_isspace hd
        rw [hw x (List.mem_cons_self _ _)] at this
        cases this
    simp [List.takeWhile_cons, hx]

theorem dropWhile_of_takeWhile_nil {p : Char → Bool} {l : List Char}
    (h : l.takeWhile p = []) : l.dropWhile p = l := by
  have := List.takeWhile_append_dropWhile p l
  rw [h] at this
  simpa using this

/-- A digit run read across the place where the white space differs. -/
theorem digits_spacedApart (w v : List Char) (hw : ∀ c ∈ w, isspace c = true) :
    ∀ u : List Char, ¬ (endsWithDigit u = true ∧ startsWithDigit v = true) →
      (u = [] → startsWithDigit v = false) →
      (u ++ w ++ v).takeWhile isdigit = (u ++ v).takeWhile isdigit ∧
      SpacedApart ((u ++ w ++ v).dropWhile isdigit) ((u ++ v).dropWhile isdigit) := by
  intro u
  induction u with
  | nil =>
    intro _ h0
    have hv := h0 rfl
    have h1 : (w ++ v).takeWhile isdigit = [] := takeWhile_isdigit_space w v hw hv
    have h2 : v.takeWhile isdigit = [] := by
      simpa using takeWhile_isdigit_space [] v (by simp) hv
    simp only [List.nil_append]
    rw [h1, h2, dropWhile_of_takeWhile_nil h1, dropWhile_of_takeWhile_nil h2]
    exact ⟨rfl, [], w, v, by simp, by simp, hw, by simp [endsWithDigit]⟩
  | cons x u ih =>
    intro hb _
    cases hx : isdigit x with
    | true =>
      have hb' := boundary_tail hb
      have h0 : u = [] → startsWithDigit v = false := by
        intro e
        subst e
        simp only [endsWithDigit, hx, true_and] at hb
        simpa using hb
      obtain ⟨i1, i2⟩ := ih hb' h0
      simp only [List.cons_append, List.takeWhile_cons, List.dropWhile_cons, hx, if_true]
      exact ⟨by rw [i1], i2⟩
    | false =>
      simp only [List.cons_append, List.takeWhile_cons, List.dropWhile_cons, hx,
        Bool.false_eq_true, if_false, true_and]
      exact ⟨x :: u, w, v, by simp, by simp, hw, hb⟩

/-- The token read is the same on both sides of `SpacedApart`, and after a value or an
operator the remainders are again `SpacedApart`. -/
theorem lexList_spacedApart {r1 r2 : List Char} (h : SpacedApart r1 r2) :
    (lexList r1).1 = (lexList r2).1 ∧
    (((lexList r1).1.type = TokenType.VALUE ∨ (lexList r1).1.type = TokenType.OPERATOR) →
      SpacedApart (lexList r1).2 (lexList r2).2) := by
  obtain ⟨u, w, v, h1, h2, hw, hb⟩ := h
  subst h1
  subst h2
  induction u with
  | nil =>
    have : lexList ([] ++ w ++ v) = lexList ([] ++ v) := by
      simp only [List.nil_append, lexList]
      rw [List.dropWhile_append_of_pos hw]
    rw [this]
    exact ⟨rfl, fun _ => SpacedApart.refl _⟩
  | cons c u ih =>
    cases hc : isspace c with
    | true =>
      have e1 : lexList (c :: u ++ w ++ v) = lexList (u ++ w ++ v) := by
        simp only [lexList, List.cons_append, List.dropWhile_cons, hc, if_true]
      have e2 : lexList (c :: u ++ v) = lexList (u ++ v) := by
        simp only [lexList, List.cons_append, List.dropWhile_cons, hc, if_true]
      rw [e1, e2]
      exact ih (boundary_tail hb)
    | false =>
      have e1 : (c :: u ++ w ++ v).dropWhile isspace = c :: (u ++ w ++ v) := by
        simp [List.dropWhile_cons, hc]
      have e2 : (c :: u ++ v).dropWhile isspace = c :: (u ++ v) := by
        simp [List.dropWhile_cons, hc]
      simp only [lexList, e1, e2]
      by_cases hq : c = 'q' ∨ c = 'Q'
      · simp only [hq, if_true]
        exact ⟨trivial, fun h => by rcases h with h | h <;> cases h⟩
      simp only [hq, if_false]
      by_cases hh : c = '?'
      · simp only [hh, if_true]
        exact ⟨trivial, fun h => by rcases h with h | h <;> cases h⟩
      simp only [hh, if_false]
      by_cases ho : c = '+' ∨ c = '-' ∨ c = '*' ∨ c = '/' ∨ c = '(' ∨ c = ')'
      · simp only [ho, if_true]
        exact ⟨trivial, fun _ => ⟨u, w, v, rfl, rfl, hw, boundary_tail hb⟩⟩
      simp only [ho, if_false]
      cases hd : isdigit c with
      | true =>
        simp only [if_true]
        have h0 : u = [] → startsWithDigit v = false := by
          intro e
          subst e
          simp only [endsWithDigit, hd, true_and] at hb
          simpa using hb
        obtain ⟨i1, i2⟩ := digits_spacedApart w v hw u (boundary_tail hb) h0
        rw [i1]
        exact ⟨rfl, fun _ => i2⟩
      | false =>
        simp only [Bool.false_eq_true, if_false]
        exact ⟨trivial, fun h => by rcases h with h | h <;> cases h⟩

/-! ## The reader and the characters left of its line -/

theorem drop_take_cons (buf : List Char) (L pos : Nat) (hL : L ≤ buf.length) (hp : pos < L) :
    (buf.take L).drop pos = TokenReader.charAt buf pos :: (buf.take L).drop (pos + 1) := by
  have hlen : pos < (buf.take L).length := by
    rw [List.length_take]; omega
  rw [List.drop_eq_getElem_cons hlen]
  have hb : pos < buf.length := by omega
  simp only [TokenReader.charAt, List.getD_eq_getElem buf NUL hb, List.getElem_take]

theorem drop_take_nil (buf : List Char) (L pos : Nat) (hp : L ≤ pos) :
    (buf.take L).drop pos = [] := by
  apply List.drop_eq_nil_of_le
  rw [List.length_take]; omega

theorem skipSpaces_spec (buf : List Char) (L : Nat) (hL : L ≤ buf.length) :
    ∀ (fuel pos : Nat), pos ≤ L → L - pos ≤ fuel →
      pos ≤ TokenReader.skipSpaces buf L fuel pos ∧
      TokenReader.skipSpaces buf L fuel pos ≤ L ∧
      (buf.take L).drop (TokenReader.skipSpaces buf L fuel pos)
        = ((buf.take L).drop pos).dropWhile isspace := by
  intro fuel
  induction fuel with
  | zero =>
    intro pos hp hf
    have : pos = L := by omega
    subst this
    simp only [TokenReader.skipSpaces]
    rw [drop_take_nil buf pos pos (le_refl _)]
    exact ⟨le_refl _, le_refl _, rfl⟩
  | succ fuel ih =>
    intro pos hp hf
    by_cases hc : pos < L ∧ isspace (TokenReader.charAt buf pos) = true
    · simp only [TokenReader.skipSpaces, hc, and_self, if_true]
      obtain ⟨i1, i2, i3⟩ := ih (pos + 1) (by omega) (by omega)
      refine ⟨by omega, i2, ?_⟩
      rw [i3, drop_take_cons buf L pos hL hc.1, List.dropWhile_cons, hc.2]
      rfl
    · simp only [TokenReader.skipSpaces, hc, if_false]
      refine ⟨le_refl _, hp, ?_⟩
      by_cases hlt : pos < L
      · have hs : isspace (TokenReader.charAt buf pos) = false := by
          cases h : isspace (TokenReader.charAt buf pos) with
          | false => rfl
          | true => exact absurd ⟨hlt, h⟩ hc
        rw [drop_take_cons buf L pos hL hlt, List.dropWhile_cons, hs]
        rfl
      · rw [drop_take_nil buf L pos (by omega)]
        rfl

theorem digitLoop_spec (buf : List Char) (L : Nat) (hL : L ≤ buf.length)
    (hend : isdigit (TokenReader.charAt buf L) = false) :
    ∀ (fuel : Nat) (number : Int) (p : Nat), p ≤ L →
      (((buf.take L).drop p).takeWhile isdigit).length < fuel →
      TokenReader.digitLoop buf fuel number (TokenReader.charAt buf p) (p + 1)
        = (digitsValue number (((buf.take L).drop p).takeWhile isdigit),
            p + (((buf.take L).drop p).takeWhile isdigit).length + 1) := by
  intro fuel
  induction fuel with
  | zero => intro number p _ hf; omega
  | succ fuel ih =>
    intro number p hp hf
    by_cases hlt : p < L
    · rw [drop_take_cons buf L p hL hlt] at hf ⊢
      cases hd : isdigit (TokenReader.charAt buf p) with
      | true =>
        simp only [List.takeWhile_cons, hd, if_true, List.length_cons] at hf ⊢
        simp only [TokenReader.digitLoop, hd, if_true]
        rw [ih _ (p + 1) (by omega) (by omega)]
        simp only [digitsValue, Prod.mk.injEq, true_and]
        omega
      | false =>
        simp only [List.takeWhile_cons, hd, Bool.false_eq_true, if_false, List.length_nil,
          TokenReader.digitLoop, digitsValue, Nat.add_zero]
    · have : p = L := by omega
      subst this
      rw [drop_take_nil buf p p (le_refl _)]
      simp only [TokenReader.digitLoop, hend, Bool.false_eq_true, if_false, List.takeWhile_nil,
        digitsValue, List.length_nil, Nat.add_zero]

theorem drop_takeWhile_length (p : Char → Bool) (l : List Char) :
    l.drop (l.takeWhile p).length = l.dropWhile p := by
  induction l with
  | nil => rfl
  | cons x l ih =>
    cases hx : p x with
    | true => simp [List.takeWhile_cons, List.dropWhile_cons, hx, ih]
    | false => simp [List.takeWhile_cons, List.dropWhile_cons, hx]

theorem length_takeWhile_le (p : Char → Bool) (l : List Char) :
    (l.takeWhile p).length ≤ l.length := by
  induction l with
  | nil => simp
  | cons x l ih =>
    cases hx : p x with
    | true => simp [List.takeWhile_cons, hx, ih]
    | false => simp [List.takeWhile_cons, hx]

/-- On a reader that holds a line, `scan` reads the token that `lexList` reads from the
characters left; it prints only for an `ERROR` token; and after a value or an operator
the reader still holds the line, with the characters that `lexList` leaves. -/
theorem scan_lexList (tr : TokenReader) (h : tr.Holds) :
    (TokenReader.scan tr).1 = (lexList tr.rest).1 ∧
    (TokenReader.scan tr).2.2.map Printed.kind
      = (if (TokenReader.scan tr).1.type = TokenType.ERROR
          then [Printed.unrecognizedSymbol []] else []) ∧
    (((TokenReader.scan tr).1.type = TokenType.VALUE ∨
        (TokenReader.scan tr).1.type = TokenType.OPERATOR) →
      (TokenReader.scan tr).2.1.Holds ∧
      (TokenReader.scan tr).2.1.rest = (lexList tr.rest).2) := by
  obtain ⟨hneed, hpos, hlen, hend⟩ := h
  obtain ⟨s1, s2, s3⟩ := skipSpaces_spec tr.inputLine tr.length hlen
    (tr.length - tr.pos) tr.pos hpos (le_refl _)
  generalize hp0 : TokenReader.skipSpaces tr.inputLine tr.length (tr.length - tr.pos) tr.pos
    = p0 at s1 s2 s3
  have hrest : tr.rest.dropWhile isspace = (tr.inputLine.take tr.length).drop p0 := by
    rw [s3]; rfl
  by_cases hge : p0 ≥ tr.length
  · have hnil : tr.rest.dropWhile isspace = [] := by
      rw [hrest]; exact drop_take_nil _ _ _ hge
    simp only [TokenReader.scan, hp0, hge, if_true, lexList, hnil]
    refine ⟨trivial, by simp [Token.ofType], ?_⟩
    intro hv
    rcases hv with hv | hv <;> cases hv
  · have hlt : p0 < tr.length := by omega
    have hcons : tr.rest.dropWhile isspace
        = TokenReader.charAt tr.inputLine p0 :: (tr.inputLine.take tr.length).drop (p0 + 1) := by
      rw [hrest]; exact drop_take_cons _ _ _ hlen hlt
    generalize hch : TokenReader.charAt tr.inputLine p0 = ch at hcons
    simp only [TokenReader.scan, hp0, hge, if_false, lexList, hcons, hch]
    by_cases hq : ch = 'q' ∨ ch = 'Q'
    · simp only [hq, if_true]
      refine ⟨trivial, by simp [Token.ofType], ?_⟩
      intro hv
      rcases hv with hv | hv <;> cases hv
    simp only [hq, if_false]
    by_cases hh : ch = '?'
    · simp only [hh, if_true]
      refine ⟨trivial, by simp [Token.ofType], ?_⟩
      intro hv
      rcases hv with hv | hv <;> cases hv
    simp only [hh, if_false]
    by_cases ho : ch = '+' ∨ ch = '-' ∨ ch = '*' ∨ ch = '/' ∨ ch = '(' ∨ ch = ')'
    · simp only [ho, if_true]
      refine ⟨trivial, by simp [Token.ofOp], ?_⟩
      intro _
      exact ⟨⟨hneed, by simp only; omega, hlen, hend⟩, rfl⟩
    simp only [ho, if_false]
    cases hd : isdigit ch with
    | true =>
      simp only [if_true]
      have hrun : (((tr.inputLine.take tr.length).drop (p0 + 1)).takeWhile isdigit).length
          ≤ tr.length - (p0 + 1) := by
        refine le_trans (length_takeWhile_le _ _) ?_
        rw [List.length_drop, List.length_take]
        omega
      rw [digitLoop_spec tr.inputLine tr.length hlen hend (tr.length + 1) _ (p0 + 1)
        (by omega) (by omega)]
      refine ⟨rfl, by simp [Token.ofValue], ?_⟩
      intro _
      refine ⟨⟨hneed, by simp only; omega, hlen, hend⟩, ?_⟩
      simp only [TokenReader.rest, Nat.add_sub_cancel]
      rw [← drop_takeWhile_length, List.drop_drop]
    | false =>
      simp only [Bool.false_eq_true, if_false]
      refine ⟨trivial, by simp [Token.ofType, Printed.kind], ?_⟩
      intro hv
      rcases hv with hv | hv <;> cases hv

theorem finish_out {σ1 σ2 : Type} (order : ArgOrder) (st : Stacks) (s1 : σ1) (s2 : σ2) :
    (finish order st s1).out = (finish order st s2).out ∧
    (finish order st s1).status = (finish order st s2).status := by
  unfold finish
  generalize drain order st = fl
  cases fl with
  | next st1 =>
    simp only []
    generalize Stack.top st1.valueStack = t
    cases t with
    | ok r => by_cases h : (Stack.pop st1.valueStack).isEmpty = true <;> simp [h]
    | exception => exact ⟨rfl, rfl⟩
    | undefined => exact ⟨rfl, rfl⟩
  | ret out => exact ⟨rfl, rfl⟩
  | undefined => exact ⟨rfl, rfl⟩

/-- Two token sources that deliver the same tokens, as long as values and operators
come, make `processExpression` print the same kinds of lines and end the same way. -/
theorem tokenLoop_sim {σ1 σ2 : Type} (debugMode : Bool) (order : ArgOrder)
    (nx1 : σ1 → Token × σ1 × List Printed) (nx2 : σ2 → Token × σ2 × List Printed)
    (R : σ1 → σ2 → Prop)
    (hR : ∀ s1 s2, R s1 s2 →
      (nx1 s1).1 = (nx2 s2).1 ∧
      (nx1 s1).2.2.map Printed.kind = (nx2 s2).2.2.map Printed.kind ∧
      (((nx1 s1).1.type = TokenType.VALUE ∨ (nx1 s1).1.type = TokenType.OPERATOR) →
        R (nx1 s1).2.1 (nx2 s2).2.1)) :
    ∀ (fuel : Nat) (tok : Token) (s1 : σ1) (s2 : σ2) (st : Stacks),
      ((tok.type = TokenType.VALUE ∨ tok.type = TokenType.OPERATOR) → R s1 s2) →
      (tokenLoop debugMode order nx1 fuel tok s1 st).out.map Printed.kind
        = (tokenLoop debugMode order nx2 fuel tok s2 st).out.map Printed.kind ∧
      (tokenLoop debugMode order nx1 fuel tok s1 st).status
        = (tokenLoop debugMode order nx2 fuel tok s2 st).status := by
  intro fuel
  induction fuel with
  | zero => intro tok s1 s2 st _; exact ⟨rfl, rfl⟩
  | succ fuel ih =>
    intro tok s1 s2 st hrel
    by_cases he : tok.type = TokenType.EOLN
    · rw [tokenLoop_eoln _ _ _ _ _ _ _ he, tokenLoop_eoln _ _ _ _ _ _ _ he]
      obtain ⟨f1, f2⟩ := finish_out order st s1 s2
      exact ⟨by rw [f1], f2⟩
    · rw [tokenLoop_succ _ _ _ _ _ _ _ he, tokenLoop_succ _ _ _ _ _ _ _ he]
      cases hp : (processToken false order tok st).2 with
      | next st1 =>
        have hvo : tok.type = TokenType.VALUE ∨ tok.type = TokenType.OPERATOR := by
          by_contra hcon
          rw [not_or] at hcon
          rw [processToken_other _ _ _ hcon.1 hcon.2] at hp
          cases hp
        obtain ⟨r1, r2, r3⟩ := hR s1 s2 (hrel hvo)
        obtain ⟨i1, i2⟩ := ih (nx1 s1).1 (nx1 s1).2.1 (nx2 s2).2.1 st1 r3
        simp only [List.map_append]
        rw [r2, ← r1, i1]
        exact ⟨rfl, i2⟩
      | ret out => exact ⟨rfl, rfl⟩
      | undefined => exact ⟨rfl, rfl⟩

theorem fgetsChars_line (line rest : List Char) (hnl : '\n' ∉ line) :
    ∀ n, line.length < n → fgetsChars n (line ++ '\n' :: rest) = (line ++ ['\n'], rest) := by
  induction line with
  | nil =>
    intro n hn
    cases n with
    | zero => simp at hn
    | succ n => simp [fgetsChars]
  | cons c line ih =>
    intro n hn
    cases n with
    | zero => simp at hn
    | succ n =>
      have hc : c ≠ '\n' := fun e => hnl (by simp [e])
      have hl : '\n' ∉ line := fun hm => hnl (List.mem_cons_of_mem _ hm)
      simp only [List.length_cons, Nat.add_lt_add_iff_right] at hn
      have e := ih hl n hn
      simp only [List.cons_append, fgetsChars, hc, if_false]
      rw [show line.append ('\n' :: rest) = line ++ '\n' :: rest from rfl, e]

/-- A line that fits the buffer is read whole, newline included. -/
theorem fgets_line (line rest : List Char) (hnl : '\n' ∉ line)
    (hfit : line.length + 1 < MAX_LINE) :
    fgets MAX_LINE (line ++ '\n' :: rest) = some (line ++ ['\n'], rest) := by
  have h := fgetsChars_line line rest hnl (MAX_LINE - 1) (by simp only [MAX_LINE] at hfit ⊢; omega)
  cases line with
  | nil => exact congrArg some h
  | cons c line => exact congrArg some h

theorem take_strlen (buf : List Char) :
    buf.take (strlen buf) = buf.takeWhile (fun c => c != NUL) := by
  induction buf with
  | nil => rfl
  | cons x b ih =>
    cases hx : (x != NUL) with
    | true =>
      simp only [strlen, List.takeWhile_cons, hx, if_true, List.length_cons, List.take_succ_cons]
      simp only [strlen] at ih
      rw [ih]
    | false => simp [strlen, List.takeWhile_cons, hx]

theorem isdigit_charAt_strlen (buf : List Char) :
    isdigit (TokenReader.charAt buf (strlen buf)) = false := by
  induction buf with
  | nil => decide
  | cons x b ih =>
    cases hx : (x != NUL) with
    | true =>
      simp only [strlen, List.takeWhile_cons, hx, if_true, List.length_cons,
        TokenReader.charAt, List.getD_cons_succ]
      exact ih
    | false =>
      have hx' : x = NUL := by simpa using hx
      subst hx'
      simp only [strlen, List.takeWhile_cons, hx, Bool.false_eq_true, if_false,
        List.length_nil, TokenReader.charAt, List.getD_cons_zero]
      decide

/-- A reader that has just stored `buf` holds it, and nothing is consumed yet. -/
theorem holds_fresh (buf : List Char) :
    (⟨buf, false, 0, strlen buf⟩ : TokenReader).Holds ∧
    (⟨buf, false, 0, strlen buf⟩ : TokenReader).rest = buf.takeWhile (fun c => c != NUL) := by
  refine ⟨⟨rfl, Nat.zero_le _, length_takeWhile_le _ _, isdigit_charAt_strlen buf⟩, ?_⟩
  simp only [TokenReader.rest, List.drop_zero, take_strlen]

theorem isspace_ne_NUL {c : Char} (h : isspace c = true) : (c != NUL) = true := by
  cases hc : (c != NUL) with
  | true => rfl
  | false =>
    have e : c = NUL := by simpa using hc
    subst e
    revert h
    decide

theorem startsWithDigit_takeWhile (post : List Char)
    (h : startsWithDigit ((post ++ ['\n']).takeWhile (fun c => c != NUL)) = true) :
    startsWithDigit post = true := by
  cases post with
  | nil =>
    revert h
    decide
  | cons x post =>
    simp only [List.cons_append, List.takeWhile_cons] at h
    by_cases hx : (x != NUL) = true
    · simpa only [hx, if_true, startsWithDigit] using h
    · simp only [hx, if_false, startsWithDigit] at h
      cases h

/-- The characters left of the two lines, as the reader sees them, are `SpacedApart`. -/
theorem spacedApart_lines (pre ws post : List Char) (hws : ∀ c ∈ ws, isspace c = true)
    (hb : ¬ (endsWithDigit pre = true ∧ startsWithDigit post = true)) :
    SpacedApart ((pre ++ ws ++ post ++ ['\n']).takeWhile (fun c => c != NUL))
      ((pre ++ post ++ ['\n']).takeWhile (fun c => c != NUL)) := by
  have e1 : pre ++ ws ++ post ++ ['\n'] = pre ++ (ws ++ (post ++ ['\n'])) := by simp
  have e2 : pre ++ post ++ ['\n'] = pre ++ (post ++ ['\n']) := by simp
  rw [e1, e2, List.takeWhile_append, @List.takeWhile_append Char _ pre _]
  by_cases hpre : (pre.takeWhile (fun c => c != NUL)).length = pre.length
  · simp only [hpre, if_true]
    rw [List.takeWhile_append_of_pos (fun c hc => isspace_ne_NUL (hws c hc))]
    refine ⟨pre, ws, _, by simp, rfl, hws, ?_⟩
    intro hcon
    exact hb ⟨hcon.1, startsWithDigit_takeWhile post hcon.2⟩
  · simp only [hpre, if_false]
    exact SpacedApart.refl _

/-- The relation kept between the two readers. -/
theorem next_spacedApart (s1 s2 : TokenReader × List Char)
    (h : s1.1.Holds ∧ s2.1.Holds ∧ SpacedApart s1.1.rest s2.1.rest) :
    (TokenReader.next s1).1 = (TokenReader.next s2).1 ∧
    (TokenReader.next s1).2.2.map Printed.kind = (TokenReader.next s2).2.2.map Printed.kind ∧
    (((TokenReader.next s1).1.type = TokenType.VALUE ∨
        (TokenReader.next s1).1.type = TokenType.OPERATOR) →
      (TokenReader.next s1).2.1.1.Holds ∧ (TokenReader.next s2).2.1.1.Holds ∧
        SpacedApart (TokenReader.next s1).2.1.1.rest (TokenReader.next s2).2.1.1.rest) := by
  obtain ⟨h1, h2, hs⟩ := h
  have n1 : TokenReader.next s1 = ((TokenReader.scan s1.1).1,
      ((TokenReader.scan s1.1).2.1, s1.2), (TokenReader.scan s1.1).2.2) := by
    simp [TokenReader.next, TokenReader.getNextToken, TokenReader.refill, h1.1]
  have n2 : TokenReader.next s2 = ((TokenReader.scan s2.1).1,
      ((TokenReader.scan s2.1).2.1, s2.2), (TokenReader.scan s2.1).2.2) := by
    simp [TokenReader.next, TokenReader.getNextToken, TokenReader.refill, h2.1]
  rw [n1, n2]
  obtain ⟨a1, a2, a3⟩ := scan_lexList s1.1 h1
  obtain ⟨b1, b2, b3⟩ := scan_lexList s2.1 h2
  obtain ⟨c1, c2⟩ := lexList_spacedApart hs
  have htok : (TokenReader.scan s1.1).1 = (TokenReader.scan s2.1).1 := by
    rw [a1, b1, c1]
  refine ⟨htok, ?_, ?_⟩
  · simp only
    rw [a2, b2, htok]
  · intro hvo
    simp only at hvo ⊢
    obtain ⟨a4, a5⟩ := a3 hvo
    obtain ⟨b4, b5⟩ := b3 (htok ▸ hvo)
    refine ⟨a4, b4, ?_⟩
    rw [a5, b5]
    exact c2 (a1 ▸ hvo)

theorem getNextToken_new (buf rest stdin : List Char)
    (h : fgets MAX_LINE stdin = some (buf, rest)) :
    TokenReader.getNextToken TokenReader.new stdin
      = TokenReader.next (⟨buf, false, 0, strlen buf⟩, rest) := by
  simp [TokenReader.next, TokenReader.getNextToken, TokenReader.refill, TokenReader.new, h]

/-- The dispatch of `main` on the first token, and the evaluation that follows, emit
the same for two readers whose lines are `SpacedApart`. -/
theorem dispatch_spacedApart (debugMode : Bool) (order : ArgOrder) (fuel : Nat)
    (s1 s2 : TokenReader × List Char)
    (h : s1.1.Holds ∧ s2.1.Holds ∧ SpacedApart s1.1.rest s2.1.rest) :
    (match (TokenReader.next s1).1.getType with
      | TokenType.QUIT => (⟨[Printed.prompt] ++ (TokenReader.next s1).2.2 ++ [Printed.quitting],
          (TokenReader.next s1).2.1.2, some 1, Status.returned⟩ : Iteration)
      | TokenType.HELP => ⟨[Printed.prompt] ++ (TokenReader.next s1).2.2 ++ [Printed.commands],
          (TokenReader.next s1).2.1.2, none, Status.returned⟩
      | TokenType.ERROR => ⟨[Printed.prompt] ++ (TokenReader.next s1).2.2 ++ [Printed.invalidInput],
          (TokenReader.next s1).2.1.2, none, Status.returned⟩
      | TokenType.EOLN => ⟨[Printed.prompt] ++ (TokenReader.next s1).2.2 ++ [Printed.blankLine],
          (TokenReader.next s1).2.1.2, none, Status.returned⟩
      | _ =>
        ⟨[Printed.prompt] ++ (TokenReader.next s1).2.2 ++
            (processExpression debugMode order TokenReader.next fuel (TokenReader.next s1).1
              ((TokenReader.next s1).2.1.1, (TokenReader.next s1).2.1.2)).out,
          (processExpression debugMode order TokenReader.next fuel (TokenReader.next s1).1
              ((TokenReader.next s1).2.1.1, (TokenReader.next s1).2.1.2)).tr.2, none,
          (processExpression debugMode order TokenReader.next fuel (TokenReader.next s1).1
              ((TokenReader.next s1).2.1.1, (TokenReader.next s1).2.1.2)).status⟩).emitted
    = (match (TokenReader.next s2).1.getType with
      | TokenType.QUIT => (⟨[Printed.prompt] ++ (TokenReader.next s2).2.2 ++ [Printed.quitting],
          (TokenReader.next s2).2.1.2, some 1, Status.returned⟩ : Iteration)
      | TokenType.HELP => ⟨[Printed.prompt] ++ (TokenReader.next s2).2.2 ++ [Printed.commands],
          (TokenReader.next s2).2.1.2, none, Status.returned⟩
      | TokenType.ERROR => ⟨[Printed.prompt] ++ (TokenReader.next s2).2.2 ++ [Printed.invalidInput],
          (TokenReader.next s2).2.1.2, none, Status.returned⟩
      | TokenType.EOLN => ⟨[Printed.prompt] ++ (TokenReader.next s2).2.2 ++ [Printed.blankLine],
          (TokenReader.next s2).2.1.2, none, Status.returned⟩
      | _ =>
        ⟨[Printed.prompt] ++ (TokenReader.next s2).2.2 ++
            (processExpression debugMode order TokenReader.next fuel (TokenReader.next s2).1
              ((TokenReader.next s2).2.1.1, (TokenReader.next s2).2.1.2)).out,
          (processExpression debugMode order TokenReader.next fuel (TokenReader.next s2).1
              ((TokenReader.next s2).2.1.1, (TokenReader.next s2).2.1.2)).tr.2, none,
          (processExpression debugMode order TokenReader.next fuel (TokenReader.next s2).1
              ((TokenReader.next s2).2.1.1, (TokenReader.next s2).2.1.2)).status⟩).emitted := by
  obtain ⟨k1, k2, k3⟩ := next_spacedApart s1 s2 h
  have sim := tokenLoop_sim debugMode order TokenReader.next TokenReader.next
    (fun a b => a.1.Holds ∧ b.1.Holds ∧ SpacedApart a.1.rest b.1.rest)
    next_spacedApart fuel (TokenReader.next s1).1
    ((TokenReader.next s1).2.1.1, (TokenReader.next s1).2.1.2)
    ((TokenReader.next s2).2.1.1, (TokenReader.next s2).2.1.2) ⟨[], []⟩ k3
  generalize TokenReader.next s1 = n1 at k1 k2 k3 sim ⊢
  generalize TokenReader.next s2 = n2 at k1 k2 k3 sim ⊢
  obtain ⟨t1, r1, p1⟩ := n1
  obtain ⟨t2, r2, p2⟩ := n2
  simp only at k1 k2 sim ⊢
  subst k1
  simp only [processExpression]
  cases ht : t1.getType <;>
    simp [Iteration.emitted, k2, sim.1, sim.2, Printed.kind]

/-- C10 (as stated, refuted). Removing the white space between the two adjacent tokens
`1` and `2` of the line `1 2` merges them into the single number `12`: the first line
emits `Error: Not enough operators.`, the second `Result: 12`. -/
theorem whitespace_counterexample :
    (mainIteration false ArgOrder.rightToLeft 300 ['1', ' ', '2', '\n']).out
      = [Printed.prompt, Printed.notEnoughOperators] ∧
    (mainIteration false ArgOrder.rightToLeft 300 ['1', '2', '\n']).out
      = [Printed.prompt, Printed.result 12] ∧
    (mainIteration false ArgOrder.rightToLeft 300 ['1', ' ', '2', '\n']).emitted
      ≠ (mainIteration false ArgOrder.rightToLeft 300 ['1', '2', '\n']).emitted := by
  decide

/-- C10 (amended). Take an input line that fits the buffer, cut it anywhere except
between two digits, and insert or remove white space `ws` (any characters for which
`isspace` holds, other than the newline) at the cut. The pass of the driver over the
line then emits the same either way: the same prompt, debug trace, `Result:` line or
error message (the same kind of message for an unrecognized symbol, whose lexeme may
change), the same exit status and the same way of ending. -/
theorem whitespace_between_tokens (debugMode : Bool) (order : ArgOrder) (fuel : Nat)
    (pre ws post rest : List Char)
    (hws : ∀ c ∈ ws, isspace c = true ∧ c ≠ '\n')
    (hnl : '\n' ∉ pre ++ post)
    (hfit : (pre ++ ws ++ post).length + 1 < MAX_LINE)
    (hcut : ¬ (endsWithDigit pre = true ∧ startsWithDigit post = true)) :
    (mainIteration debugMode order fuel (pre ++ ws ++ post ++ '\n' :: rest)).emitted
      = (mainIteration debugMode order fuel (pre ++ post ++ '\n' :: rest)).emitted := by
  have hnl1 : '\n' ∉ pre ++ ws ++ post := by
    intro hm
    simp only [List.mem_append] at hm hnl
    rcases hm with (hm | hm) | hm
    · exact hnl (Or.inl hm)
    · exact (hws _ hm).2 rfl
    · exact hnl (Or.inr hm)
  have hfit2 : (pre ++ post).length + 1 < MAX_LINE := by
    simp only [List.length_append] at hfit ⊢
    omega
  have g1 := getNextToken_new _ _ _ (fgets_line (pre ++ ws ++ post) rest hnl1 hfit)
  have g2 := getNextToken_new _ _ _ (fgets_line (pre ++ post) rest hnl hfit2)
  obtain ⟨w1, w2⟩ := holds_fresh (pre ++ ws ++ post ++ ['\n'])
  obtain ⟨v1, v2⟩ := holds_fresh (pre ++ post ++ ['\n'])
  have hs := spacedApart_lines pre ws post (fun c hc => (hws c hc).1) hcut
  rw [← w2, ← v2] at hs
  have key := dispatch_spacedApart debugMode order fuel
    (⟨pre ++ ws ++ post ++ ['\n'], false, 0, strlen (pre ++ ws ++ post ++ ['\n'])⟩, rest)
    (⟨pre ++ post ++ ['\n'], false, 0, strlen (pre ++ post ++ ['\n'])⟩, rest) ⟨w1, v1, hs⟩
  rw [← g1, ← g2] at key
  exact key

/-- C10 (amended), on the line `1+2` with a space inserted before the `2`. -/
theorem whitespace_between_tokens_witness :
    (mainIteration false ArgOrder.rightToLeft 300 (['1', '+'] ++ [' '] ++ ['2'] ++ '\n' :: [])).emitted
      = (mainIteration false ArgOrder.rightToLeft 300 (['1', '+'] ++ ['2'] ++ '\n' :: [])).emitted ∧
    (mainIteration false ArgOrder.rightToLeft 300 ['1', '+', '2', '\n']).out
      = [Printed.prompt, Printed.result 3] :=
  ⟨whitespace_between_tokens false ArgOrder.rightToLeft 300 ['1', '+'] [' '] ['2'] []
      (by decide) (by decide) (by decide) (by decide),
    by decide⟩

/-! ## Agreement with the value of a well-formed expression -/

theorem feed_cons_next {order : ArgOrder} {t : Token} {st st1 : Stacks} (ts : List Token)
    (he : t.type ≠ TokenType.EOLN) (h : (processToken false order t st).2 = Flow.next st1) :
    feed order (t :: ts) st = feed order ts st1 := by
  simp only [feed, Token.equalsType, he, decide_False, Bool.false_eq_true, if_false, h]

/-- A reduction loop whose guard holds for `*` and `/` reduces a held term to its value
and goes on from there. -/
theorem reduceLoop_termOn {order : ArgOrder} {cond : Char → Bool} {v : Int} {st st1 : Stacks}
    (h : TermOn order v st st1) (hm : cond '*' = true) (hd : cond '/' = true)
    (n m : Nat) (hn : st1.operatorStack.length ≤ n) (hmm : st.operatorStack.length ≤ m) :
    reduceLoop order cond n st1
      = reduceLoop order cond m ⟨v :: st.valueStack, st.operatorStack⟩ := by
  rcases h with h | ⟨a, b, op, hop, h, hv⟩
  · subst h
    exact reduceLoop_fuel n m _ hn hmm
  · subst h
    have hc : cond op = true := by rcases hop with e | e <;> rw [e] <;> assumption
    cases n with
    | zero => simp at hn
    | succ n =>
      rw [reduceLoop_step order cond n _ op _ hc, tryPopEval_cons, hv]
      simp only [List.length_cons, Nat.add_le_add_iff_right] at hn
      exact reduceLoop_fuel n m _ hn hmm

/-- A reduction loop whose guard holds for every binary operator reduces a held
expression to its value and goes on from there. -/
theorem reduceLoop_exprOn {order : ArgOrder} {cond : Char → Bool} {v : Int} {st st1 : Stacks}
    (h : ExprOn order v st st1) (hp : cond '+' = true) (hs : cond '-' = true)
    (hm : cond '*' = true) (hd : cond '/' = true)
    (n m : Nat) (hn : st1.operatorStack.length ≤ n) (hmm : st.operatorStack.length ≤ m) :
    reduceLoop order cond n st1
      = reduceLoop order cond m ⟨v :: st.valueStack, st.operatorStack⟩ := by
  rcases h with h | ⟨a, op, w, hop, h, hv⟩
  · exact reduceLoop_termOn h hm hd n m hn hmm
  · have hc : cond op = true := by rcases hop with e | e <;> rw [e] <;> assumption
    rw [reduceLoop_termOn h hm hd n (m + 1) hn (by simpa using hmm)]
    simp only
    rw [reduceLoop_step order cond m _ op _ hc, tryPopEval_cons, hv]

theorem reduceLoop_halt (order : ArgOrder) (cond : Char → Bool) (n : Nat) (vs : List Int)
    (os : List Char) (h : ∀ t, os.head? = some t → cond t = false) :
    reduceLoop order cond n ⟨vs, os⟩ = Flow.next ⟨vs, os⟩ := by
  cases os with
  | nil => exact reduceLoop_nil _ _ _ _
  | cons t os => exact reduceLoop_stop _ _ _ _ _ _ (h t rfl)

theorem feed_value (order : ArgOrder) (n : Int) (ts : List Token) (st : Stacks) :
    feed order (tVal n :: ts) st = feed order ts ⟨n :: st.valueStack, st.operatorStack⟩ :=
  feed_cons_next ts (fun h => by cases h) (processToken_value order (tVal n) st rfl)

theorem feed_open (order : ArgOrder) (ts : List Token) (st : Stacks) :
    feed order (tOp '(' :: ts) st = feed order ts ⟨st.valueStack, '(' :: st.operatorStack⟩ := by
  refine feed_cons_next ts (by decide) ?_
  rw [processToken_operator order (tOp '(') st rfl]
  exact processOperator_open order st

theorem feed_close {order : ArgOrder} {v : Int} {vs : List Int} {os : List Char}
    {st1 : Stacks} (ts : List Token) (h : ExprOn order v ⟨vs, '(' :: os⟩ st1) :
    feed order (tOp ')' :: ts) st1 = feed order ts ⟨v :: vs, os⟩ := by
  refine feed_cons_next ts (by decide) ?_
  rw [processToken_operator order (tOp ')') st1 rfl]
  have hop : (tOp ')').op = ')' := rfl
  rw [hop, processOperator_close]
  have hu : unwindToParen order st1 = Flow.next ⟨v :: vs, '(' :: os⟩ := by
    unfold unwindToParen
    rw [reduceLoop_exprOn h (by decide) (by decide) (by decide) (by decide) _
      (os.length + 1) (le_refl _) (by simp)]
    exact reduceLoop_stop _ _ _ _ _ _ (by decide)
  rw [hu]
  rfl

theorem feed_muldiv {order : ArgOrder} {a : Int} {st st1 : Stacks} (op : Char)
    (ts : List Token) (hop : op = '*' ∨ op = '/') (h : TermOn order a st st1)
    (hs : StartsOn Level.term st.operatorStack) :
    feed order (tOp op :: ts) st1
      = feed order ts ⟨a :: st.valueStack, op :: st.operatorStack⟩ := by
  refine feed_cons_next ts (fun h => by cases h) ?_
  rw [processToken_operator order (tOp op) st1 rfl]
  have hop' : (tOp op).op = op := rfl
  rw [hop', processOperator_muldiv _ _ _ hop]
  have hl : loop2 order st1 = Flow.next ⟨a :: st.valueStack, st.operatorStack⟩ := by
    unfold loop2
    rw [reduceLoop_termOn h (by decide) (by decide) _ st.operatorStack.length
      (le_refl _) (le_refl _)]
    refine reduceLoop_halt _ _ _ _ _ ?_
    intro t ht
    obtain ⟨h1, h2⟩ := hs t ht
    simp [h1, h2]
  rw [hl]

theorem feed_addsub {order : ArgOrder} {a : Int} {st st1 : Stacks} (op : Char)
    (ts : List Token) (hop : op = '+' ∨ op = '-') (h : ExprOn order a st st1)
    (hs : StartsOn Level.expr st.operatorStack) :
    feed order (tOp op :: ts) st1
      = feed order ts ⟨a :: st.valueStack, op :: st.operatorStack⟩ := by
  refine feed_cons_next ts (fun h => by cases h) ?_
  rw [processToken_operator order (tOp op) st1 rfl]
  have hop' : (tOp op).op = op := rfl
  rw [hop', processOperator_addsub _ _ _ hop]
  have hl : loop1 order st1 = Flow.next ⟨a :: st.valueStack, st.operatorStack⟩ := by
    unfold loop1
    rw [reduceLoop_exprOn h (by decide) (by decide) (by decide) (by decide) _
      st.operatorStack.length (le_refl _) (le_refl _)]
    refine reduceLoop_halt _ _ _ _ _ ?_
    intro t ht
    obtain ⟨h1, h2, h3, h4⟩ := hs t ht
    simp [h1, h2, h3, h4]
  rw [hl]

theorem startsOn_term_of_expr {os : List Char} (h : StartsOn Level.expr os) :
    StartsOn Level.term os :=
  fun t ht => ⟨(h t ht).2.2.1, (h t ht).2.2.2⟩

/-- The tokens of a well-formed expression whose value is defined are all fed, and
leave the expression held on top of the stacks they started on. -/
theorem feed_wellFormed (order : ArgOrder) :
    ∀ {l : Level} (e : WellFormed l) (st : Stacks) (v : Int),
      StartsOn l st.operatorStack → e.valueWith order = some v →
      ∃ st1, feed order e.tokens st = some st1 ∧ HeldOn order l v st st1 := by
  intro l e
  induction e with
  | num n =>
    intro st v _ hv
    simp only [WellFormed.valueWith, Option.some.injEq] at hv
    subst hv
    refine ⟨⟨(n : Int) :: st.valueStack, st.operatorStack⟩, ?_, rfl⟩
    rw [WellFormed.tokens, feed_value]
    rfl
  | paren e ih =>
    intro st v _ hv
    simp only [WellFormed.valueWith] at hv
    obtain ⟨st1, h1, h2⟩ := ih ⟨st.valueStack, '(' :: st.operatorStack⟩ v
      (by intro t ht; simp only [List.head?_cons, Option.some.injEq] at ht; subst ht; decide) hv
    refine ⟨⟨v :: st.valueStack, st.operatorStack⟩, ?_, rfl⟩
    show feed order (tOp '(' :: (e.tokens ++ [tOp ')'])) st = _
    rw [feed_open, feed_append, h1]
    show feed order [tOp ')'] st1 = _
    rw [feed_close [] h2]
    rfl
  | ofFactor f ih =>
    intro st v _ hv
    simp only [WellFormed.valueWith] at hv
    obtain ⟨st1, h1, h2⟩ := ih st v trivial hv
    exact ⟨st1, h1, Or.inl h2⟩
  | mul t f iht ihf =>
    intro st v hs hv
    simp only [WellFormed.valueWith] at hv
    cases ha : t.valueWith order with
    | none => simp [ha] at hv
    | some a =>
      cases hb : f.valueWith order with
      | none => simp [ha, hb] at hv
      | some b =>
        cases hr : applyOp order '*' a b with
        | ok r =>
          simp only [ha, hb, hr, Option.some.injEq] at hv
          subst hv
          obtain ⟨st1, h1, h2⟩ := iht st a hs ha
          obtain ⟨st2, h3, h4⟩ := ihf ⟨a :: st.valueStack, '*' :: st.operatorStack⟩ b trivial hb
          refine ⟨st2, ?_, ?_⟩
          · rw [WellFormed.tokens, feed_append, h1]
            show feed order (tOp '*' :: f.tokens) st1 = _
            rw [feed_muldiv '*' _ (Or.inl rfl) h2 hs]
            exact h3
          · exact Or.inr ⟨a, b, '*', Or.inl rfl, h4, hr⟩
        | exception => simp [ha, hb, hr] at hv
        | undefined => simp [ha, hb, hr] at hv
  | div t f iht ihf =>
    intro st v hs hv
    simp only [WellFormed.valueWith] at hv
    cases ha : t.valueWith order with
    | none => simp [ha] at hv
    | some a =>
      cases hb : f.valueWith order with
      | none => simp [ha, hb] at hv
      | some b =>
        cases hr : applyOp order '/' a b with
        | ok r =>
          simp only [ha, hb, hr, Option.some.injEq] at hv
          subst hv
          obtain ⟨st1, h1, h2⟩ := iht st a hs ha
          obtain ⟨st2, h3, h4⟩ := ihf ⟨a :: st.valueStack, '/' :: st.operatorStack⟩ b trivial hb
          refine ⟨st2, ?_, ?_⟩
          · rw [WellFormed.tokens, feed_append, h1]
            show feed order (tOp '/' :: f.tokens) st1 = _
            rw [feed_muldiv '/' _ (Or.inr rfl) h2 hs]
            exact h3
          · exact Or.inr ⟨a, b, '/', Or.inr rfl, h4, hr⟩
        | exception => simp [ha, hb, hr] at hv
        | undefined => simp [ha, hb, hr] at hv
  | ofTerm t ih =>
    intro st v hs hv
    simp only [WellFormed.valueWith] at hv
    obtain ⟨st1, h1, h2⟩ := ih st v (startsOn_term_of_expr hs) hv
    exact ⟨st1, h1, Or.inl h2⟩
  | add e t ihe iht =>
    intro st v hs hv
    simp only [WellFormed.valueWith] at hv
    cases ha : e.valueWith order with
    | none => simp [ha] at hv
    | some a =>
      cases hb : t.valueWith order with
      | none => simp [ha, hb] at hv
      | some b =>
        cases hr : applyOp order '+' a b with
        | ok r =>
          simp only [ha, hb, hr, Option.some.injEq] at hv
          subst hv
          obtain ⟨st1, h1, h2⟩ := ihe st a hs ha
          obtain ⟨st2, h3, h4⟩ := iht ⟨a :: st.valueStack, '+' :: st.operatorStack⟩ b
            (by intro t ht; simp only [List.head?_cons, Option.some.injEq] at ht; subst ht; decide)
            hb
          refine ⟨st2, ?_, ?_⟩
          · rw [WellFormed.tokens, feed_append, h1]
            show feed order (tOp '+' :: t.tokens) st1 = _
            rw [feed_addsub '+' _ (Or.inl rfl) h2 hs]
            exact h3
          · exact Or.inr ⟨a, '+', b, Or.inl rfl, h4, hr⟩
        | exception => simp [ha, hb, hr] at hv
        | undefined => simp [ha, hb, hr] at hv
  | sub e t ihe iht =>
    intro st v hs hv
    simp only [WellFormed.valueWith] at hv
    cases ha : e.valueWith order with
    | none => simp [ha] at hv
    | some a =>
      cases hb : t.valueWith order with
      | none => simp [ha, hb] at hv
      | some b =>
        cases hr : applyOp order '-' a b with
        | ok r =>
          simp only [ha, hb, hr, Option.some.injEq] at hv
          subst hv
          obtain ⟨st1, h1, h2⟩ := ihe st a hs ha
          obtain ⟨st2, h3, h4⟩ := iht ⟨a :: st.valueStack, '-' :: st.operatorStack⟩ b
            (by intro t ht; simp only [List.head?_cons, Option.some.injEq] at ht; subst ht; decide)
            hb
          refine ⟨st2, ?_, ?_⟩
          · rw [WellFormed.tokens, feed_append, h1]
            show feed order (tOp '-' :: t.tokens) st1 = _
            rw [feed_addsub '-' _ (Or.inr rfl) h2 hs]
            exact h3
          · exact Or.inr ⟨a, '-', b, Or.inr rfl, h4, hr⟩
        | exception => simp [ha, hb, hr] at hv
        | undefined => simp [ha, hb, hr] at hv

theorem applyOp_add_exact (a b : Int) (h : isInt (a + b) = true) :
    applyOp ArgOrder.rightToLeft '+' a b = Outcome.ok (a + b) := by
  simp [applyOp, eval, wrap_of_isInt h]

theorem applyOp_sub_exact (a b : Int) (h : isInt (a - b) = true) :
    applyOp ArgOrder.rightToLeft '-' a b = Outcome.ok (a - b) := by
  simp [applyOp, eval, wrap_of_isInt h]

theorem applyOp_mul_exact (a b : Int) (h : isInt (a * b) = true) :
    applyOp ArgOrder.rightToLeft '*' a b = Outcome.ok (a * b) := by
  simp [applyOp, eval, wrap_of_isInt h]

theorem applyOp_div_exact (a b : Int) (hb : b ≠ 0) (h : isInt (Int.tdiv a b) = true) :
    applyOp ArgOrder.rightToLeft '/' a b = Outcome.ok (Int.tdiv a b) := by
  have hmin : ¬ (a = INT_MIN ∧ b = -1) := by
    rintro ⟨ha, hb1⟩
    subst ha
    subst hb1
    revert h
    decide
  simp [applyOp, eval, hb, hmin]

/-- With right-to-left argument evaluation each reduction computes `a op b` in `int`
arithmetic, so on an expression whose integers can be taken as exact the value computed
by the reductions is the value under standard integer arithmetic. -/
theorem valueWith_rightToLeft :
    ∀ {l : Level} (e : WellFormed l) (v : Int), e.value = some v → e.exact = true →
      e.valueWith ArgOrder.rightToLeft = some v := by
  intro l e
  induction e with
  | num n => intro v hv _; exact hv
  | paren e ih => intro v hv hx; exact ih v hv hx
  | ofFactor f ih => intro v hv hx; exact ih v hv hx
  | ofTerm t ih => intro v hv hx; exact ih v hv hx
  | mul t f iht ihf =>
    intro v hv hx
    cases ha : t.value with
    | none => simp [WellFormed.value, ha] at hv
    | some a =>
      cases hb : f.value with
      | none => simp [WellFormed.value, ha, hb] at hv
      | some b =>
        simp only [WellFormed.value, ha, hb, Option.some.injEq] at hv
        simp only [WellFormed.exact, WellFormed.value, ha, hb, Bool.and_eq_true] at hx
        simp only [WellFormed.valueWith, iht a ha hx.1.1, ihf b hb hx.1.2,
          applyOp_mul_exact a b hx.2, hv]
  | div t f iht ihf =>
    intro v hv hx
    cases ha : t.value with
    | none => simp [WellFormed.value, ha] at hv
    | some a =>
      cases hb : f.value with
      | none => simp [WellFormed.value, ha, hb] at hv
      | some b =>
        by_cases hz : b = 0
        · simp [WellFormed.value, ha, hb, hz] at hv
        · simp only [WellFormed.value, ha, hb, hz, if_false, Option.some.injEq] at hv
          simp only [WellFormed.exact, WellFormed.value, ha, hb, hz, if_false,
            Bool.and_eq_true] at hx
          simp only [WellFormed.valueWith, iht a ha hx.1.1, ihf b hb hx.1.2,
            applyOp_div_exact a b hz hx.2, hv]
  | add e t ihe iht =>
    intro v hv hx
    cases ha : e.value with
    | none => simp [WellFormed.value, ha] at hv
    | some a =>
      cases hb : t.value with
      | none => simp [WellFormed.value, ha, hb] at hv
      | some b =>
        simp only [WellFormed.value, ha, hb, Option.some.injEq] at hv
        simp only [WellFormed.exact, WellFormed.value, ha, hb, Bool.and_eq_true] at hx
        simp only [WellFormed.valueWith, ihe a ha hx.1.1, iht b hb hx.1.2,
          applyOp_add_exact a b hx.2, hv]
  | sub e t ihe iht =>
    intro v hv hx
    cases ha : e.value with
    | none => simp [WellFormed.value, ha] at hv
    | some a =>
      cases hb : t.value with
      | none => simp [WellFormed.value, ha, hb] at hv
      | some b =>
        simp only [WellFormed.value, ha, hb, Option.some.injEq] at hv
        simp only [WellFormed.exact, WellFormed.value, ha, hb, Bool.and_eq_true] at hx
        simp only [WellFormed.valueWith, ihe a ha hx.1.1, iht b hb hx.1.2,
          applyOp_sub_exact a b hx.2, hv]

/-- On the tokens of a well-formed expression followed by `EOLN`, `processExpression`
prints the value that the reductions compute under the given argument order. -/
theorem agreement_valueWith (debugMode : Bool) (order : ArgOrder)
    (e : WellFormed Level.expr) (v : Int) (hv : e.valueWith order = some v) :
    messages (processTokens debugMode order (e.tokens ++ [tEoln])).out = [Printed.result v] ∧
    (processTokens debugMode order (e.tokens ++ [tEoln])).status = Status.returned := by
  obtain ⟨st1, hfeed, hheld⟩ := feed_wellFormed order e ⟨[], []⟩ v
    (by intro t ht; cases ht) hv
  have hdrain : drain order st1 = Flow.next ⟨[v], []⟩ := by
    unfold drain
    rw [reduceLoop_exprOn hheld rfl rfl rfl rfl _ 0 (le_refl _) (le_refl _)]
    rfl
  have hfin : finish order st1 ([] : List Token)
      = ⟨[Printed.result v], Status.returned, []⟩ := by
    unfold finish
    rw [hdrain]
    rfl
  have hlen : (e.tokens ++ [tEoln]).length + 2 = e.tokens.length + 3 := by simp
  rw [processTokens_eq_runFrom, hlen]
  obtain ⟨r1, r2⟩ := runFrom_feed debugMode order e.tokens [tEoln] ⟨[], []⟩ st1 3 hfeed
  rw [r1, r2, runFrom_eoln _ _ _ _ _ _ rfl, hfin]
  exact ⟨rfl, rfl⟩

/-- C1. Arithmetic agreement, the arguments of `eval` being evaluated from right to left
as the g++ builds do: for every well-formed expression over non-negative literals whose
value `n` under standard integer arithmetic is defined (no division by zero) and whose
integers can be taken as exact (every literal and intermediate value is a value of
`int`), `processExpression` on its tokens followed by `EOLN` prints `Result: n` and
nothing else apart from the debug trace, and returns. -/
theorem arithmetic_agreement (debugMode : Bool) (e : WellFormed Level.expr) (n : Int)
    (hvalue : e.value = some n) (hexact : e.exact = true) :
    messages (processTokens debugMode ArgOrder.rightToLeft (e.tokens ++ [tEoln])).out
      = [Printed.result n] ∧
    (processTokens debugMode ArgOrder.rightToLeft (e.tokens ++ [tEoln])).status
      = Status.returned :=
  agreement_valueWith debugMode ArgOrder.rightToLeft e n
    (valueWith_rightToLeft e n hvalue hexact)

/-- C1, on the line `(1+2)*(7-3)/5`, which prints `Result: 2`. -/
theorem arithmetic_agreement_witness :
    (WellFormed.ofTerm (WellFormed.div (WellFormed.mul
        (WellFormed.ofFactor (WellFormed.paren (WellFormed.add
          (WellFormed.ofTerm (WellFormed.ofFactor (WellFormed.num 1)))
          (WellFormed.ofFactor (WellFormed.num 2)))))
        (WellFormed.paren (WellFormed.sub
          (WellFormed.ofTerm (WellFormed.ofFactor (WellFormed.num 7)))
          (WellFormed.ofFactor (WellFormed.num 3)))))
        (WellFormed.num 5))).tokens ++ [tEoln]
      = [tOp '(', tVal 1, tOp '+', tVal 2, tOp ')', tOp '*', tOp '(', tVal 7, tOp '-',
          tVal 3, tOp ')', tOp '/', tVal 5, tEoln] ∧
    messages (processTokens true ArgOrder.rightToLeft
      ((WellFormed.ofTerm (WellFormed.div (WellFormed.mul
        (WellFormed.ofFactor (WellFormed.paren (WellFormed.add
          (WellFormed.ofTerm (WellFormed.ofFactor (WellFormed.num 1)))
          (WellFormed.ofFactor (WellFormed.num 2)))))
        (WellFormed.paren (WellFormed.sub
          (WellFormed.ofTerm (WellFormed.ofFactor (WellFormed.num 7)))
          (WellFormed.ofFactor (WellFormed.num 3)))))
        (WellFormed.num 5))).tokens ++ [tEoln])).out = [Printed.result 2] :=
  ⟨rfl, (arithmetic_agreement true
    (WellFormed.ofTerm (WellFormed.div (WellFormed.mul
        (WellFormed.ofFactor (WellFormed.paren (WellFormed.add
          (WellFormed.ofTerm (WellFormed.ofFactor (WellFormed.num 1)))
          (WellFormed.ofFactor (WellFormed.num 2)))))
        (WellFormed.paren (WellFormed.sub
          (WellFormed.ofTerm (WellFormed.ofFactor (WellFormed.num 7)))
          (WellFormed.ofFactor (WellFormed.num 3)))))
        (WellFormed.num 5)))
    2 (by decide) (by decide)).1⟩

theorem isInt_natCast {a : Nat} (h : isInt (a : Int) = true) : (a : Int) ≤ 2147483647 :=
  (isInt_iff.mp h).2

theorem isInt_tdiv_natCast (a b : Nat) (ha : isInt (a : Int) = true) :
    isInt (Int.tdiv a b) = true := by
  have h1 := isInt_natCast ha
  have h2 : Int.tdiv (a : Int) (b : Int) = ((a / b : Nat) : Int) := by
    rw [Int.tdiv_eq_ediv (Int.ofNat_nonneg a) (Int.ofNat_nonneg b)]
    rfl
  have h3 : ((a / b : Nat) : Int) ≤ (a : Int) := Int.ofNat_le.mpr (Nat.div_le_self a b)
  have h4 : (0 : Int) ≤ ((a / b : Nat) : Int) := Int.ofNat_nonneg _
  rw [h2, isInt_iff]
  constructor <;> linarith

/-- C3 (as stated, refuted). On the line `0-2147483647-2147483647` the difference
`(a - b) - c` is `-4294967294`, which is no value of `int`: `Result: 2` is printed. -/
theorem left_associativity_overflow_counterexample :
    (processTokens false ArgOrder.rightToLeft
      [tVal 0, tOp '-', tVal 2147483647, tOp '-', tVal 2147483647, tEoln]).out
        = [Printed.result 2] ∧
    ((0 : Int) - 2147483647) - 2147483647 = -4294967294 ∧
    isInt 2147483647 = true ∧ isInt (-4294967294) = false := by
  decide

/-- C3 (amended). Left associativity, the arguments of `eval` being evaluated from right
to left as the g++ builds do: for all non-negative `int` values `a`, `b`, `c` the line
`a - b - c` prints `Result: n` where `n` is `(a - b) - c` in `int` arithmetic (the
exact value wrapped to 32 bits), so it prints `Result: (a - b) - c` whenever that
integer is a value of `int`; and for `b` and `c` not zero the line `a / b / c` prints
`Result: (a / b) / c`, the divisions truncating. -/
theorem left_associativity (debugMode : Bool) (a b c : Nat) (ha : isInt (a : Int) = true)
    (hb : isInt (b : Int) = true) (hc : isInt (c : Int) = true) :
    messages (processTokens debugMode ArgOrder.rightToLeft
      [tVal a, tOp '-', tVal b, tOp '-', tVal c, tEoln]).out
        = [Printed.result (wrap (((a : Int) - b) - c))] ∧
    (isInt (((a : Int) - b) - c) = true →
      messages (processTokens debugMode ArgOrder.rightToLeft
        [tVal a, tOp '-', tVal b, tOp '-', tVal c, tEoln]).out
          = [Printed.result (((a : Int) - b) - c)]) ∧
    (b ≠ 0 → c ≠ 0 →
      messages (processTokens debugMode ArgOrder.rightToLeft
        [tVal a, tOp '/', tVal b, tOp '/', tVal c, tEoln]).out
          = [Printed.result (Int.tdiv (Int.tdiv a b) c)]) := by
  have h1 := isInt_natCast ha
  have h2 := isInt_natCast hb
  have h3 := isInt_natCast hc
  have hab : isInt ((a : Int) - b) = true := by rw [isInt_iff]; omega
  have hsub : messages (processTokens debugMode ArgOrder.rightToLeft
      [tVal a, tOp '-', tVal b, tOp '-', tVal c, tEoln]).out
        = [Printed.result (wrap (((a : Int) - b) - c))] :=
    (agreement_valueWith debugMode ArgOrder.rightToLeft
      (WellFormed.sub (WellFormed.sub (WellFormed.ofTerm (WellFormed.ofFactor (WellFormed.num a)))
        (WellFormed.ofFactor (WellFormed.num b))) (WellFormed.ofFactor (WellFormed.num c)))
      (wrap (((a : Int) - b) - c))
      (by
        simp only [WellFormed.valueWith, applyOp_sub_exact _ _ hab]
        simp [applyOp, eval])).1
  refine ⟨hsub, ?_, ?_⟩
  · intro hx
    rw [hsub, wrap_of_isInt hx]
  · intro hb0 hc0
    have hb0' : (b : Int) ≠ 0 := by exact_mod_cast hb0
    have hc0' : (c : Int) ≠ 0 := by exact_mod_cast hc0
    have hq : Int.tdiv (a : Int) (b : Int) = ((a / b : Nat) : Int) := by
      rw [Int.tdiv_eq_ediv (Int.ofNat_nonneg a) (Int.ofNat_nonneg b)]
      rfl
    have hq1 : isInt (Int.tdiv (a : Int) (b : Int)) = true := isInt_tdiv_natCast a b ha
    have hq2 : isInt (Int.tdiv (Int.tdiv (a : Int) (b : Int)) (c : Int)) = true := by
      rw [hq] at hq1 ⊢
      exact isInt_tdiv_natCast (a / b) c hq1
    exact (agreement_valueWith debugMode ArgOrder.rightToLeft
      (WellFormed.ofTerm (WellFormed.div (WellFormed.div (WellFormed.ofFactor (WellFormed.num a))
        (WellFormed.num b)) (WellFormed.num c)))
      (Int.tdiv (Int.tdiv a b) c)
      (by
        simp only [WellFormed.valueWith, applyOp_div_exact _ _ hb0' hq1,
          applyOp_div_exact _ _ hc0' hq2])).1

/-- C3 (amended), on the lines `10-3-2` and `100/5/2`, which print `Result: 5` and
`Result: 10`. -/
theorem left_associativity_witness :
    isInt ((10 : Nat) : Int) = true ∧
    messages (processTokens false ArgOrder.rightToLeft
      [tVal (10 : Nat), tOp '-', tVal (3 : Nat), tOp '-', tVal (2 : Nat), tEoln]).out
        = [Printed.result 5] ∧
    messages (processTokens false ArgOrder.rightToLeft
      [tVal (100 : Nat), tOp '/', tVal (5 : Nat), tOp '/', tVal (2 : Nat), tEoln]).out
        = [Printed.result 10] :=
  ⟨by decide,
    (left_associativity false 10 3 2 (by decide) (by decide) (by decide)).2.1 (by decide),
    (left_associativity false 100 5 2 (by decide) (by decide) (by decide)).2.2
      (by decide) (by decide)⟩

/-- The tokens of a well-formed expression are values and operators: none is `EOLN`. -/
theorem tokens_ne_eoln : ∀ {l : Level} (e : WellFormed l), ∀ t ∈ e.tokens,
    t.type ≠ TokenType.EOLN := by
  intro l e
  induction e with
  | num n =>
    intro t ht
    simp only [WellFormed.tokens, List.mem_singleton] at ht
    subst ht
    exact fun h => by cases h
  | paren e ih =>
    intro t ht
    simp only [WellFormed.tokens, List.mem_append, List.mem_cons, List.mem_singleton,
      List.not_mem_nil, or_false] at ht
    rcases ht with (ht | ht) | ht
    · subst ht; decide
    · exact ih t ht
    · subst ht; decide
  | ofFactor f ih => exact ih
  | ofTerm t ih => exact ih
  | mul a b iha ihb =>
    intro t ht
    simp only [WellFormed.tokens, List.mem_append, List.mem_cons] at ht
    rcases ht with ht | ht | ht
    · exact iha t ht
    · subst ht; decide
    · exact ihb t ht
  | div a b iha ihb =>
    intro t ht
    simp only [WellFormed.tokens, List.mem_append, List.mem_cons] at ht
    rcases ht with ht | ht | ht
    · exact iha t ht
    · subst ht; decide
    · exact ihb t ht
  | add a b iha ihb =>
    intro t ht
    simp only [WellFormed.tokens, List.mem_append, List.mem_cons] at ht
    rcases ht with ht | ht | ht
    · exact iha t ht
    · subst ht; decide
    · exact ihb t ht
  | sub a b iha ihb =>
    intro t ht
    simp only [WellFormed.tokens, List.mem_append, List.mem_cons] at ht
    rcases ht with ht | ht | ht
    · exact iha t ht
    · subst ht; decide
    · exact ihb t ht

/-! ## Tokens that end the expression -/

/-- C15. A token that is neither a value, an operator nor `EOLN` (so `QUIT`, `HELP`,
`ERROR` or `EOFILE`) ends the expression at once, whatever the stacks hold:
`processExpression` returns having printed nothing for it, neither a `Result:` line nor
an error message nor a trace, and the token source is left as it was. -/
theorem other_token_ends_expression {σ : Type} (debugMode : Bool) (order : ArgOrder)
    (nx : σ → Token × σ × List Printed) (fuel : Nat) (tok : Token) (tr : σ) (st : Stacks)
    (hv : tok.type ≠ TokenType.VALUE) (ho : tok.type ≠ TokenType.OPERATOR)
    (he : tok.type ≠ TokenType.EOLN) :
    (tokenLoop debugMode order nx (fuel + 1) tok tr st).out = [] ∧
    (tokenLoop debugMode order nx (fuel + 1) tok tr st).status = Status.returned ∧
    (tokenLoop debugMode order nx (fuel + 1) tok tr st).tr = tr := by
  rw [tokenLoop_succ _ _ _ _ _ _ _ he, processToken_other order tok st hv ho]
  have ht : traceOf debugMode tok = [] := by
    unfold traceOf
    split
    · next h => exact absurd h hv
    · next h => exact absurd h ho
    · rfl
  simp [ht]

/-- C15, on `1+q`: the `QUIT` token arrives with `1` and `+` stacked and `2`, `EOLN`
still to come; nothing is printed and the remaining tokens are not asked for. -/
theorem other_token_ends_expression_witness :
    (tokenLoop false ArgOrder.rightToLeft nextOfList 3 (Token.ofType TokenType.QUIT)
        [tVal 2, tEoln] ⟨[1], ['+']⟩).out = [] ∧
    (tokenLoop false ArgOrder.rightToLeft nextOfList 3 (Token.ofType TokenType.QUIT)
        [tVal 2, tEoln] ⟨[1], ['+']⟩).status = Status.returned ∧
    (tokenLoop false ArgOrder.rightToLeft nextOfList 3 (Token.ofType TokenType.QUIT)
        [tVal 2, tEoln] ⟨[1], ['+']⟩).tr = [tVal 2, tEoln] :=
  other_token_ends_expression false ArgOrder.rightToLeft nextOfList 2
    (Token.ofType TokenType.QUIT) [tVal 2, tEoln] ⟨[1], ['+']⟩
    (by decide) (by decide) (by decide)

/-! ## Division -/

theorem tmod_neg_left (a b : Int) : (-a).tmod b = -(a.tmod b) := by
  rw [Int.tmod_def, Int.tmod_def, Int.neg_tdiv]
  ring

theorem tmod_bounds_nonneg (a b : Int) (hb : b ≠ 0) (ha : 0 ≤ a) :
    0 ≤ a.tmod b ∧ a.tmod b < |b| := by
  refine ⟨Int.tmod_nonneg b ha, ?_⟩
  rcases lt_or_gt_of_ne hb with h | h
  · rw [abs_of_neg h, ← Int.tmod_neg]
    exact Int.tmod_lt_of_pos a (by omega)
  · rw [abs_of_pos h]
    exact Int.tmod_lt_of_pos a h

/-- The remainder of the truncating division is smaller than the divisor in absolute
value and has the sign of the dividend. -/
theorem tmod_bounds (a b : Int) (hb : b ≠ 0) :
    |a.tmod b| < |b| ∧ (0 ≤ a → 0 ≤ a.tmod b) ∧ (a ≤ 0 → a.tmod b ≤ 0) := by
  rcases le_or_lt 0 a with ha | ha
  · obtain ⟨h1, h2⟩ := tmod_bounds_nonneg a b hb ha
    refine ⟨by rw [abs_of_nonneg h1]; exact h2, fun _ => h1, fun h => ?_⟩
    have : a = 0 := le_antisymm h ha
    subst this
    simp
  · obtain ⟨h1, h2⟩ := tmod_bounds_nonneg (-a) b hb (by omega)
    rw [tmod_neg_left] at h1 h2
    refine ⟨?_, fun h => absurd h (by omega), fun _ => by omega⟩
    rw [abs_of_nonpos (by omega)]
    exact h2

/-- The truncated quotient of a value of `int` is a value of `int`, `INT_MIN / -1` apart. -/
theorem isInt_tdiv (lhs rhs : Int) (hl : isInt lhs = true) (hr : rhs ≠ 0)
    (hmin : ¬ (lhs = INT_MIN ∧ rhs = -1)) : isInt (Int.tdiv lhs rhs) = true := by
  rw [isInt_iff] at hl ⊢
  have hn : (Int.tdiv lhs rhs).natAbs = lhs.natAbs / rhs.natAbs := Int.natAbs_tdiv lhs rhs
  have h1 : lhs.natAbs / rhs.natAbs ≤ lhs.natAbs := Nat.div_le_self _ _
  by_cases hone : rhs.natAbs = 1
  · have hcase : rhs = 1 ∨ rhs = -1 := by omega
    rcases hcase with e | e
    · subst e
      simp only [Int.tdiv_one]
      exact hl
    · subst e
      have hne : lhs ≠ -2147483648 := fun e => hmin ⟨e, rfl⟩
      have : Int.tdiv lhs (-1) = -lhs := by
        rw [Int.tdiv_neg, Int.tdiv_one]
      rw [this]
      omega
  · have h2 : 2 ≤ rhs.natAbs := by omega
    have h3 : lhs.natAbs / rhs.natAbs ≤ lhs.natAbs / 2 := Nat.div_le_div_left h2 (by decide)
    omega

/-- C16 (as stated, refuted). For `lhs = -2147483648` and `rhs = -1` the truncated
quotient `2147483648` is no value of `int` and the division traps: `eval` returns
nothing. The line `(0-2147483647-1)/(0-1)` reaches it with every literal and every
earlier intermediate result a value of `int`: nothing is printed. -/
theorem eval_div_trap_counterexample :
    eval (-2147483648) (-1) '/' = Outcome.undefined ∧
    isInt (-2147483648) = true ∧ isInt (-1) = true ∧ isInt 2147483648 = false ∧
    feed ArgOrder.rightToLeft
      [tOp '(', tVal 0, tOp '-', tVal 2147483647, tOp '-', tVal 1, tOp ')', tOp '/',
        tOp '(', tVal 0, tOp '-', tVal 1, tOp ')'] ⟨[], []⟩
      = some ⟨[-1, -2147483648], ['/']⟩ ∧
    (processTokens false ArgOrder.rightToLeft
      [tOp '(', tVal 0, tOp '-', tVal 2147483647, tOp '-', tVal 1, tOp ')', tOp '/',
        tOp '(', tVal 0, tOp '-', tVal 1, tOp ')', tEoln]).out = [] ∧
    (processTokens false ArgOrder.rightToLeft
      [tOp '(', tVal 0, tOp '-', tVal 2147483647, tOp '-', tVal 1, tOp ')', tOp '/',
        tOp '(', tVal 0, tOp '-', tVal 1, tOp ')', tEoln]).status
      = Status.undefinedBehaviour := by
  decide

/-- C16 (amended). For every `lhs` and every `rhs` other than zero, the pair
`lhs = INT_MIN`, `rhs = -1` apart, `eval` on `/` returns the quotient truncated toward
zero: the `q` for which the remainder `lhs - q * rhs` is smaller than `rhs` in absolute
value and is zero or has the sign of `lhs`; and `q` is the only integer with that
property, and it is a value of `int` when `lhs` is. In particular `-7 / 2` is `-3`.
For `INT_MIN / -1` `eval` returns nothing. -/
theorem eval_div_truncates (lhs rhs : Int) (hr : rhs ≠ 0)
    (hmin : ¬ (lhs = INT_MIN ∧ rhs = -1)) :
    ∃ q r : Int, eval lhs rhs '/' = Outcome.ok q ∧ lhs = q * rhs + r ∧ |r| < |rhs| ∧
      (r = 0 ∨ (0 < r ∧ 0 < lhs) ∨ (r < 0 ∧ lhs < 0)) ∧
      (∀ q' r' : Int, lhs = q' * rhs + r' → |r'| < |rhs| →
        (r' = 0 ∨ (0 < r' ∧ 0 < lhs) ∨ (r' < 0 ∧ lhs < 0)) → q' = q) ∧
      (isInt lhs = true → isInt q = true) ∧
      eval (-7) 2 '/' = Outcome.ok (-3) ∧
      eval INT_MIN (-1) '/' = Outcome.undefined := by
  obtain ⟨b1, b2, b3⟩ := tmod_bounds lhs rhs hr
  have hdecomp : lhs = lhs.tdiv rhs * rhs + lhs.tmod rhs := by
    have := Int.tdiv_add_tmod' lhs rhs
    omega
  refine ⟨lhs.tdiv rhs, lhs.tmod rhs, ?_, hdecomp, b1, ?_, ?_,
    (fun hl => isInt_tdiv lhs rhs hl hr hmin), by decide, by decide⟩
  · simp [eval, hr, hmin]
  · rcases lt_trichotomy lhs 0 with h | h | h
    · have := b3 (le_of_lt h)
      rcases eq_or_lt_of_le this with e | e
      · exact Or.inl e
      · exact Or.inr (Or.inr ⟨e, h⟩)
    · subst h
      left
      simp
    · have := b2 (le_of_lt h)
      rcases eq_or_lt_of_le this with e | e
      · exact Or.inl e.symm
      · exact Or.inr (Or.inl ⟨e, h⟩)
  · intro q' r' hd hlt hsign
    by_contra hne
    have hdiff : (q' - lhs.tdiv rhs) * rhs = lhs.tmod rhs - r' := by
      have e1 : q' * rhs + r' = lhs.tdiv rhs * rhs + lhs.tmod rhs := by rw [← hd, ← hdecomp]
      linear_combination e1
    have hq : 1 ≤ |q' - lhs.tdiv rhs| := Int.one_le_abs (sub_ne_zero.mpr hne)
    have hbig : |rhs| ≤ |lhs.tmod rhs - r'| := by
      rw [← hdiff, abs_mul]
      exact le_mul_of_one_le_left (abs_nonneg _) hq
    have h1 := abs_lt.mp b1
    have h2 := abs_lt.mp hlt
    have hsmall : |lhs.tmod rhs - r'| < |rhs| := by
      rw [abs_lt]
      rcases lt_trichotomy lhs 0 with h | h | h
      · have := b3 (le_of_lt h)
        rcases hsign with e | ⟨_, e⟩ | ⟨e, _⟩
        · subst e; constructor <;> linarith
        · omega
        · constructor <;> linarith
      · have := b2 (le_of_eq h.symm)
        have := b3 (le_of_eq h)
        rcases hsign with e | ⟨_, e⟩ | ⟨_, e⟩
        · subst e; constructor <;> linarith
        · omega
        · omega
      · have := b2 (le_of_lt h)
        rcases hsign with e | ⟨e, _⟩ | ⟨_, e⟩
        · subst e; constructor <;> linarith
        · constructor <;> linarith
        · omega
    exact absurd hbig (not_le.mpr hsmall)

/-- C16 (amended), at `-7 / 2`: the quotient is `-3`. -/
theorem eval_div_truncates_witness :
    ∃ q r : Int, eval (-7) 2 '/' = Outcome.ok q ∧ (-7 : Int) = q * 2 + r ∧ |r| < |(2 : Int)| ∧
      (r = 0 ∨ (0 < r ∧ 0 < (-7 : Int)) ∨ (r < 0 ∧ (-7 : Int) < 0)) ∧
      (∀ q' r' : Int, (-7 : Int) = q' * 2 + r' → |r'| < |(2 : Int)| →
        (r' = 0 ∨ (0 < r' ∧ 0 < (-7 : Int)) ∨ (r' < 0 ∧ (-7 : Int) < 0)) → q' = q) ∧
      (isInt (-7) = true → isInt q = true) ∧
      eval (-7) 2 '/' = Outcome.ok (-3) ∧
      eval INT_MIN (-1) '/' = Outcome.undefined :=
  eval_div_truncates (-7) 2 (by decide) (by decide)

/-! ## The result pop -/

/-- C18. On the line `()` the token loop ends at `EOLN` with both stacks empty, the
drain has nothing to do, and `valueStack.top()` is applied to the empty operand stack:
no `Result:` line and no error message is printed, and the exception of `top()` leaves
`processExpression`, which has no handler for it. The same happens on `(())`. -/
theorem result_pop_on_empty_stack :
    feed ArgOrder.rightToLeft [tOp '(', tOp ')'] ⟨[], []⟩ = some ⟨[], []⟩ ∧
    drain ArgOrder.rightToLeft ⟨[], []⟩ = Flow.next ⟨[], []⟩ ∧
    (processTokens false ArgOrder.rightToLeft [tOp '(', tOp ')', tEoln]).out = [] ∧
    (processTokens false ArgOrder.rightToLeft [tOp '(', tOp ')', tEoln]).status
      = Status.uncaughtException ∧
    (processTokens false ArgOrder.leftToRight [tOp '(', tOp ')', tEoln]).status
      = Status.uncaughtException ∧
    (processTokens false ArgOrder.rightToLeft
      [tOp '(', tOp '(', tOp ')', tOp ')', tEoln]).status = Status.uncaughtException ∧
    (mainIteration false ArgOrder.rightToLeft 300 ['(', ')', '\n']).status
      = Status.uncaughtException := by
  decide

/-! ## The quit token -/

theorem lexList_quit (cs : List Char) :
    (lexList cs).1.type = TokenType.QUIT ↔
      ∃ c tail, cs.dropWhile isspace = c :: tail ∧ (c = 'q' ∨ c = 'Q') := by
  unfold lexList
  cases h : cs.dropWhile isspace with
  | nil => simp [Token.ofType]
  | cons ch r =>
    simp only [List.cons.injEq, exists_and_right, exists_eq', and_true, exists_eq_left']
    by_cases hq : ch = 'q' ∨ ch = 'Q'
    · simp [hq, Token.ofType]
    have hq' := not_or.mp hq
    simp only [hq, if_false, iff_false]
    by_cases hh : ch = '?'
    · simp [hh, Token.ofType]
    simp only [hh, if_false]
    by_cases ho : ch = '+' ∨ ch = '-' ∨ ch = '*' ∨ ch = '/' ∨ ch = '(' ∨ ch = ')'
    · simp [ho, Token.ofOp, hq'.1, hq'.2]
    simp only [ho, if_false]
    cases hd : isdigit ch <;> simp [Token.ofValue, Token.ofType, hq'.1, hq'.2]

/-- C17 (as stated, refuted). On the line `1+q` the third call of `getNextToken`
consumes the `q` that follows the tokens `1` and `+` and returns a `QUIT` token. -/
theorem quit_after_tokens_counterexample :
    (TokenReader.next (TokenReader.new, ['1', '+', 'q', '\n'])).1 = tVal 1 ∧
    (TokenReader.next (TokenReader.next (TokenReader.new, ['1', '+', 'q', '\n'])).2.1).1
      = tOp '+' ∧
    (TokenReader.next (TokenReader.next
      (TokenReader.next (TokenReader.new, ['1', '+', 'q', '\n'])).2.1).2.1).1
        = Token.ofType TokenType.QUIT := by
  decide

/-- C17 (amended). On a reader that holds a line, `getNextToken` returns a `QUIT` token
exactly when the first character at or after the cursor that is not white space is `q`
or `Q`, wherever the cursor stands in the line. -/
theorem quit_token_iff (tr : TokenReader) (stdin : List Char) (h : tr.Holds) :
    (TokenReader.getNextToken tr stdin).1.type = TokenType.QUIT ↔
      ∃ c tail, tr.rest.dropWhile isspace = c :: tail ∧ (c = 'q' ∨ c = 'Q') := by
  have hn : (TokenReader.getNextToken tr stdin).1 = (TokenReader.scan tr).1 := by
    simp [TokenReader.getNextToken, TokenReader.refill, h.1]
  rw [hn, (scan_lexList tr h).1]
  exact lexList_quit tr.rest

/-- C17 (amended), on the line `1+q` with the cursor behind `1+`. -/
theorem quit_token_iff_witness :
    (⟨['1', '+', 'q', '\n'], false, 2, 4⟩ : TokenReader).Holds ∧
    ((TokenReader.getNextToken ⟨['1', '+', 'q', '\n'], false, 2, 4⟩ []).1.type
        = TokenType.QUIT ↔
      ∃ c tail, (⟨['1', '+', 'q', '\n'], false, 2, 4⟩ : TokenReader).rest.dropWhile isspace
        = c :: tail ∧ (c = 'q' ∨ c = 'Q')) ∧
    (TokenReader.getNextToken ⟨['1', '+', 'q', '\n'], false, 2, 4⟩ []).1.type
      = TokenType.QUIT :=
  ⟨⟨rfl, by decide, by decide, by decide⟩,
    quit_token_iff ⟨['1', '+', 'q', '\n'], false, 2, 4⟩ [] ⟨rfl, by decide, by decide, by decide⟩,
    by decide⟩

/-! ## Number lexing -/

theorem skipSymbol_bounds (buf : List Char) (L : Nat) :
    ∀ (fuel pos : Nat), pos ≤ L →
      pos ≤ TokenReader.skipSymbol buf L fuel pos ∧
      TokenReader.skipSymbol buf L fuel pos ≤ L := by
  intro fuel
  induction fuel with
  | zero => intro pos hp; exact ⟨le_refl _, hp⟩
  | succ fuel ih =>
    intro pos hp
    by_cases hc : pos < L ∧ isspace (TokenReader.charAt buf pos) = false
    · simp only [TokenReader.skipSymbol, hc, and_self, if_true]
      obtain ⟨i1, i2⟩ := ih (pos + 1) hc.1
      exact ⟨by omega, i2⟩
    · simp only [TokenReader.skipSymbol, hc, if_false]
      exact ⟨le_refl _, hp⟩

theorem charAt_set_length (buf : List Char) (L p : Nat)
    (h : isdigit (TokenReader.charAt buf L) = false) :
    isdigit (TokenReader.charAt (buf.set p NUL) L) = false := by
  by_cases hp : p = L
  · subst hp
    by_cases hl : p < buf.length
    · simp only [TokenReader.charAt]
      rw [List.getD_eq_getElem _ _ (by simpa using hl)]
      simp only [List.getElem_set_self]
      decide
    · simp only [TokenReader.charAt]
      rw [List.getD_eq_default _ _ (by simp; omega)]
      decide
  · simp only [TokenReader.charAt, List.getD_eq_getElem?_getD] at h ⊢
    rw [List.getElem?_set_ne hp]
    exact h

/-- A call that does not return `EOLN` moves the cursor forward, keeps it within the
line, and leaves a reader that still holds the line. -/
theorem scan_advances (tr : TokenReader) (h : tr.Holds)
    (hne : (TokenReader.scan tr).1.type ≠ TokenType.EOLN) :
    tr.pos < (TokenReader.scan tr).2.1.pos ∧
    (TokenReader.scan tr).2.1.pos ≤ tr.length ∧
    (TokenReader.scan tr).2.1.length = tr.length ∧
    (TokenReader.scan tr).2.1.Holds := by
  obtain ⟨hneed, hpos, hlen, hend⟩ := h
  obtain ⟨s1, s2, -⟩ := skipSpaces_spec tr.inputLine tr.length hlen
    (tr.length - tr.pos) tr.pos hpos (le_refl _)
  generalize hp0 : TokenReader.skipSpaces tr.inputLine tr.length (tr.length - tr.pos) tr.pos
    = p0 at s1 s2
  by_cases hge : p0 ≥ tr.length
  · simp [TokenReader.scan, hp0, hge, Token.ofType] at hne
  · have hlt : p0 < tr.length := by omega
    generalize hch : TokenReader.charAt tr.inputLine p0 = ch
    simp only [TokenReader.scan, hp0, hge, if_false, hch] at hne ⊢
    by_cases hq : ch = 'q' ∨ ch = 'Q'
    · simp only [hq, if_true]
      exact ⟨by omega, by omega, trivial, hneed, by simp only; omega, hlen, hend⟩
    simp only [hq, if_false] at hne ⊢
    by_cases hh : ch = '?'
    · simp only [hh, if_true]
      exact ⟨by omega, by omega, trivial, hneed, by simp only; omega, hlen, hend⟩
    simp only [hh, if_false] at hne ⊢
    by_cases ho : ch = '+' ∨ ch = '-' ∨ ch = '*' ∨ ch = '/' ∨ ch = '(' ∨ ch = ')'
    · simp only [ho, if_true]
      exact ⟨by omega, by omega, trivial, hneed, by simp only; omega, hlen, hend⟩
    simp only [ho, if_false] at hne ⊢
    cases hd : isdigit ch with
    | true =>
      simp only [if_true]
      have hrun : (((tr.inputLine.take tr.length).drop (p0 + 1)).takeWhile isdigit).length
          ≤ tr.length - (p0 + 1) := by
        refine le_trans (length_takeWhile_le _ _) ?_
        rw [List.length_drop, List.length_take]
        omega
      rw [digitLoop_spec tr.inputLine tr.length hlen hend (tr.length + 1) _ (p0 + 1)
        (by omega) (by omega)]
      exact ⟨by simp only; omega, by simp only; omega, trivial, hneed, by simp only; omega,
        hlen, hend⟩
    | false =>
      simp only [Bool.false_eq_true, if_false]
      obtain ⟨b1, b2⟩ := skipSymbol_bounds tr.inputLine tr.length
        (tr.length - (p0 + 1)) (p0 + 1) (by omega)
      refine ⟨by omega, b2, trivial, hneed, b2, ?_, ?_⟩
      · simp only [List.length_set]; exact hlen
      · exact charAt_set_length _ _ _ hend

/-- The call that returns `EOLN` sets `needLine`. -/
theorem scan_eoln (tr : TokenReader) (he : (TokenReader.scan tr).1.type = TokenType.EOLN) :
    (TokenReader.scan tr).2.1.needLine = true := by
  generalize hp0 : TokenReader.skipSpaces tr.inputLine tr.length (tr.length - tr.pos) tr.pos
    = p0
  by_cases hge : p0 ≥ tr.length
  · simp [TokenReader.scan, hp0, hge]
  · generalize hch : TokenReader.charAt tr.inputLine p0 = ch
    simp only [TokenReader.scan, hp0, hge, if_false, hch] at he
    by_cases hq : ch = 'q' ∨ ch = 'Q'
    · simp [hq, Token.ofType] at he
    simp only [hq, if_false] at he
    by_cases hh : ch = '?'
    · simp [hh, Token.ofType] at he
    simp only [hh, if_false] at he
    by_cases ho : ch = '+' ∨ ch = '-' ∨ ch = '*' ∨ ch = '/' ∨ ch = '(' ∨ ch = ')'
    · simp [ho, Token.ofOp] at he
    simp only [ho, if_false] at he
    cases hd : isdigit ch <;> simp [hd, Token.ofValue, Token.ofType] at he

theorem next_of_holds (tr : TokenReader) (stdin : List Char) (h : tr.Holds) :
    TokenReader.next (tr, stdin)
      = ((TokenReader.scan tr).1, ((TokenReader.scan tr).2.1, stdin), (TokenReader.scan tr).2.2) := by
  simp [TokenReader.next, TokenReader.getNextToken, TokenReader.refill, h.1]

theorem calls_to_eoln (stdin : List Char) :
    ∀ (n : Nat) (tr : TokenReader), tr.Holds → tr.length - tr.pos ≤ n →
      ∃ k, callsToEoln TokenReader.next (n + 1) (tr, stdin) = some k ∧
        k ≤ tr.length - tr.pos + 1 := by
  intro n
  induction n with
  | zero =>
    intro tr h hn
    by_cases he : (TokenReader.next (tr, stdin)).1.type = TokenType.EOLN
    · exact ⟨1, by simp [callsToEoln, he], by omega⟩
    · rw [next_of_holds tr stdin h] at he
      obtain ⟨a1, a2, -, -⟩ := scan_advances tr h he
      omega
  | succ n ih =>
    intro tr h hn
    by_cases he : (TokenReader.next (tr, stdin)).1.type = TokenType.EOLN
    · exact ⟨1, by simp [callsToEoln, he], by omega⟩
    · have he' := he
      rw [next_of_holds tr stdin h] at he'
      obtain ⟨a1, a2, a3, a4⟩ := scan_advances tr h he'
      obtain ⟨k, hk1, hk2⟩ := ih (TokenReader.scan tr).2.1 a4 (by rw [a3]; omega)
      refine ⟨k + 1, ?_, by rw [a3] at hk2; omega⟩
      rw [callsToEoln]
      simp only [he, if_false]
      rw [next_of_holds tr stdin h]
      simp only [hk1, Option.map_some']

theorem finish_status {σ : Type} (order : ArgOrder) (st : Stacks) (tr : σ) :
    (finish order st tr).status ≠ Status.outOfFuel := by
  unfold finish
  generalize drain order st = fl
  cases fl with
  | next st1 =>
    simp only []
    generalize Stack.top st1.valueStack = t
    cases t with
    | ok r => by_cases h : (Stack.pop st1.valueStack).isEmpty = true <;> simp [h]
    | exception => simp
    | undefined => simp
  | ret out => simp
  | undefined => simp

/-- With one unit of fuel per character left on the line, and two more, the token loop
does not run out of fuel. -/
theorem tokenLoop_terminates (debugMode : Bool) (order : ArgOrder) (stdin : List Char) :
    ∀ (fuel : Nat) (tok : Token) (tr : TokenReader) (st : Stacks),
      (tok.type ≠ TokenType.VALUE ∧ tok.type ≠ TokenType.OPERATOR ∧ 1 ≤ fuel) ∨
        (tr.Holds ∧ tr.length - tr.pos + 2 ≤ fuel) →
      (tokenLoop debugMode order TokenReader.next fuel tok (tr, stdin) st).status
        ≠ Status.outOfFuel := by
  intro fuel
  induction fuel with
  | zero => intro tok tr st h; omega
  | succ fuel ih =>
    intro tok tr st h
    by_cases he : tok.type = TokenType.EOLN
    · rw [tokenLoop_eoln _ _ _ _ _ _ _ he]
      exact finish_status _ _ _
    · rw [tokenLoop_succ _ _ _ _ _ _ _ he]
      cases hp : (processToken false order tok st).2 with
      | ret out => simp
      | undefined => simp
      | next st1 =>
        simp only
        rcases h with ⟨h1, h2, -⟩ | ⟨hh, hf⟩
        · rw [processToken_other _ _ _ h1 h2] at hp
          cases hp
        · rw [next_of_holds tr stdin hh]
          simp only
          by_cases hne : (TokenReader.scan tr).1.type = TokenType.EOLN
          · refine ih _ _ _ (Or.inl ⟨?_, ?_, by omega⟩)
            · rw [hne]; decide
            · rw [hne]; decide
          · obtain ⟨a1, a2, a3, a4⟩ := scan_advances tr hh hne
            exact ih _ _ _ (Or.inr ⟨a4, by rw [a3]; omega⟩)

theorem fgetsChars_length (n : Nat) :
    ∀ s : List Char, (fgetsChars n s).1.length ≤ n := by
  induction n with
  | zero => intro s; simp [fgetsChars]
  | succ n ih =>
    intro s
    cases s with
    | nil => simp [fgetsChars]
    | cons c s =>
      by_cases hc : c = '\n'
      · simp [fgetsChars, hc]
      · simp only [fgetsChars, hc, if_false, List.length_cons]
        have := ih s
        omega

/-- One pass of the driver does not run out of fuel when given `MAX_LINE` units. -/
theorem mainIteration_terminates (debugMode : Bool) (order : ArgOrder) (fuel : Nat)
    (input : List Char) (hf : MAX_LINE ≤ fuel) :
    (mainIteration debugMode order fuel input).status ≠ Status.outOfFuel := by
  have hfuel : 300 ≤ fuel := hf
  unfold mainIteration
  simp only []
  cases hfg : fgets MAX_LINE input with
  | none =>
    have hg : TokenReader.getNextToken TokenReader.new input
        = (Token.ofType TokenType.EOFILE, (TokenReader.new, input), [Printed.errorInReading]) := by
      simp [TokenReader.getNextToken, TokenReader.refill, TokenReader.new, hfg]
    rw [hg]
    simp only [Token.getType, Token.ofType, processExpression]
    exact tokenLoop_terminates debugMode order input fuel _ _ _
      (Or.inl ⟨by decide, by decide, by omega⟩)
  | some p =>
    obtain ⟨buf, rest⟩ := p
    rw [getNextToken_new buf rest input hfg]
    obtain ⟨w1, -⟩ := holds_fresh buf
    have hbuf : buf.length ≤ 299 := by
      cases input with
      | nil => simp [fgets] at hfg
      | cons c s =>
        simp only [fgets, Option.some.injEq] at hfg
        have := fgetsChars_length (MAX_LINE - 1) (c :: s)
        rw [hfg] at this
        exact this
    have hL : strlen buf ≤ 299 := le_trans (length_takeWhile_le _ _) hbuf
    rw [next_of_holds _ rest w1]
    simp only []
    by_cases hne : (TokenReader.scan ⟨buf, false, 0, strlen buf⟩).1.type = TokenType.EOLN
    · simp [Token.getType, hne]
    · obtain ⟨a1, a2, a3, a4⟩ := scan_advances _ w1 hne
      have key := tokenLoop_terminates debugMode order rest fuel
        (TokenReader.scan ⟨buf, false, 0, strlen buf⟩).1
        (TokenReader.scan ⟨buf, false, 0, strlen buf⟩).2.1 ⟨[], []⟩
        (Or.inr ⟨a4, by rw [a3]; simp only at a1 ⊢; omega⟩)
      simp only [Token.getType, processExpression]
      split <;> first | exact key | simp

/-- C12. On a reader that holds a line of length `L`: a call of `getNextToken` that does
not return `EOLN` moves the cursor strictly forward and keeps it at most `L`, the line
length unchanged; the call that returns `EOLN` sets `needLine`; `EOLN` is returned
within at most `L - pos + 1`, hence at most `L + 1`, calls; and the token loop of
`processExpression` ends within `L + 2` iterations whatever the first token and the
stacks are. One pass of the driver over any input ends within `MAX_LINE` iterations. -/
theorem token_sequence_finite (debugMode : Bool) (order : ArgOrder) (tr : TokenReader)
    (stdin : List Char) (h : tr.Holds) :
    ((TokenReader.getNextToken tr stdin).1.type ≠ TokenType.EOLN →
      tr.pos < (TokenReader.getNextToken tr stdin).2.1.1.pos ∧
      (TokenReader.getNextToken tr stdin).2.1.1.pos ≤ tr.length ∧
      (TokenReader.getNextToken tr stdin).2.1.1.length = tr.length ∧
      (TokenReader.getNextToken tr stdin).2.1.1.Holds) ∧
    ((TokenReader.getNextToken tr stdin).1.type = TokenType.EOLN →
      (TokenReader.getNextToken tr stdin).2.1.1.needLine = true) ∧
    (∃ k, callsToEoln TokenReader.next (tr.length + 1) (tr, stdin) = some k ∧
      k ≤ tr.length - tr.pos + 1 ∧ k ≤ tr.length + 1) ∧
    (∀ (fuel : Nat) (tok : Token) (st : Stacks), tr.length + 2 ≤ fuel →
      (tokenLoop debugMode order TokenReader.next fuel tok (tr, stdin) st).status
        ≠ Status.outOfFuel) ∧
    (∀ (fuel : Nat) (input : List Char), MAX_LINE ≤ fuel →
      (mainIteration debugMode order fuel input).status ≠ Status.outOfFuel) := by
  have hn : TokenReader.getNextToken tr stdin
      = ((TokenReader.scan tr).1, ((TokenReader.scan tr).2.1, stdin), (TokenReader.scan tr).2.2) :=
    next_of_holds tr stdin h
  refine ⟨?_, ?_, ?_, ?_, ?_⟩
  · intro hne
    rw [hn] at hne ⊢
    exact scan_advances tr h hne
  · intro he
    rw [hn] at he ⊢
    exact scan_eoln tr he
  · obtain ⟨k, h1, h2⟩ := calls_to_eoln stdin tr.length tr h (by omega)
    exact ⟨k, h1, h2, by omega⟩
  · intro fuel tok st hf
    exact tokenLoop_terminates debugMode order stdin fuel tok tr st (Or.inr ⟨h, by omega⟩)
  · intro fuel input hf
    exact mainIteration_terminates debugMode order fuel input hf

/-- C12, on the line `1+2` with the cursor at its start: `EOLN` comes with the fourth
call. -/
theorem token_sequence_finite_witness :
    (⟨['1', '+', '2', '\n'], false, 0, 4⟩ : TokenReader).Holds ∧
    (∃ k, callsToEoln TokenReader.next (4 + 1) (⟨['1', '+', '2', '\n'], false, 0, 4⟩, []) = some k ∧
      k ≤ 4 - 0 + 1 ∧ k ≤ 4 + 1) ∧
    callsToEoln TokenReader.next 5 (⟨['1', '+', '2', '\n'], false, 0, 4⟩, []) = some 4 :=
  ⟨⟨rfl, by decide, by decide, by decide⟩,
    (token_sequence_finite false ArgOrder.rightToLeft ⟨['1', '+', '2', '\n'], false, 0, 4⟩ []
      ⟨rfl, by decide, by decide, by decide⟩).2.2.1,
    by decide⟩

/-! ## The goto loops and the precedence-driven loop -/

theorem precedenceLoop_eq_reduceLoop (prec : Char → Nat) (order : ArgOrder) (op : Char)
    (cond : Char → Bool)
    (hcond : ∀ c, StackOperator c → (cond c = true ↔ prec c ≥ prec op)) :
    ∀ (n : Nat) (st : Stacks), (∀ c ∈ st.operatorStack, StackOperator c) →
      precedenceLoop prec order op n st =
        match reduceLoop order cond n st with
        | Flow.next st1 => Flow.next ⟨st1.valueStack, op :: st1.operatorStack⟩
        | Flow.ret out => Flow.ret out
        | Flow.undefined => Flow.undefined := by
  intro n
  induction n with
  | zero => intro st _; rfl
  | succ n ih =>
    intro st hst
    obtain ⟨vs, os⟩ := st
    cases os with
    | nil => rw [reduceLoop_nil]; rfl
    | cons top os =>
      have htop : StackOperator top := hst top (List.mem_cons_self _ _)
      cases hc : cond top with
      | false =>
        have hp : ¬ prec top ≥ prec op := by
          intro h
          have := (hcond top htop).mpr h
          rw [hc] at this
          cases this
        rw [reduceLoop_stop _ _ _ _ _ _ hc]
        simp only [precedenceLoop, hp, if_false]
      | true =>
        have hp : prec top ≥ prec op := (hcond top htop).mp hc
        rw [reduceLoop_step _ _ _ _ _ _ hc]
        simp only [precedenceLoop, hp, if_true]
        cases ht : tryPopEval order ⟨vs, top :: os⟩ with
        | next st1 =>
          obtain ⟨a, b, vs', op', r, hst1, -, -⟩ := tryPopEval_next ht
          have hos : os = st1.operatorStack := by
            have := congrArg Stacks.operatorStack hst1
            simp at this
            exact this.2
          exact ih st1 (fun c hc => hst c (by rw [← hos] at hc; exact List.mem_cons_of_mem _ hc))
        | ret out => rfl
        | undefined => rfl

/-- C13. Take any rank function with `prec('(') = 0`, `prec('+') = prec('-') = 1` and
`prec('*') = prec('/') = 2`. From every state whose operator stack holds only `+ - * /`
and `(`, handling a binary operator token with the two goto loops of the source gives
the same operand stack, operator stack and error outcome as the loop "while the
operator stack is not empty and `prec(top) >= prec(op)`, reduce once; then push `op`". -/
theorem goto_loops_refine_precedence_loop (prec : Char → Nat) (order : ArgOrder) (op : Char)
    (st : Stacks) (hopen : prec '(' = 0) (hadd : prec '+' = 1) (hsub : prec '-' = 1)
    (hmul : prec '*' = 2) (hdiv : prec '/' = 2)
    (hop : op = '+' ∨ op = '-' ∨ op = '*' ∨ op = '/')
    (hst : ∀ c ∈ st.operatorStack, StackOperator c) :
    processOperator order op st = processBinary prec order op st := by
  unfold processBinary
  by_cases h1 : op = '+' ∨ op = '-'
  · have hpo : prec op = 1 := by rcases h1 with e | e <;> rw [e] <;> assumption
    rw [processOperator_addsub _ _ _ h1,
      precedenceLoop_eq_reduceLoop prec order op
        (fun top => top = '+' || top = '-' || top = '*' || top = '/') ?_ _ st hst]
    · rfl
    · intro c hc
      rw [hpo]
      rcases hc with e | e | e | e | e <;> subst e <;> simp [hopen, hadd, hsub, hmul, hdiv]
  · have h2 : op = '*' ∨ op = '/' := by
      rcases hop with e | e | e | e
      · exact absurd (Or.inl e) h1
      · exact absurd (Or.inr e) h1
      · exact Or.inl e
      · exact Or.inr e
    have hpo : prec op = 2 := by rcases h2 with e | e <;> rw [e] <;> assumption
    rw [processOperator_muldiv _ _ _ h2,
      precedenceLoop_eq_reduceLoop prec order op
        (fun top => top = '*' || top = '/') ?_ _ st hst]
    · rfl
    · intro c hc
      rw [hpo]
      rcases hc with e | e | e | e | e <;> subst e <;> simp [hopen, hadd, hsub, hmul, hdiv]

/-- C13, with the rank function `precedence`, for a `+` arriving on `1+2*3`: both
reduce `*` and `+` and push the new `+`. -/
theorem goto_loops_refine_precedence_loop_witness :
    processOperator ArgOrder.rightToLeft '+' ⟨[3, 2, 1], ['*', '+']⟩
      = processBinary precedence ArgOrder.rightToLeft '+' ⟨[3, 2, 1], ['*', '+']⟩ ∧
    processOperator ArgOrder.rightToLeft '+' ⟨[3, 2, 1], ['*', '+']⟩
      = Flow.next ⟨[7], ['+']⟩ :=
  ⟨goto_loops_refine_precedence_loop precedence ArgOrder.rightToLeft '+'
      ⟨[3, 2, 1], ['*', '+']⟩ (by decide) (by decide) (by decide) (by decide) (by decide)
      (by decide) (by intro c hc; simp only [List.mem_cons, List.mem_singleton, List.not_mem_nil,
        or_false] at hc; rcases hc with e | e <;> subst e <;> simp [StackOperator]),
    by decide⟩

/-! ## The operator stack is ranked -/

/-- A reduction loop that completes leaves a suffix of the operator stack, on whose top
the guard of the loop fails. -/
theorem reduceLoop_next_suffix {order : ArgOrder} {cond : Char → Bool} :
    ∀ (n : Nat) (st st1 : Stacks), st.operatorStack.length ≤ n →
      reduceLoop order cond n st = Flow.next st1 →
      List.IsSuffix st1.operatorStack st.operatorStack ∧
        (∀ t, st1.operatorStack.head? = some t → cond t = false) := by
  intro n
  induction n with
  | zero =>
    intro st st1 hn h
    obtain ⟨vs, os⟩ := st
    cases os with
    | nil =>
      rw [reduceLoop_nil] at h
      cases h
      exact ⟨List.suffix_refl _, fun t ht => by cases ht⟩
    | cons top os => simp at hn
  | succ n ih =>
    intro st st1 hn h
    obtain ⟨vs, os⟩ := st
    cases os with
    | nil =>
      rw [reduceLoop_nil] at h
      cases h
      exact ⟨List.suffix_refl _, fun t ht => by cases ht⟩
    | cons top os =>
      cases hc : cond top with
      | false =>
        rw [reduceLoop_stop _ _ _ _ _ _ hc] at h
        cases h
        refine ⟨List.suffix_refl _, fun t ht => ?_⟩
        simp only [List.head?_cons, Option.some.injEq] at ht
        subst ht
        exact hc
      | true =>
        rw [reduceLoop_step _ _ _ _ _ _ hc] at h
        cases ht : tryPopEval order ⟨vs, top :: os⟩ with
        | next st2 =>
          rw [ht] at h
          obtain ⟨a, b, vs', op, r, hst, -, -⟩ := tryPopEval_next ht
          have hos : os = st2.operatorStack := by
            have := congrArg Stacks.operatorStack hst
            simp at this
            exact this.2
          obtain ⟨i1, i2⟩ := ih st2 st1 (by rw [← hos]; simpa using hn) h
          refine ⟨?_, i2⟩
          rw [← hos] at i1
          exact List.IsSuffix.trans i1 (List.suffix_cons _ _)
        | ret o => rw [ht] at h; cases h
        | undefined => rw [ht] at h; cases h

theorem eval_open_paren (lhs rhs : Int) : eval lhs rhs '(' = Outcome.exception := by
  simp [eval]

/-- A reduction attempted with `(` on top of the operator stack always fails: for lack
of operands, or because `eval` rejects `(`. -/
theorem tryPopEval_open_paren (order : ArgOrder) (vs : List Int) (os : List Char) :
    tryPopEval order ⟨vs, '(' :: os⟩ = Flow.ret [Printed.tooManyOperators] := by
  match vs with
  | [] => exact tryPopEval_short _ _ (by simp)
  | [x] => exact tryPopEval_short _ _ (by simp)
  | b :: a :: vs =>
    rw [tryPopEval_cons]
    cases order <;> simp [applyOp, eval_open_paren]

/-- The function `evalArguments` names the arguments of the `eval` call of `popAndEval`. -/
theorem popAndEval_evalArguments (order : ArgOrder) (st : Stacks) :
    popAndEval order st =
      match evalArguments order st with
      | none => Outcome.exception
      | some (lhs, rhs, op) =>
        match eval lhs rhs op with
        | Outcome.ok r => Outcome.ok ⟨r :: st.valueStack.tail.tail, st.operatorStack.tail⟩
        | Outcome.exception => Outcome.exception
        | Outcome.undefined => Outcome.undefined := by
  obtain ⟨vs, os⟩ := st
  match vs, os with
  | [], _ => rw [popAndEval_short _ _ (by simp)]; rfl
  | [x], _ => rw [popAndEval_short _ _ (by simp)]; simp [evalArguments]
  | b :: a :: vs, [] => rw [popAndEval_nil]; rfl
  | b :: a :: vs, op :: os =>
    rw [popAndEval_cons]
    cases order <;> rfl

/-- A reduction loop that never reduces `(` and completes leaves as many `(` on the
operator stack as there were. -/
theorem reduceLoop_count_paren {order : ArgOrder} {cond : Char → Bool}
    (hc : cond '(' = false) :
    ∀ (n : Nat) (st st1 : Stacks), reduceLoop order cond n st = Flow.next st1 →
      st1.operatorStack.count '(' = st.operatorStack.count '(' := by
  intro n
  induction n with
  | zero => intro st st1 h; cases h; rfl
  | succ n ih =>
    intro st st1 h
    obtain ⟨vs, os⟩ := st
    cases os with
    | nil => rw [reduceLoop_nil] at h; cases h; rfl
    | cons top os =>
      cases hct : cond top with
      | false => rw [reduceLoop_stop _ _ _ _ _ _ hct] at h; cases h; rfl
      | true =>
        have htop : '(' ≠ top := by
          intro e
          rw [← e, hc] at hct
          cases hct
        rw [reduceLoop_step _ _ _ _ _ _ hct] at h
        cases ht : tryPopEval order ⟨vs, top :: os⟩ with
        | next st2 =>
          rw [ht] at h
          obtain ⟨a, b, vs', op, r, hst, -, -⟩ := tryPopEval_next ht
          have hos : os = st2.operatorStack := by
            have := congrArg Stacks.operatorStack hst
            simp at this
            exact this.2
          rw [ih st2 st1 h, ← hos]
          simp only [List.count_cons_of_ne htop]
        | ret o => rw [ht] at h; cases h
        | undefined => rw [ht] at h; cases h

/-- The number of `(` on the operator stack changes only with the tokens `(` and `)`:
a `(` adds one, a `)` takes one away, every other token leaves it as it is. -/
theorem processToken_count_paren {order : ArgOrder} {tok : Token} {st st1 : Stacks}
    (h : (processToken false order tok st).2 = Flow.next st1) :
    (tok.type = TokenType.OPERATOR ∧ tok.op = '(' ∧
      st1.operatorStack.count '(' = st.operatorStack.count '(' + 1) ∨
    (tok.type = TokenType.OPERATOR ∧ tok.op = ')' ∧
      st1.operatorStack.count '(' + 1 = st.operatorStack.count '(') ∨
    (¬ (tok.type = TokenType.OPERATOR ∧ (tok.op = '(' ∨ tok.op = ')')) ∧
      st1.operatorStack.count '(' = st.operatorStack.count '(') := by
  by_cases hv : tok.type = TokenType.VALUE
  · rw [processToken_value _ _ _ hv] at h
    cases h
    exact Or.inr (Or.inr ⟨(fun hh => by rw [hv] at hh; cases hh.1), rfl⟩)
  by_cases ho : tok.type = TokenType.OPERATOR
  · rw [processToken_operator _ _ _ ho] at h
    by_cases h1 : tok.op = '('
    · rw [h1, processOperator_open] at h
      cases h
      exact Or.inl ⟨ho, h1, by simp⟩
    by_cases h2 : tok.op = '+' ∨ tok.op = '-'
    · have hne : ¬ (tok.type = TokenType.OPERATOR ∧ (tok.op = '(' ∨ tok.op = ')')) := by
        rintro ⟨-, e | e⟩
        · exact h1 e
        · rcases h2 with f | f <;> rw [f] at e <;> revert e <;> decide
      have hop : '(' ≠ tok.op := fun e => h1 e.symm
      rw [processOperator_addsub _ _ _ h2] at h
      cases hl : loop1 order st with
      | next s =>
        rw [hl] at h
        cases h
        refine Or.inr (Or.inr ⟨hne, ?_⟩)
        simp only [List.count_cons_of_ne hop]
        exact reduceLoop_count_paren (by decide) _ st s hl
      | ret o => rw [hl] at h; cases h
      | undefined => rw [hl] at h; cases h
    by_cases h3 : tok.op = '*' ∨ tok.op = '/'
    · have hne : ¬ (tok.type = TokenType.OPERATOR ∧ (tok.op = '(' ∨ tok.op = ')')) := by
        rintro ⟨-, e | e⟩
        · exact h1 e
        · rcases h3 with f | f <;> rw [f] at e <;> revert e <;> decide
      have hop : '(' ≠ tok.op := fun e => h1 e.symm
      rw [processOperator_muldiv _ _ _ h3] at h
      cases hl : loop2 order st with
      | next s =>
        rw [hl] at h
        cases h
        refine Or.inr (Or.inr ⟨hne, ?_⟩)
        simp only [List.count_cons_of_ne hop]
        exact reduceLoop_count_paren (by decide) _ st s hl
      | ret o => rw [hl] at h; cases h
      | undefined => rw [hl] at h; cases h
    by_cases h4 : tok.op = ')'
    · rw [h4, processOperator_close] at h
      cases hl : unwindToParen order st with
      | next s =>
        rw [hl] at h
        have hcount := @reduceLoop_count_paren order (fun top => top != '(') (by decide)
          _ st s hl
        obtain ⟨-, i2⟩ := reduceLoop_next_suffix _ st s (le_refl _) hl
        obtain ⟨vs, os⟩ := s
        cases os with
        | nil => simp [Stack.isEmpty, Vector.isEmpty] at h
        | cons top os =>
          have htop : top = '(' := by simpa using i2 top rfl
          subst htop
          simp only [Stack.isEmpty, Vector.isEmpty, List.isEmpty_cons, Bool.false_eq_true,
            if_false, Stack.pop, Vector.pop_back, Flow.next.injEq] at h
          subst h
          refine Or.inr (Or.inl ⟨ho, h4, ?_⟩)
          rw [← hcount]
          simp
      | ret o => rw [hl] at h; cases h
      | undefined => rw [hl] at h; cases h
    · have hi := fun s => processOperator_ignored order tok.op s
        h1 (fun e => h2 (Or.inl e)) (fun e => h2 (Or.inr e))
        (fun e => h3 (Or.inl e)) (fun e => h3 (Or.inr e)) h4
      rw [hi] at h
      cases h
      exact Or.inr (Or.inr ⟨(fun hh => hh.2.elim h1 h4), rfl⟩)
  · rw [processToken_other _ _ _ hv ho] at h
    cases h


/-! ## The record of reduction attempts -/

/-- Without its record, `reduceLoopLog` is the loop `reduceLoop`. -/
theorem reduceLoopLog_flow (order : ArgOrder) (cond : Char → Bool) :
    ∀ (n : Nat) (st : Stacks),
      (reduceLoopLog order cond n st).2 = reduceLoop order cond n st := by
  intro n
  induction n with
  | zero => intro st; rfl
  | succ n ih =>
    intro st
    obtain ⟨vs, os⟩ := st
    cases os with
    | nil => rfl
    | cons top os =>
      cases hct : cond top with
      | false => simp only [reduceLoopLog, reduceLoop, hct, Bool.false_eq_true, if_false]
      | true =>
        simp only [reduceLoopLog, reduceLoop, hct, if_true]
        cases ht : tryPopEval order ⟨vs, top :: os⟩ with
        | next st1 => exact ih st1
        | ret out => rfl
        | undefined => rfl

/-- Without its record, `processOperatorLog` is the switch `processOperator` with its
loops `loop1`, `loop2` and the loop of `')'`. -/
theorem processOperatorLog_flow (order : ArgOrder) (op : Char) (st : Stacks) :
    (processOperatorLog order op st).2 = processOperator order op st := by
  unfold processOperatorLog processOperator loop1 loop2 unwindToParen
  split_ifs <;> simp only [reduceLoopLog_flow]

/-- Without its record, `drainLog` is the final drain. -/
theorem drainLog_flow (order : ArgOrder) (st : Stacks) :
    (drainLog order st).2 = drain order st :=
  reduceLoopLog_flow order _ _ st

theorem reduceLoopLog_nil (order : ArgOrder) (cond : Char → Bool) (n : Nat) (vs : List Int) :
    (reduceLoopLog order cond n ⟨vs, []⟩).1 = [] := by
  cases n <;> rfl

theorem reduceLoopLog_stop (order : ArgOrder) (cond : Char → Bool) (n : Nat) (vs : List Int)
    (top : Char) (os : List Char) (h : cond top = false) :
    (reduceLoopLog order cond n ⟨vs, top :: os⟩).1 = [] := by
  cases n
  · rfl
  · simp only [reduceLoopLog, h, Bool.false_eq_true, if_false]

theorem reduceLoopLog_step (order : ArgOrder) (cond : Char → Bool) (n : Nat) (vs : List Int)
    (top : Char) (os : List Char) (h : cond top = true) :
    (reduceLoopLog order cond (n + 1) ⟨vs, top :: os⟩).1 =
      match tryPopEval order ⟨vs, top :: os⟩ with
      | Flow.next st1 => ⟨vs, top :: os⟩ :: (reduceLoopLog order cond n st1).1
      | Flow.ret _ => [⟨vs, top :: os⟩]
      | Flow.undefined => [⟨vs, top :: os⟩] := by
  simp only [reduceLoopLog, h, if_true]
  cases tryPopEval order ⟨vs, top :: os⟩ <;> rfl

/-- Every recorded attempt is made with the loop's guard true: the operator stack is
not empty and its top satisfies the loop's condition. -/
theorem reduceLoopLog_guard {order : ArgOrder} {cond : Char → Bool} :
    ∀ (n : Nat) (st s : Stacks), s ∈ (reduceLoopLog order cond n st).1 →
      ∃ top os, s.operatorStack = top :: os ∧ cond top = true := by
  intro n
  induction n with
  | zero => intro st s h; simp [reduceLoopLog] at h
  | succ n ih =>
    intro st s h
    obtain ⟨vs, os⟩ := st
    cases os with
    | nil => rw [reduceLoopLog_nil] at h; cases h
    | cons top os =>
      cases hct : cond top with
      | false => rw [reduceLoopLog_stop _ _ _ _ _ _ hct] at h; cases h
      | true =>
        rw [reduceLoopLog_step _ _ _ _ _ _ hct] at h
        cases ht : tryPopEval order ⟨vs, top :: os⟩ with
        | next st1 =>
          rw [ht] at h
          rcases List.mem_cons.mp h with e | e
          · rw [e]; exact ⟨top, os, rfl, hct⟩
          · exact ih st1 s e
        | ret o =>
          rw [ht] at h
          rw [List.mem_singleton.mp h]; exact ⟨top, os, rfl, hct⟩
        | undefined =>
          rw [ht] at h
          rw [List.mem_singleton.mp h]; exact ⟨top, os, rfl, hct⟩

/-- A recorded attempt that fails is the last one: its outcome is the outcome of the
loop. -/
theorem reduceLoopLog_fail {order : ArgOrder} {cond : Char → Bool} :
    ∀ (n : Nat) (st s : Stacks), s ∈ (reduceLoopLog order cond n st).1 →
      (∀ s1, tryPopEval order s ≠ Flow.next s1) →
      reduceLoop order cond n st = tryPopEval order s := by
  intro n
  induction n with
  | zero => intro st s h; simp [reduceLoopLog] at h
  | succ n ih =>
    intro st s h hfail
    obtain ⟨vs, os⟩ := st
    cases os with
    | nil => rw [reduceLoopLog_nil] at h; cases h
    | cons top os =>
      cases hct : cond top with
      | false => rw [reduceLoopLog_stop _ _ _ _ _ _ hct] at h; cases h
      | true =>
        rw [reduceLoopLog_step _ _ _ _ _ _ hct] at h
        rw [reduceLoop_step _ _ _ _ _ _ hct]
        cases ht : tryPopEval order ⟨vs, top :: os⟩ with
        | next st1 =>
          rw [ht] at h
          rcases List.mem_cons.mp h with e | e
          · rw [e] at hfail; exact absurd ht (hfail st1)
          · exact ih st1 s e hfail
        | ret o =>
          rw [ht] at h
          rw [List.mem_singleton.mp h, ht]
        | undefined =>
          rw [ht] at h
          rw [List.mem_singleton.mp h, ht]

theorem operatorAttempts_open (order : ArgOrder) (st : Stacks) :
    operatorAttempts order '(' st = [] := by
  simp [operatorAttempts, processOperatorLog]

theorem operatorAttempts_addsub (order : ArgOrder) (op : Char) (st : Stacks)
    (h : op = '+' ∨ op = '-') :
    operatorAttempts order op st =
      (reduceLoopLog order (fun top => top = '+' || top = '-' || top = '*' || top = '/')
        st.operatorStack.length st).1 := by
  have hne : op ≠ '(' := by rcases h with h | h <;> rw [h] <;> decide
  simp only [operatorAttempts, processOperatorLog, hne, if_false, h, if_true]

theorem operatorAttempts_muldiv (order : ArgOrder) (op : Char) (st : Stacks)
    (h : op = '*' ∨ op = '/') :
    operatorAttempts order op st =
      (reduceLoopLog order (fun top => top = '*' || top = '/')
        st.operatorStack.length st).1 := by
  have hne : op ≠ '(' := by rcases h with h | h <;> rw [h] <;> decide
  have hne2 : ¬ (op = '+' ∨ op = '-') := by rcases h with h | h <;> rw [h] <;> decide
  simp only [operatorAttempts, processOperatorLog, hne, hne2, if_false, h, if_true]

theorem operatorAttempts_close (order : ArgOrder) (st : Stacks) :
    operatorAttempts order ')' st =
      (reduceLoopLog order (fun top => top != '(') st.operatorStack.length st).1 := by
  have h1 : ¬ ((')' : Char) = '(') := by decide
  have h2 : ¬ ((')' : Char) = '+' ∨ (')' : Char) = '-') := by decide
  have h3 : ¬ ((')' : Char) = '*' ∨ (')' : Char) = '/') := by decide
  simp only [operatorAttempts, processOperatorLog, h1, h2, h3, if_false, if_true]

theorem operatorAttempts_ignored (order : ArgOrder) (op : Char) (st : Stacks)
    (h1 : op ≠ '(') (h2 : op ≠ '+') (h3 : op ≠ '-') (h4 : op ≠ '*') (h5 : op ≠ '/')
    (h6 : op ≠ ')') : operatorAttempts order op st = [] := by
  simp [operatorAttempts, processOperatorLog, h1, h2, h3, h4, h5, h6]

/-- An attempt of an operator's loop that fails is the outcome of `processOperator`. -/
theorem processOperator_fail {order : ArgOrder} {op : Char} {st s : Stacks}
    (hs : s ∈ operatorAttempts order op st)
    (hfail : ∀ s1, tryPopEval order s ≠ Flow.next s1) :
    processOperator order op st = tryPopEval order s := by
  have hpass : ∀ (f : Stacks → Flow),
      (match tryPopEval order s with
        | Flow.next st1 => f st1
        | Flow.ret out => Flow.ret out
        | Flow.undefined => Flow.undefined) = tryPopEval order s := by
    intro f
    cases ht : tryPopEval order s with
    | next s1 => exact absurd ht (hfail s1)
    | ret out => rfl
    | undefined => rfl
  by_cases h1 : op = '('
  · rw [h1, operatorAttempts_open] at hs; cases hs
  by_cases h2 : op = '+' ∨ op = '-'
  · rw [operatorAttempts_addsub _ _ _ h2] at hs
    rw [processOperator_addsub _ _ _ h2, loop1, reduceLoopLog_fail _ _ _ hs hfail]
    exact hpass _
  by_cases h3 : op = '*' ∨ op = '/'
  · rw [operatorAttempts_muldiv _ _ _ h3] at hs
    rw [processOperator_muldiv _ _ _ h3, loop2, reduceLoopLog_fail _ _ _ hs hfail]
    exact hpass _
  by_cases h4 : op = ')'
  · rw [h4, operatorAttempts_close] at hs
    rw [h4, processOperator_close, unwindToParen, reduceLoopLog_fail _ _ _ hs hfail]
    exact hpass _
  · rw [operatorAttempts_ignored order op st h1 (fun e => h2 (Or.inl e))
      (fun e => h2 (Or.inr e)) (fun e => h3 (Or.inl e)) (fun e => h3 (Or.inr e)) h4] at hs
    cases hs

/-- An attempt that throws while the token `tok` is handled ends `processExpression`:
the message of `tryPopEval()` is printed after the token's trace and the token source
is left as it was. -/
theorem tokenLoop_attempt_ret {σ : Type} (debugMode : Bool) (order : ArgOrder)
    (nx : σ → Token × σ × List Printed) (fuel : Nat) (tok : Token) (tr : σ)
    (st s : Stacks) (out : List Printed)
    (hs : s ∈ tokenAttempts order tok st) (hret : tryPopEval order s = Flow.ret out) :
    tokenLoop debugMode order nx (fuel + 1) tok tr st
      = ⟨traceOf debugMode tok ++ out, Status.returned, tr⟩ := by
  have hfail : ∀ s1, tryPopEval order s ≠ Flow.next s1 := by
    intro s1 h
    rw [hret] at h
    cases h
  by_cases he : tok.type = TokenType.EOLN
  · rw [tokenLoop_eoln _ _ _ _ _ _ _ he]
    have ht : traceOf debugMode tok = [] := by simp [traceOf, he]
    simp only [tokenAttempts, Token.getType, he, drainAttempts, drainLog] at hs
    have hd : drain order st = Flow.ret out := by
      unfold drain
      rw [reduceLoopLog_fail _ _ _ hs hfail, hret]
    simp only [finish, hd, ht, List.nil_append]
  · by_cases hop : tok.type = TokenType.OPERATOR
    · simp only [tokenAttempts, Token.getType, hop, Token.getOperator, if_true] at hs
      rw [tokenLoop_succ _ _ _ _ _ _ _ he, processToken_operator _ _ _ hop,
        processOperator_fail hs hfail, hret]
    · exfalso
      unfold tokenAttempts Token.getType at hs
      split at hs
      · next h => exact hop h
      · next h => exact he h
      · cases hs

theorem runFrom_feed_tr (debugMode : Bool) (order : ArgOrder) (ts more : List Token) :
    ∀ (st st1 : Stacks) (fuel : Nat), feed order ts st = some st1 →
      (runFrom debugMode order (ts.length + fuel) (ts ++ more) st).tr
          = (runFrom debugMode order fuel more st1).tr := by
  induction ts with
  | nil =>
    intro st st1 fuel h
    simp only [feed, Option.some.injEq] at h
    subst h
    simp
  | cons t ts ih =>
    intro st st1 fuel h
    simp only [feed] at h
    by_cases he : t.type = TokenType.EOLN
    · simp [Token.equalsType, he] at h
    · simp only [Token.equalsType, he, decide_False, Bool.false_eq_true, if_false] at h
      have hl : (t :: ts).length + fuel = (ts.length + fuel) + 1 := by
        simp only [List.length_cons]; omega
      rw [hl, List.cons_append, runFrom_cons _ _ _ _ _ _ he]
      cases hp : (processToken false order t st).2 with
      | next st2 =>
        rw [hp] at h
        exact ih st2 st1 fuel h
      | ret out => rw [hp] at h; cases h
      | undefined => rw [hp] at h; cases h

/-- C8. Whenever `processExpression` attempts a reduction while the operand stack holds
fewer than two elements, be it the first reduction of a loop or a later one, in one of
the operator loops or in the final drain at `EOLN`: the attempt `s` fails in
`tryPopEval()`, and `processExpression`, which was handling the token `tok` in the
state `st`, prints `Error: Too many operators.` after the token's debug trace and
nothing else, returns, and leaves the token source as it was. On a token sequence:
if the tokens `ts` lead to the state `st`, the run on `ts`, `tok` and any further tokens
prints exactly that message, no `Result:` line, and the further tokens are left
unread. The attempts are those recorded by `processOperatorLog` and `drainLog`, which
without their record are `processOperator` and the final drain. -/
theorem reduction_underflow_too_many_operators {σ : Type} (debugMode : Bool)
    (order : ArgOrder) (nx : σ → Token × σ × List Printed) (fuel : Nat) (tok : Token)
    (tr : σ) (st s : Stacks)
    (hattempt : s ∈ tokenAttempts order tok st) (hshort : s.valueStack.length < 2) :
    tryPopEval order s = Flow.ret [Printed.tooManyOperators] ∧
    (tokenLoop debugMode order nx (fuel + 1) tok tr st).out
      = traceOf debugMode tok ++ [Printed.tooManyOperators] ∧
    messages (tokenLoop debugMode order nx (fuel + 1) tok tr st).out
      = [Printed.tooManyOperators] ∧
    (tokenLoop debugMode order nx (fuel + 1) tok tr st).status = Status.returned ∧
    (tokenLoop debugMode order nx (fuel + 1) tok tr st).tr = tr ∧
    (∀ (ts rest : List Token), feed order ts ⟨[], []⟩ = some st →
      messages (processTokens debugMode order (ts ++ tok :: rest)).out
        = [Printed.tooManyOperators] ∧
      (processTokens debugMode order (ts ++ tok :: rest)).status = Status.returned ∧
      (processTokens debugMode order (ts ++ tok :: rest)).tr = rest) ∧
    (∀ (op : Char) (st0 : Stacks),
      (processOperatorLog order op st0).2 = processOperator order op st0 ∧
      (drainLog order st0).2 = drain order st0) := by
  have hT := tryPopEval_short order s hshort
  have hmsg : ∀ (t : Token), messages (traceOf debugMode t ++ [Printed.tooManyOperators])
      = [Printed.tooManyOperators] := by
    intro t
    simp only [messages_append, messages_traceOf, List.nil_append]
    simp [messages, Printed.isLog]
  refine ⟨hT, ?_, ?_, ?_, ?_, ?_,
    fun op st0 => ⟨processOperatorLog_flow order op st0, drainLog_flow order st0⟩⟩
  · rw [tokenLoop_attempt_ret debugMode order nx fuel tok tr st s _ hattempt hT]
  · rw [tokenLoop_attempt_ret debugMode order nx fuel tok tr st s _ hattempt hT]
    exact hmsg tok
  · rw [tokenLoop_attempt_ret debugMode order nx fuel tok tr st s _ hattempt hT]
  · rw [tokenLoop_attempt_ret debugMode order nx fuel tok tr st s _ hattempt hT]
  · intro ts rest hfeed
    have hlen : (ts ++ tok :: rest).length + 2 = ts.length + (rest.length + 2 + 1) := by
      simp only [List.length_append, List.length_cons]; omega
    have hrun : runFrom debugMode order (rest.length + 2 + 1) (tok :: rest) st
        = ⟨traceOf debugMode tok ++ [Printed.tooManyOperators], Status.returned, rest⟩ := by
      simp only [runFrom, nextOfList]
      exact tokenLoop_attempt_ret debugMode order nextOfList _ tok rest st s _ hattempt hT
    rw [processTokens_eq_runFrom, hlen]
    obtain ⟨r1, r2⟩ := runFrom_feed debugMode order ts (tok :: rest) ⟨[], []⟩ st
      (rest.length + 2 + 1) hfeed
    have r3 := runFrom_feed_tr debugMode order ts (tok :: rest) ⟨[], []⟩ st
      (rest.length + 2 + 1) hfeed
    rw [r1, r2, r3, hrun]
    exact ⟨hmsg tok, rfl, rfl⟩

/-- C8, on the line `1+*2`: at `EOLN` the operand stack holds `2` and `1`, the final
drain reduces `*` and then attempts `+` with the single operand `2`; and at the second
`+` of `1++2`, where the further tokens `2` and `EOLN` are left unread. -/
theorem reduction_underflow_too_many_operators_witness :
    (⟨[2], ['+']⟩ : Stacks) ∈ tokenAttempts ArgOrder.rightToLeft tEoln ⟨[2, 1], ['*', '+']⟩ ∧
    ((⟨[2], ['+']⟩ : Stacks).valueStack.length < 2) ∧
    feed ArgOrder.rightToLeft [tVal 1, tOp '+', tOp '*', tVal 2] ⟨[], []⟩
      = some ⟨[2, 1], ['*', '+']⟩ ∧
    messages (processTokens false ArgOrder.rightToLeft
      ([tVal 1, tOp '+', tOp '*', tVal 2] ++ tEoln :: [])).out = [Printed.tooManyOperators] ∧
    (processTokens false ArgOrder.rightToLeft
      ([tVal 1, tOp '+', tOp '*', tVal 2] ++ tEoln :: [])).status = Status.returned ∧
    (processTokens false ArgOrder.rightToLeft
      ([tVal 1, tOp '+', tOp '+', tVal 2, tEoln])).out = [Printed.tooManyOperators] ∧
    (processTokens false ArgOrder.rightToLeft
      ([tVal 1, tOp '+', tOp '+', tVal 2, tEoln])).tr = [tVal 2, tEoln] :=
  have h := (reduction_underflow_too_many_operators false ArgOrder.rightToLeft nextOfList 0
    tEoln [] ⟨[2, 1], ['*', '+']⟩ ⟨[2], ['+']⟩ (by decide) (by decide)).2.2.2.2.2.1
      [tVal 1, tOp '+', tOp '*', tVal 2] [] (by decide)
  ⟨by decide, by decide, by decide, h.1, h.2.1, by decide, by decide⟩

/-! ## Where a `(` is reduced -/

theorem evalArguments_head {order : ArgOrder} {s : Stacks} {lhs rhs : Int} {op : Char}
    (h : evalArguments order s = some (lhs, rhs, op)) : s.operatorStack.head? = some op := by
  obtain ⟨vs, os⟩ := s
  match vs, os with
  | [], _ => simp [evalArguments] at h
  | [x], _ => simp [evalArguments] at h
  | b :: a :: vs, [] => simp [evalArguments] at h
  | b :: a :: vs, top :: os =>
    cases order <;> simp [evalArguments] at h <;> simp [h.2.2]

/-- While a token other than `EOLN` is handled, no reduction is attempted with `(` on top
of the operator stack. -/
theorem tokenAttempts_no_paren (order : ArgOrder) (tok : Token) (st s : Stacks)
    (he : tok.type ≠ TokenType.EOLN) (hs : s ∈ tokenAttempts order tok st) :
    s.operatorStack.head? ≠ some '(' := by
  have hguard : ∀ (cond : Char → Bool) (n : Nat), cond '(' = false →
      s ∈ (reduceLoopLog order cond n st).1 → s.operatorStack.head? ≠ some '(' := by
    intro cond n hc h
    obtain ⟨top, os, e1, e2⟩ := reduceLoopLog_guard n st s h
    rw [e1]
    intro e
    simp only [List.head?_cons, Option.some.injEq] at e
    rw [e, hc] at e2
    cases e2
  by_cases hop : tok.type = TokenType.OPERATOR
  · simp only [tokenAttempts, Token.getType, hop, Token.getOperator, if_true] at hs
    by_cases h1 : tok.op = '('
    · rw [h1, operatorAttempts_open] at hs; cases hs
    by_cases h2 : tok.op = '+' ∨ tok.op = '-'
    · rw [operatorAttempts_addsub _ _ _ h2] at hs
      exact hguard _ _ (by decide) hs
    by_cases h3 : tok.op = '*' ∨ tok.op = '/'
    · rw [operatorAttempts_muldiv _ _ _ h3] at hs
      exact hguard _ _ (by decide) hs
    by_cases h4 : tok.op = ')'
    · rw [h4, operatorAttempts_close] at hs
      exact hguard _ _ (by decide) hs
    · rw [operatorAttempts_ignored order tok.op st h1 (fun e => h2 (Or.inl e))
        (fun e => h2 (Or.inr e)) (fun e => h3 (Or.inl e)) (fun e => h3 (Or.inr e)) h4] at hs
      cases hs
  · exfalso
    unfold tokenAttempts Token.getType at hs
    split at hs
    · next h => exact hop h
    · next h => exact he h
    · cases hs

/-- With a `(` on the operator stack, the final drain ends in a failed attempt that is
made while the `(` is still on the stack. -/
theorem drainLog_paren {order : ArgOrder} :
    ∀ (n : Nat) (st : Stacks), '(' ∈ st.operatorStack → st.operatorStack.length ≤ n →
      ∃ s ∈ (reduceLoopLog order (fun _ => true) n st).1,
        reduceLoop order (fun _ => true) n st = tryPopEval order s ∧
        (∀ s1, tryPopEval order s ≠ Flow.next s1) ∧ '(' ∈ s.operatorStack := by
  intro n
  induction n with
  | zero =>
    intro st hmem hlen
    have : st.operatorStack = [] := List.length_eq_zero.mp (Nat.le_zero.mp hlen)
    rw [this] at hmem
    cases hmem
  | succ n ih =>
    intro st hmem hlen
    obtain ⟨vs, os⟩ := st
    cases os with
    | nil => cases hmem
    | cons top os =>
      rw [reduceLoopLog_step order (fun _ => true) n vs top os rfl,
        reduceLoop_step order (fun _ => true) n vs top os rfl]
      cases ht : tryPopEval order ⟨vs, top :: os⟩ with
      | next st1 =>
        have htop : top ≠ '(' := by
          intro e
          rw [e, tryPopEval_open_paren] at ht
          cases ht
        obtain ⟨a, b, vs1, op, r, hst, -, -⟩ := tryPopEval_next ht
        have hos : os = st1.operatorStack := by
          have := congrArg Stacks.operatorStack hst
          simp at this
          exact this.2
        have hmem1 : '(' ∈ st1.operatorStack := by
          rw [← hos]
          rcases List.mem_cons.mp hmem with e | e
          · exact absurd e.symm htop
          · exact e
        have hlen1 : st1.operatorStack.length ≤ n := by
          rw [← hos]
          simp only [List.length_cons] at hlen
          omega
        obtain ⟨s, h1, h2, h3, h4⟩ := ih st1 hmem1 hlen1
        exact ⟨s, List.mem_cons_of_mem _ h1, h2, h3, h4⟩
      | ret o =>
        refine ⟨⟨vs, top :: os⟩, List.mem_singleton.mpr rfl, ht.symm, ?_, hmem⟩
        intro s1 h
        rw [ht] at h
        cases h
      | undefined =>
        refine ⟨⟨vs, top :: os⟩, List.mem_singleton.mpr rfl, ht.symm, ?_, hmem⟩
        intro s1 h
        rw [ht] at h
        cases h

/-- C14 (as stated, refuted). The line `1(2`: the three tokens are processed without an
error and leave `(` on the operator stack over the operands 2 and 1; at `EOLN` the
final drain attempts a reduction with `(` as the top of the operator stack, `eval` is
called with the operator `(` (arguments 1 and 2), and the `(` leaves the stack through
that reduction, not through a `)`: `Error: Too many operators.` is printed. On the line
`(1+` the drain fails at the `+` above the `(` and does not reach it. -/
theorem open_paren_reduced_at_eoln_counterexample :
    feed ArgOrder.rightToLeft [tVal 1, tOp '(', tVal 2] ⟨[], []⟩ = some ⟨[2, 1], ['(']⟩ ∧
    drainAttempts ArgOrder.rightToLeft ⟨[2, 1], ['(']⟩ = [⟨[2, 1], ['(']⟩] ∧
    tokenAttempts ArgOrder.rightToLeft tEoln ⟨[2, 1], ['(']⟩ = [⟨[2, 1], ['(']⟩] ∧
    (⟨[2, 1], ['(']⟩ : Stacks).operatorStack.head? = some '(' ∧
    evalArguments ArgOrder.rightToLeft ⟨[2, 1], ['(']⟩ = some (1, 2, '(') ∧
    eval 1 2 '(' = Outcome.exception ∧
    (processTokens false ArgOrder.rightToLeft [tVal 1, tOp '(', tVal 2, tEoln]).out
      = [Printed.tooManyOperators] ∧
    feed ArgOrder.rightToLeft [tOp '(', tVal 1, tOp '+'] ⟨[], []⟩ = some ⟨[1], ['+', '(']⟩ ∧
    drainAttempts ArgOrder.rightToLeft ⟨[1], ['+', '(']⟩ = [⟨[1], ['+', '(']⟩] := by
  refine ⟨by decide, by decide, by decide, rfl, rfl, by decide, by decide, by decide,
    by decide⟩

/-- C14 (amended). While `processExpression` handles a token other than `EOLN`, `(` is
never reduced: none of the reductions attempted by the loops of `+ - * /` and `)` has
`(` as the top of the operator stack, and none of their `eval` calls has `(` as its
operator; the number of `(` on the operator stack goes up by one with a token `(`,
down by one with a token `)` and is left as it is by every other token. The final
drain at `EOLN` is the exception: it reduces whatever is on top. With a `(` on the
operator stack it ends in a failed attempt that is made while the `(` is still on the
stack, either at an operator above the `(` or at the `(` itself; with the `(` on top,
the drain attempts the reduction of that `(`, which fails with
`Error: Too many operators.` The attempts are those recorded by `processOperatorLog`
and `drainLog`, which without their record are `processOperator` and the final
drain. -/
theorem open_paren_reduced_only_by_final_drain (order : ArgOrder) :
    (∀ (tok : Token) (st s : Stacks), tok.type ≠ TokenType.EOLN →
      s ∈ tokenAttempts order tok st →
      s.operatorStack.head? ≠ some '(' ∧
      ∀ (lhs rhs : Int) (o : Char), evalArguments order s = some (lhs, rhs, o) → o ≠ '(') ∧
    (∀ (debugMode : Bool) (tok : Token) (st st1 : Stacks),
      (processToken debugMode order tok st).2 = Flow.next st1 →
      (tok.type = TokenType.OPERATOR ∧ tok.op = '(' ∧
        st1.operatorStack.count '(' = st.operatorStack.count '(' + 1) ∨
      (tok.type = TokenType.OPERATOR ∧ tok.op = ')' ∧
        st1.operatorStack.count '(' + 1 = st.operatorStack.count '(') ∨
      (¬ (tok.type = TokenType.OPERATOR ∧ (tok.op = '(' ∨ tok.op = ')')) ∧
        st1.operatorStack.count '(' = st.operatorStack.count '(')) ∧
    (∀ (st : Stacks), '(' ∈ st.operatorStack →
      ∃ s ∈ tokenAttempts order tEoln st,
        drain order st = tryPopEval order s ∧
        (∀ s1, tryPopEval order s ≠ Flow.next s1) ∧ '(' ∈ s.operatorStack) ∧
    (∀ (vs : List Int) (os : List Char),
      tokenAttempts order tEoln ⟨vs, '(' :: os⟩ = [⟨vs, '(' :: os⟩] ∧
      tryPopEval order ⟨vs, '(' :: os⟩ = Flow.ret [Printed.tooManyOperators] ∧
      drain order ⟨vs, '(' :: os⟩ = Flow.ret [Printed.tooManyOperators]) ∧
    (∀ (op : Char) (st : Stacks),
      (processOperatorLog order op st).2 = processOperator order op st ∧
      (drainLog order st).2 = drain order st) := by
  have hE : ∀ st, tokenAttempts order tEoln st
      = (reduceLoopLog order (fun _ => true) st.operatorStack.length st).1 := fun _ => rfl
  refine ⟨?_, ?_, ?_, ?_,
    fun op st => ⟨processOperatorLog_flow order op st, drainLog_flow order st⟩⟩
  · intro tok st s he hs
    have hh := tokenAttempts_no_paren order tok st s he hs
    refine ⟨hh, ?_⟩
    intro lhs rhs o hev ho
    rw [evalArguments_head hev, ho] at hh
    exact hh rfl
  · intro debugMode tok st st1 h
    rw [processToken_snd] at h
    exact processToken_count_paren h
  · intro st hmem
    rw [hE]
    exact drainLog_paren _ st hmem (le_refl _)
  · intro vs os
    have ht := tryPopEval_open_paren order vs os
    refine ⟨?_, ht, ?_⟩
    · rw [hE]
      simp only [List.length_cons]
      rw [reduceLoopLog_step order (fun _ => true) _ vs '(' os rfl, ht]
    · unfold drain
      simp only [List.length_cons]
      rw [reduceLoop_step _ _ _ _ _ _ rfl, ht]

end Calculator
